import Mathlib

/-!
FAudio platform layer (cubeb / SDL2 back-end) and FACT helpers

A shallow embedding of `src/FAudio_platform_sdl2.c` (both builds: with
`FNA_USE_CUBEB_FOR_AUDIO`, called the cubeb build, and without, called the SDL
build) and of the helper functions of `src/FACT_internal.h`.

Conventions of the embedding:

* memory is a list of bytes, a byte is a natural number; a pointer into a
  buffer is the byte offset from the start of that buffer;
* `size_t` quantities are natural numbers: every size that occurs is the
  size of a buffer that exists in memory, so `size_t` sums and products do not
  wrap, and in a well-formed ring no difference of sizes goes below zero;
  narrower integer types are reduced explicitly where the source stores into
  them, and so is the one `size_t` difference that can wrap
  (`len -= sizeof (uint16_t)` in `FAudio_UTF8_To_UTF16`);
* a `float` sample is four opaque bytes: the mixer only moves samples around;
* what is defined outside these sources (the engine tick, SDL and cubeb
  values, constants of `FAudio.h`) is a parameter of the definitions.
-/

namespace FAudioPlatform

/-! ## Raw memory -/

/-- The bytes `mem[off .. off + n)`: what `SDL_memcpy(dst, mem + off, n)` copies. -/
def memRead (mem : List Nat) (off n : Nat) : List Nat :=
  (mem.drop off).take n

/-- The memory after `SDL_memcpy(mem + off, data, data.length)`. -/
def memWrite (mem : List Nat) (off : Nat) (data : List Nat) : List Nat :=
  mem.take off ++ data ++ mem.drop (off + data.length)

/-! ## The ring buffer (`FRingBuffer`, lines 46-128) -/

/-- The struct `FRingBuffer`; `buffer` is the content of the allocated block. -/
structure FRingBuffer where
  buffer : List Nat
  pointer_push : Nat
  pointer_pop : Nat
  max : Nat
  available : Nat
deriving DecidableEq, Repr

/-- `FRingBuffer_Init(ring, size)` for a non-null `ring`.  `block` is what
`malloc(size)` returned: `none` for `NULL`, otherwise the (uninitialised)
content of the block.  Returns the status byte and the ring. -/
def FRingBuffer_Init (block : Option (List Nat)) (size : Nat) : Nat × FRingBuffer :=
  let ring : FRingBuffer :=
    { buffer := block.getD [], pointer_push := 0, pointer_pop := 0,
      available := 0, max := size }
  match block with
  | none => (0, ring)
  | some _ => (1, ring)

/-- The branch `ring->max < size` of `FRingBuffer_Push` ("Pushing too much"). -/
def FRingBuffer_Push_rejects (ring : FRingBuffer) (size : Nat) : Bool :=
  decide (ring.max < size)

/-- `FRingBuffer_Push(ring, data, size)` where `data` holds the `size` bytes
at the source pointer. -/
def FRingBuffer_Push (ring : FRingBuffer) (data : List Nat) : FRingBuffer :=
  let size := data.length
  if ring.max < size then
    ring
  else
    let available := ring.available + size
    let firstPassPushSize :=
      if ring.pointer_push + size > ring.max then ring.max - ring.pointer_push else size
    let buffer1 := memWrite ring.buffer ring.pointer_push (data.take firstPassPushSize)
    if firstPassPushSize = size then
      { ring with available := available, buffer := buffer1,
                  pointer_push := ring.pointer_push + size }
    else
      let secondPassPushSize := size - firstPassPushSize
      let buffer2 := memWrite buffer1 0 (memRead data firstPassPushSize secondPassPushSize)
      { ring with available := available, buffer := buffer2,
                  pointer_push := secondPassPushSize }

/-- The byte ranges `(offset, length)` of `ring->buffer` that the two
`SDL_memcpy` calls of `FRingBuffer_Push` store into. -/
def FRingBuffer_Push_stores (ring : FRingBuffer) (size : Nat) : List (Nat × Nat) :=
  if ring.max < size then
    []
  else
    let firstPassPushSize :=
      if ring.pointer_push + size > ring.max then ring.max - ring.pointer_push else size
    if firstPassPushSize = size then
      [(ring.pointer_push, firstPassPushSize)]
    else
      [(ring.pointer_push, firstPassPushSize), (0, size - firstPassPushSize)]

/-- `FRingBuffer_UnreadByteCount`. -/
def FRingBuffer_UnreadByteCount (ring : FRingBuffer) : Nat :=
  ring.available

/-- `FRingBuffer_Pop(ring, data, &count)` for non-null arguments: the ring
afterwards, the bytes stored at `data[0 ..]`, and the new value of `*count`. -/
def FRingBuffer_Pop (ring : FRingBuffer) (count : Nat) : FRingBuffer × List Nat × Nat :=
  let actualPopCount := min (min count ring.available) ring.max
  let popCountPass1 := min actualPopCount (ring.max - ring.pointer_pop)
  let data1 := memRead ring.buffer ring.pointer_pop popCountPass1
  if popCountPass1 ≠ actualPopCount then
    let popCountPass2 := actualPopCount - popCountPass1
    let data2 := memRead ring.buffer 0 popCountPass2
    ({ ring with pointer_pop := popCountPass2,
                 available := ring.available - actualPopCount },
     data1 ++ data2, actualPopCount)
  else
    ({ ring with pointer_pop := ring.pointer_pop + actualPopCount,
                 available := ring.available - actualPopCount },
     data1, actualPopCount)

/-- The byte ranges `(offset, length)` of `ring->buffer` that the
`SDL_memcpy` calls of `FRingBuffer_Pop` load from. -/
def FRingBuffer_Pop_loads (ring : FRingBuffer) (count : Nat) : List (Nat × Nat) :=
  let actualPopCount := min (min count ring.available) ring.max
  let popCountPass1 := min actualPopCount (ring.max - ring.pointer_pop)
  if popCountPass1 ≠ actualPopCount then
    [(ring.pointer_pop, popCountPass1), (0, actualPopCount - popCountPass1)]
  else
    [(ring.pointer_pop, popCountPass1)]

/-- The unread bytes of the ring, oldest first: `available` bytes starting at
`pointer_pop`, wrapping around at `max`. -/
def FRingBuffer.unread (ring : FRingBuffer) : List Nat :=
  ((ring.buffer ++ ring.buffer).drop ring.pointer_pop).take ring.available

/-- The representation invariant of a ring: the block has `max` bytes, both
cursors and the unread count are at most `max`, and the push cursor is
`available` bytes ahead of the pop cursor, modulo `max`. -/
def FRingBuffer.WF (ring : FRingBuffer) : Prop :=
  ring.buffer.length = ring.max ∧ ring.pointer_push ≤ ring.max ∧
  ring.pointer_pop ≤ ring.max ∧ ring.available ≤ ring.max ∧
  (ring.pointer_pop + ring.available = ring.pointer_push ∨
   ring.pointer_pop + ring.available = ring.pointer_push + ring.max)

instance (ring : FRingBuffer) : Decidable ring.WF := by
  unfold FRingBuffer.WF; infer_instance

/-! ## The cubeb mix callback (lines 134-198) -/

/-- The struct `FCubebAudioStream`, without the cubeb handle.  `tempBuffer`
is scratch memory that is zeroed before each use, so it carries no state. -/
structure FCubebAudioStream where
  ringBuffer : FRingBuffer
  channelCount : Nat
deriving DecidableEq, Repr

/-- The fields of `FAudio` that the platform layer reads, and a counter of the
engine ticks performed so far (the calls of `FAudio_INTERNAL_UpdateEngine`). -/
structure FAudio where
  active : Nat
  updateSize : Nat
  platform : FCubebAudioStream
  tickCount : Nat
deriving DecidableEq, Repr

/-- `FAudio_INTERNAL_UpdateEngine(audio, output)` is defined outside these
sources and is taken as the parameter `engine`: the call number `t` fills its
output block of `updateSize * channelCount` floats (zeroed by the callback
beforehand) and leaves the byte `engine t i` at offset `i` of it.  This is
the block of bytes that tick `t` produces. -/
def tickOutput (engine : Nat → Nat → Nat) (updateSize channelCount t : Nat) : List Nat :=
  (List.range (updateSize * channelCount * 4)).map (engine t)

/-- The local variables of the callback while it fills the output, together
with a record of what it has done: `writes` are the byte ranges
`(offset, length)` of `output_buffer` stored into after the initial zero
fill, `tickAvail` is `ringBuffer.available` at each engine tick, and `pushes`
holds the ring and the data of each call of `FRingBuffer_Push`. -/
structure MixState where
  ring : FRingBuffer
  out : List Nat
  outPointer : Nat
  accumulatedFrames : Nat
  tickCount : Nat
  writes : List (Nat × Nat)
  tickAvail : List Nat
  pushes : List (FRingBuffer × List Nat)
deriving DecidableEq, Repr

/-- The body of the loop `while (accumulatedFrames < goalFrames)` of the
callback: one engine tick, either into `tempBuffer` (the tick over-produces:
the frames that fit are copied out and the surplus is pushed on the ring) or
straight into the output. -/
def mixBody (engine : Nat → Nat → Nat) (updateSize channelCount goalFrames : Nat)
    (s : MixState) : MixState :=
  let tempBuffer := tickOutput engine updateSize channelCount s.tickCount
  if s.accumulatedFrames + updateSize > goalFrames then
    let framesToUse := goalFrames - s.accumulatedFrames
    let pushed := memRead tempBuffer (framesToUse * channelCount * 4)
      ((updateSize - framesToUse) * channelCount * 4)
    { ring := FRingBuffer_Push s.ring pushed,
      out := memWrite s.out s.outPointer
        (memRead tempBuffer 0 (framesToUse * channelCount * 4)),
      outPointer := s.outPointer + updateSize * channelCount * 4,
      accumulatedFrames := s.accumulatedFrames + updateSize,
      tickCount := s.tickCount + 1,
      writes := s.writes ++ [(s.outPointer, framesToUse * channelCount * 4)],
      tickAvail := s.tickAvail ++ [s.ring.available],
      pushes := s.pushes ++ [(s.ring, pushed)] }
  else
    { s with
      out := memWrite s.out s.outPointer tempBuffer,
      outPointer := s.outPointer + updateSize * channelCount * 4,
      accumulatedFrames := s.accumulatedFrames + updateSize,
      tickCount := s.tickCount + 1,
      writes := s.writes ++ [(s.outPointer, updateSize * channelCount * 4)],
      tickAvail := s.tickAvail ++ [s.ring.available] }

/-- The loop `while (accumulatedFrames < goalFrames)` of the callback, run for
at most `fuel` iterations; `none` when the fuel does not suffice. -/
def mixLoop (engine : Nat → Nat → Nat) (updateSize channelCount goalFrames : Nat) :
    Nat → MixState → Option MixState
  | 0, s => if s.accumulatedFrames < goalFrames then none else some s
  | fuel + 1, s =>
    if s.accumulatedFrames < goalFrames then
      mixLoop engine updateSize channelCount goalFrames fuel
        (mixBody engine updateSize channelCount goalFrames s)
    else some s

/-- What one call of the callback leaves behind. -/
structure MixResult where
  ret : Nat
  output : List Nat
  audio : FAudio
  writes : List (Nat × Nat)
  tickAvail : List Nat
  pushes : List (FRingBuffer × List Nat)
deriving DecidableEq, Repr

/-- The callback state after `FAudio_zero` and the `FRingBuffer_Pop` of the
surplus; `none` when the frame size is 0 and the source divides by it. -/
def mixStart (audio : FAudio) (nframes : Nat) : Option MixState :=
  let fcubeb := audio.platform
  let out0 := List.replicate (nframes * fcubeb.channelCount * 4) 0
  if FRingBuffer_UnreadByteCount fcubeb.ringBuffer ≠ 0 then
    let popped := FRingBuffer_Pop fcubeb.ringBuffer (nframes * fcubeb.channelCount * 4)
    if fcubeb.channelCount * 4 = 0 then none
    else some
      { ring := popped.1,
        out := memWrite out0 0 popped.2.1,
        outPointer := 4 * (popped.2.2 / 4),
        accumulatedFrames := popped.2.2 / (fcubeb.channelCount * 4),
        tickCount := audio.tickCount,
        writes := [(0, popped.2.2)],
        tickAvail := [],
        pushes := [] }
  else some
    { ring := fcubeb.ringBuffer,
      out := out0,
      outPointer := 0,
      accumulatedFrames := 0,
      tickCount := audio.tickCount,
      writes := [],
      tickAvail := [],
      pushes := [] }

/-- The function `FAudio_INTERNAL_MixCallback` of the cubeb build, for
`nframes >= 0`.  The output buffer has `nframes * channelCount` floats.
`none` stands for a call that does not return (loop out of fuel). -/
def FAudio_INTERNAL_MixCallback (engine : Nat → Nat → Nat) (fuel : Nat)
    (audio : FAudio) (nframes : Nat) : Option MixResult :=
  if audio.active ≠ 0 then
    match mixStart audio nframes with
    | none => none
    | some s0 =>
      match mixLoop engine audio.updateSize audio.platform.channelCount nframes fuel s0 with
      | none => none
      | some s =>
        some
          { ret := nframes,
            output := s.out,
            audio := { audio with
              platform := { audio.platform with ringBuffer := s.ring },
              tickCount := s.tickCount },
            writes := s.writes,
            tickAvail := s.tickAvail,
            pushes := s.pushes }
  else
    some
      { ret := nframes,
        output := List.replicate (nframes * audio.platform.channelCount * 4) 0,
        audio := audio,
        writes := [],
        tickAvail := [],
        pushes := [] }

/-- The function `FAudio_INTERNAL_MixCallback` of the SDL build (lines 419-431):
the stream after the call and the number of engine ticks performed.  The
engine tick stores `updateSize * channelCount` floats at the start of the
stream. -/
def FAudio_INTERNAL_MixCallback_SDL (engine : Nat → Nat → Nat) (active updateSize channelCount
    tickCount len : Nat) : List Nat × Nat :=
  let stream := List.replicate len 0
  if active ≠ 0 then
    (memWrite stream 0 (tickOutput engine updateSize channelCount tickCount), tickCount + 1)
  else
    (stream, tickCount)

/-- A run of callbacks with frame counts `ns`, one after the other: the engine
afterwards and the result of every call, in order. -/
def runCallbacks (engine : Nat → Nat → Nat) (fuel : Nat) :
    FAudio → List Nat → Option (FAudio × List MixResult)
  | audio, [] => some (audio, [])
  | audio, n :: ns =>
    match FAudio_INTERNAL_MixCallback engine fuel audio n with
    | none => none
    | some r =>
      match runCallbacks engine fuel r.audio ns with
      | none => none
      | some (audio1, rs) => some (audio1, r :: rs)

/-- The audio produced by the first `t` engine ticks, in tick order. -/
def tickStream (engine : Nat → Nat → Nat) (updateSize channelCount : Nat) : Nat → List Nat
  | 0 => []
  | t + 1 => tickStream engine updateSize channelCount t ++
      tickOutput engine updateSize channelCount t

/-- The invariant behind "no tick while the ring holds unread bytes". -/
def RingEmptyInv (goal : Nat) (s : MixState) : Prop :=
  (s.accumulatedFrames < goal → s.ring.available = 0) ∧ (∀ a ∈ s.tickAvail, a = 0)

/-- Every tick is on record, and each tick comes with one store into the
output: `t0` ticks and `w0` stores were made before the loop. -/
def TickCountInv (t0 w0 : Nat) (s : MixState) : Prop :=
  s.tickCount = t0 + s.tickAvail.length ∧ s.writes.length = w0 + s.tickAvail.length

/-- The stores `ws` fill the bytes `[0, c)` of the output, nothing beyond, and
no byte twice. -/
def Fills (ws : List (Nat × Nat)) (c : Nat) : Prop :=
  (∀ w ∈ ws, w.1 + w.2 ≤ c) ∧
  (∀ i, i < c → ∃ w ∈ ws, w.1 ≤ i ∧ i < w.1 + w.2) ∧
  (ws.map Prod.snd).sum = c

/-- The invariant behind "exactly `goal` frames are placed": while frames are
missing the stores so far fill the output up to `outPointer`, which is at
frame `accumulatedFrames`; afterwards they fill exactly `goal` frames. -/
def CoverInv (frameSize goal : Nat) (s : MixState) : Prop :=
  ∃ c, Fills s.writes c ∧
    ((s.accumulatedFrames < goal ∧ s.outPointer = c ∧ c = s.accumulatedFrames * frameSize) ∨
     (goal ≤ s.accumulatedFrames ∧ c = goal * frameSize))

/-- A concrete engine for the examples: tick `t` yields the bytes
`10 * t + 1, 10 * t + 2, ...`. -/
def demoEngine (t i : Nat) : Nat := 10 * t + i + 1

/-- The invariant behind "no produced frame is lost, duplicated or reordered".
`pre` is the audio delivered before this callback.  While frames are missing
the ring is empty and the audio of all ticks so far is `pre` followed by the
part of the output filled so far; afterwards it is `pre`, the output and the
unread content of the ring, which is a whole number of frames, fewer than
`updateSize`.  Every push so far was made on a well-formed ring with room. -/
def ContentInv (engine : Nat → Nat → Nat) (U ch goal M : Nat) (pre : List Nat)
    (s : MixState) : Prop :=
  s.ring.WF ∧ s.ring.max = M ∧ s.out.length = goal * (ch * 4) ∧
  (∀ p ∈ s.pushes, p.1.WF ∧ p.1.available + p.2.length ≤ p.1.max) ∧
  ((s.accumulatedFrames < goal ∧ s.ring.available = 0 ∧
      s.outPointer = s.accumulatedFrames * (ch * 4) ∧
      tickStream engine U ch s.tickCount =
        pre ++ s.out.take (s.accumulatedFrames * (ch * 4))) ∨
   (goal ≤ s.accumulatedFrames ∧
      tickStream engine U ch s.tickCount = pre ++ s.out ++ s.ring.unread ∧
      ch * 4 ∣ s.ring.available ∧ s.ring.available + ch * 4 ≤ U * (ch * 4)))

/-- The stream as `FAudio_PlatformInit` (cubeb build) hands it to the first
callback: `channelCount` channels, the quantum `updateSize`, and the ring made
by `FRingBuffer_Init` with `updateSize * 4 * channelCount * sizeof(float)`
bytes (line 311; the product is taken to fit its 32-bit type).  `block` is
the content of the block that `malloc` returned; no tick has happened yet. -/
def streamAfterInit (active updateSize channelCount : Nat) (block : List Nat) : FAudio :=
  { active := active, updateSize := updateSize,
    platform :=
      { ringBuffer := (FRingBuffer_Init (some block) (updateSize * 4 * channelCount * 4)).2,
        channelCount := channelCount },
    tickCount := 0 }

/-- The invariant of the stream between two callbacks.  `pre` is the audio
delivered so far: together with the unread content of the ring it is the
audio of all engine ticks so far; the ring is well-formed, has room for one
quantum, and holds whole frames, fewer than `updateSize`. -/
def StreamInv (engine : Nat → Nat → Nat) (U ch M : Nat) (pre : List Nat)
    (audio : FAudio) : Prop :=
  audio.active ≠ 0 ∧ audio.updateSize = U ∧ audio.platform.channelCount = ch ∧
  audio.platform.ringBuffer.max = M ∧ audio.platform.ringBuffer.WF ∧
  ch * 4 ∣ audio.platform.ringBuffer.available ∧
  audio.platform.ringBuffer.available + ch * 4 ≤ U * (ch * 4) ∧
  tickStream engine U ch audio.tickCount = pre ++ audio.platform.ringBuffer.unread

/-- What holds of one call in a run of callbacks: `n` frames are returned,
the ring afterwards is well-formed and holds whole frames, fewer than
`updateSize`, and each push of the call was made on a well-formed ring with
room for the pushed bytes. -/
def CallOK (U ch M : Nat) (r : MixResult) (n : Nat) : Prop :=
  r.ret = n ∧ r.output.length = n * (ch * 4) ∧
  r.audio.platform.ringBuffer.WF ∧ r.audio.platform.ringBuffer.max = M ∧
  ch * 4 ∣ r.audio.platform.ringBuffer.available ∧
  r.audio.platform.ringBuffer.available + ch * 4 ≤ U * (ch * 4) ∧
  (∀ p ∈ r.pushes, p.1.WF ∧ p.1.available + p.2.length ≤ p.1.max)

/-- A concrete stream for the examples: one channel, `updateSize = 2`, engine
active, the ring of `2 * 4 * 1 * 4 = 32` bytes. -/
def demoAudio : FAudio := streamAfterInit 1 2 1 (List.replicate 32 0)

/-- The example stream with one surplus frame `[15, 16, 17, 18]` in the ring. -/
def demoAudioSurplus : FAudio :=
  { demoAudio with
    platform := { demoAudio.platform with
      ringBuffer := FRingBuffer_Push demoAudio.platform.ringBuffer [15, 16, 17, 18] } }

/-- The audio of the `k` engine ticks `t, t + 1, ..., t + k - 1`, in tick
order. -/
def tickSegment (engine : Nat → Nat → Nat) (updateSize channelCount t : Nat) : Nat → List Nat
  | 0 => []
  | k + 1 => tickSegment engine updateSize channelCount t k ++
      tickOutput engine updateSize channelCount (t + k)

/-- The invariant behind "the output is what the ring held, then the ticks".
`base` is the unread content of the ring when the callback starts, `t0` the
number of ticks made before it and `M` the capacity of the ring; `k` ticks
were made so far.  While frames are missing the ring is empty and the filled
part of the output is `base` followed by the audio of the `k` ticks;
afterwards the output is the first `goal` frames of that audio, the last tick
was needed, and, when the ring has room for one quantum, the rest of the
audio is the unread content of the ring. -/
def OutInv (engine : Nat → Nat → Nat) (U ch goal M t0 : Nat) (base : List Nat)
    (s : MixState) : Prop :=
  s.out.length = goal * (ch * 4) ∧
  ∃ k, s.tickCount = t0 + k ∧
    ((s.accumulatedFrames < goal ∧ s.outPointer = s.accumulatedFrames * (ch * 4) ∧
        s.ring.WF ∧ s.ring.max = M ∧ s.ring.available = 0 ∧
        s.out.take (s.accumulatedFrames * (ch * 4)) = base ++ tickSegment engine U ch t0 k ∧
        (base ++ tickSegment engine U ch t0 k).length = s.accumulatedFrames * (ch * 4)) ∨
     (goal ≤ s.accumulatedFrames ∧
        s.out = (base ++ tickSegment engine U ch t0 k).take (goal * (ch * 4)) ∧
        (1 ≤ ch → k = 0 ∨ ∃ j, k = j + 1 ∧
          (base ++ tickSegment engine U ch t0 j).length < goal * (ch * 4)) ∧
        (U * (ch * 4) ≤ M →
          s.ring.WF ∧ base ++ tickSegment engine U ch t0 k = s.out ++ s.ring.unread)))

/-- The example stream with `updateSize = 0`: engine active, one channel, the
ring empty. -/
def demoAudioNoQuantum : FAudio := { demoAudio with updateSize := 0 }

/-! ## Sequences of ring operations -/

/-- A call on a ring: `FRingBuffer_Push` with the given bytes, or
`FRingBuffer_Pop` with the given `*count`. -/
inductive RingOp where
  | push (data : List Nat)
  | pop (count : Nat)
deriving DecidableEq, Repr

/-- The ring after a sequence of calls, and what each `FRingBuffer_Pop` of the
sequence returned (the bytes and the new `*count`), in call order. -/
def runRing : FRingBuffer → List RingOp → FRingBuffer × List (List Nat × Nat)
  | ring, [] => (ring, [])
  | ring, RingOp.push data :: ops => runRing (FRingBuffer_Push ring data) ops
  | ring, RingOp.pop count :: ops =>
    let popped := FRingBuffer_Pop ring count
    let rest := runRing popped.1 ops
    (rest.1, (popped.2.1, popped.2.2) :: rest.2)

/-- Every push of the sequence satisfies `available + |data| <= max` when it
is made. -/
def RoomForPushes : FRingBuffer → List RingOp → Prop
  | _, [] => True
  | ring, RingOp.push data :: ops =>
    ring.available + data.length ≤ ring.max ∧ RoomForPushes (FRingBuffer_Push ring data) ops
  | ring, RingOp.pop count :: ops => RoomForPushes (FRingBuffer_Pop ring count).1 ops

/-- Whether a sequence leaves room for its pushes can be computed. -/
def RoomForPushes.dec : (ring : FRingBuffer) → (ops : List RingOp) →
    Decidable (RoomForPushes ring ops)
  | _, [] => isTrue trivial
  | ring, RingOp.push data :: ops =>
    match RoomForPushes.dec (FRingBuffer_Push ring data) ops with
    | isTrue h =>
      if h1 : ring.available + data.length ≤ ring.max then isTrue ⟨h1, h⟩
      else isFalse (fun hh => h1 hh.1)
    | isFalse h => isFalse (fun hh => h hh.2)
  | ring, RingOp.pop count :: ops => RoomForPushes.dec (FRingBuffer_Pop ring count).1 ops

instance (ring : FRingBuffer) (ops : List RingOp) : Decidable (RoomForPushes ring ops) :=
  RoomForPushes.dec ring ops

/-- The FIFO byte queue the ring is meant to be, in the words of the
specification: a push appends its bytes, a pop of `count` removes and returns
the oldest `min(count, length)` bytes.  Returns the queue after the calls and
what each pop returned. -/
def runQueue : List Nat → List RingOp → List Nat × List (List Nat × Nat)
  | q, [] => (q, [])
  | q, RingOp.push data :: ops => runQueue (q ++ data) ops
  | q, RingOp.pop count :: ops =>
    let rest := runQueue (q.drop (min count q.length)) ops
    (rest.1, (q.take (min count q.length), min count q.length) :: rest.2)

/-! ## Helpers of `FACT_internal.h` (lines 404-438) -/

/-- The macro `FACT_clamp(val, min, max)`:
`(val > max ? max : (val < min ? min : val))`, over any linearly ordered type
(integers, or floats without NaN).  The bounds are called `lo` and `hi`. -/
def FACT_clamp {α : Type} [LinearOrder α] (val lo hi : α) : α :=
  if val > hi then hi else if val < lo then lo else val

/-- Clamping in the words of the specification: `val` when it lies in
`[lo, hi]`, `lo` when it is below the range, `hi` when it is above. -/
def clampSpec {α : Type} [LinearOrder α] (val lo hi : α) : α :=
  if val < lo then lo else if hi < val then hi else val

/-- The byte order of the machine the code is compiled for: the order in which
`*((type*) ptr)` reads the bytes of an integer. -/
inductive ByteOrder where
  | littleEndian
  | bigEndian
deriving DecidableEq, Repr

/-- The integer whose bytes are `bytes`, least significant byte first. -/
def fromLittleEndian : List Nat → Nat
  | [] => 0
  | b :: bs => b + 256 * fromLittleEndian bs

/-- The load `*((type*) ptr)` of an unsigned integer of `size` bytes on a
machine with byte order `host`. -/
def loadUnsigned (host : ByteOrder) (mem : List Nat) (ptr size : Nat) : Nat :=
  match host with
  | ByteOrder.littleEndian => fromLittleEndian (memRead mem ptr size)
  | ByteOrder.bigEndian => fromLittleEndian (memRead mem ptr size).reverse

/-- The value of a `bits`-bit pattern read as a two's complement integer. -/
def toSigned (bits : Nat) (x : Nat) : Int :=
  if x < 2 ^ (bits - 1) then (x : Int) else (x : Int) - 2 ^ bits

/-- What `uint8_t **ptr` of the `read_` functions points into: the bytes of
the buffer and the cursor `*ptr` as an offset into them. -/
structure Reader where
  mem : List Nat
  ptr : Nat
deriving DecidableEq, Repr

/-- `READ_FUNC(uint8_t, 1, u8)`: the result and the reader afterwards. -/
def read_u8 (host : ByteOrder) (s : Reader) : Nat × Reader :=
  (loadUnsigned host s.mem s.ptr 1, { s with ptr := s.ptr + 1 })

/-- `READ_FUNC(uint16_t, 2, u16)`. -/
def read_u16 (host : ByteOrder) (s : Reader) : Nat × Reader :=
  (loadUnsigned host s.mem s.ptr 2, { s with ptr := s.ptr + 2 })

/-- `READ_FUNC(uint32_t, 4, u32)`. -/
def read_u32 (host : ByteOrder) (s : Reader) : Nat × Reader :=
  (loadUnsigned host s.mem s.ptr 4, { s with ptr := s.ptr + 4 })

/-- `READ_FUNC(uint64_t, 8, u64)`. -/
def read_u64 (host : ByteOrder) (s : Reader) : Nat × Reader :=
  (loadUnsigned host s.mem s.ptr 8, { s with ptr := s.ptr + 8 })

/-- `READ_FUNC(int16_t, 2, s16)`. -/
def read_s16 (host : ByteOrder) (s : Reader) : Int × Reader :=
  (toSigned 16 (loadUnsigned host s.mem s.ptr 2), { s with ptr := s.ptr + 2 })

/-- `READ_FUNC(float, 4, f32)`: the result is given by its four bytes in
memory order. -/
def read_f32 (s : Reader) : List Nat × Reader :=
  (memRead s.mem s.ptr 4, { s with ptr := s.ptr + 4 })

/-- The byte at offset `i` of the buffer (0 beyond its end). -/
def Reader.byte (s : Reader) (i : Nat) : Nat := s.mem.getD i 0

/-! ## Device enumeration (lines 336-417 and 583-699) -/

/-- The two values of `FAudioDeviceRole` that the platform layer assigns. -/
inductive FAudioDeviceRole where
  | FAudioNotDefaultDevice
  | FAudioGlobalDefaultDevice
deriving DecidableEq, Repr

/-- The string that becomes `details->DisplayName`: the literal
`"Default Device"`, or the name the back-end reports for its device `i`. -/
inductive DeviceName where
  | defaultDevice
  | backendDevice (i : Nat)
deriving DecidableEq, Repr

/-- The fields of `FAudioDeviceDetails` that the claims are about; `none` is a
field the call did not assign. -/
structure DeviceDetails where
  Role : Option FAudioDeviceRole
  DisplayName : Option DeviceName
deriving DecidableEq, Repr

/-- `FAudio_PlatformGetDeviceCount` of the SDL build.  `sdlNumAudioDevices`
is what `SDL_GetNumAudioDevices(0)` returns (an `int`), stored in a
`uint32_t`. -/
def FAudio_PlatformGetDeviceCount_SDL (sdlNumAudioDevices : Int) : Nat :=
  let devCount := (sdlNumAudioDevices % 2 ^ 32).toNat
  if devCount = 0 then 0 else (devCount + 1) % 2 ^ 32

/-- `FAudio_PlatformGetDeviceDetails` of the SDL build: the return value and
the role and name written to `details`.  `invalidCall` is the constant
`FAUDIO_E_INVALID_CALL`, declared outside these sources. -/
def FAudio_PlatformGetDeviceDetails_SDL (invalidCall : Nat) (sdlNumAudioDevices : Int)
    (index : Nat) : Nat × DeviceDetails :=
  let devcount := FAudio_PlatformGetDeviceCount_SDL sdlNumAudioDevices
  if index ≥ devcount then
    (invalidCall, { Role := none, DisplayName := none })
  else if index = 0 then
    (0, { Role := some FAudioDeviceRole.FAudioGlobalDefaultDevice,
          DisplayName := some DeviceName.defaultDevice })
  else
    (0, { Role := some FAudioDeviceRole.FAudioNotDefaultDevice,
          DisplayName := some (DeviceName.backendDevice (index - 1)) })

/-- `FAudio_PlatformGetDeviceCount` of the cubeb build: the `size_t`
`CubebDeviceCollection.count` cast to `uint32_t`. -/
def FAudio_PlatformGetDeviceCount_cubeb (count : Nat) : Nat :=
  count % 2 ^ 32

/-- `FAudio_PlatformGetDeviceDetails` of the cubeb build.  `count` is
`CubebDeviceCollection.count` and `deviceIsNull` tells whether
`CubebDeviceCollection.device` is `NULL`. -/
def FAudio_PlatformGetDeviceDetails_cubeb (invalidCall : Nat) (count : Nat)
    (deviceIsNull : Bool) (index : Nat) : Nat × DeviceDetails :=
  if index ≥ count then
    (invalidCall, { Role := none, DisplayName := none })
  else
    (0, { Role := some (if deviceIsNull then FAudioDeviceRole.FAudioGlobalDefaultDevice
                        else FAudioDeviceRole.FAudioNotDefaultDevice),
          DisplayName := some (if deviceIsNull then DeviceName.defaultDevice
                               else DeviceName.backendDevice index) })

/-! ## The quantum computed by `FAudio_PlatformInit` (lines 299-309, 514-526)

The 1024-sample quantum is computed in `double`.  A `double` is modelled by
the rational number it denotes, and a division of doubles by the exact
quotient rounded to the nearest double, ties to even (IEEE-754 binary64, for
results below `2^1024` in magnitude). -/

/-- Round to the nearest integer, ties to the even one. -/
def roundHalfEven (x : ℚ) : ℤ :=
  if x - ⌊x⌋ < 1 / 2 then ⌊x⌋
  else if 1 / 2 < x - ⌊x⌋ then ⌊x⌋ + 1
  else if ⌊x⌋ % 2 = 0 then ⌊x⌋ else ⌊x⌋ + 1

/-- The spacing of the doubles around `x`: `2^(e - 52)` where `2^e` is the
power of two at or below `|x|`, and `2^(-1074)` in the subnormal range. -/
def doubleUlp (x : ℚ) : ℚ :=
  2 ^ (max (Int.log 2 |x|) (-1022) - 52)

/-- The double nearest to `x`, ties to even. -/
def roundDouble (x : ℚ) : ℚ :=
  if x = 0 then 0 else roundHalfEven (x / doubleUlp x) * doubleUlp x

/-- The quotient `a / b` of two doubles, as the machine computes it. -/
def doubleDiv (a b : ℚ) : ℚ := roundDouble (a / b)

/-- The conversion `(int) x` of a double with `|x| < 2^31`: truncation
towards zero. -/
def truncToInt (x : ℚ) : ℤ := if 0 ≤ x then ⌊x⌋ else ⌈x⌉

/-- The value stored in `*updateSize` (a `uint32_t`) by `FAudio_PlatformInit`
of the cubeb build for the sample rate `nSamplesPerSec` (a `uint32_t`);
`quantum1024` tells whether `flags & FAUDIO_1024_QUANTUM` is set. -/
def FAudio_PlatformInit_updateSize (quantum1024 : Bool) (nSamplesPerSec : Nat) : Nat :=
  if quantum1024 then
    ((truncToInt (doubleDiv nSamplesPerSec (doubleDiv 1000 (doubleDiv 64 3)))) % 2 ^ 32).toNat
  else
    nSamplesPerSec / 100

/-- The value of `want.samples` that `FAudio_PlatformInit` of the SDL build
requests.  `want` is an `SDL_AudioSpec`, declared by SDL and not by these
sources: `want.freq` is an `int`, and `want.samples` is an unsigned field of
`samplesBits` bits (16 in SDL 2, which line 37 requires). -/
def FAudio_PlatformInit_want_samples (samplesBits : Nat) (quantum1024 : Bool)
    (nSamplesPerSec : Nat) : Nat :=
  let freq : ℤ :=
    if nSamplesPerSec < 2 ^ 31 then (nSamplesPerSec : ℤ) else (nSamplesPerSec : ℤ) - 2 ^ 32
  let samples : ℤ :=
    if quantum1024 then truncToInt (doubleDiv freq (doubleDiv 1000 (doubleDiv 64 3)))
    else Int.tdiv freq 100
  (samples % 2 ^ samplesBits).toNat

/-! ## UTF-8 to UTF-16 conversion (lines 832-1021)

The source string is the memory from `src` on, a list of bytes; a cursor is
an offset into it.  Every value the decoder computes is below `2^32` (an
octet is at most 255 and is shifted by at most 18 bits), so its `uint32_t`
arithmetic does not wrap. -/

/-- `UNICODE_BOGUS_CHAR_VALUE`. -/
def UNICODE_BOGUS_CHAR_VALUE : Nat := 0xFFFFFFFF

/-- `UNICODE_BOGUS_CHAR_CODEPOINT`, the character `'?'`. -/
def UNICODE_BOGUS_CHAR_CODEPOINT : Nat := 63

/-- The byte `(uint8_t) src[i]`; past the end of the list it reads as 0. -/
def byteAt (src : List Nat) (i : Nat) : Nat := src.getD i 0

/-- `FAudio_UTF8_CodePoint(&str)`: the return value and the new value of
`*_str`, for the cursor `str` into `src`. -/
def FAudio_UTF8_CodePoint (src : List Nat) (str : Nat) : Nat × Nat :=
  let octet := byteAt src str
  if octet = 0 then (0, str)
  else if octet < 128 then (octet, str + 1)
  else if octet > 127 ∧ octet < 192 then (UNICODE_BOGUS_CHAR_VALUE, str + 1)
  else if octet < 224 then
    let octet := octet - (128 + 64)
    let octet2 := byteAt src (str + 1)
    if octet2 &&& (128 + 64) ≠ 128 then (UNICODE_BOGUS_CHAR_VALUE, str + 1)
    else
      let retval := (octet <<< 6) ||| (octet2 - 128)
      if retval ≥ 0x80 ∧ retval ≤ 0x7FF then (retval, str + 1 + 1)
      else (UNICODE_BOGUS_CHAR_VALUE, str + 1 + 1)
  else if octet < 240 then
    let octet := octet - (128 + 64 + 32)
    let octet2 := byteAt src (str + 1)
    if octet2 &&& (128 + 64) ≠ 128 then (UNICODE_BOGUS_CHAR_VALUE, str + 1)
    else
      let octet3 := byteAt src (str + 2)
      if octet3 &&& (128 + 64) ≠ 128 then (UNICODE_BOGUS_CHAR_VALUE, str + 1)
      else
        let retval := (octet <<< 12) ||| ((octet2 - 128) <<< 6) ||| (octet3 - 128)
        if retval = 0xD800 ∨ retval = 0xDB7F ∨ retval = 0xDB80 ∨ retval = 0xDBFF ∨
            retval = 0xDC00 ∨ retval = 0xDF80 ∨ retval = 0xDFFF then
          (UNICODE_BOGUS_CHAR_VALUE, str + 1 + 2)
        else if retval ≥ 0x800 ∧ retval ≤ 0xFFFD then (retval, str + 1 + 2)
        else (UNICODE_BOGUS_CHAR_VALUE, str + 1 + 2)
  else if octet < 248 then
    let octet := octet - (128 + 64 + 32 + 16)
    let octet2 := byteAt src (str + 1)
    if octet2 &&& (128 + 64) ≠ 128 then (UNICODE_BOGUS_CHAR_VALUE, str + 1)
    else
      let octet3 := byteAt src (str + 2)
      if octet3 &&& (128 + 64) ≠ 128 then (UNICODE_BOGUS_CHAR_VALUE, str + 1)
      else
        let octet4 := byteAt src (str + 3)
        if octet4 &&& (128 + 64) ≠ 128 then (UNICODE_BOGUS_CHAR_VALUE, str + 1)
        else
          let retval := (octet <<< 18) ||| ((octet2 - 128) <<< 12) |||
            ((octet3 - 128) <<< 6) ||| (octet4 - 128)
          if retval ≥ 0x10000 ∧ retval ≤ 0x10FFFF then (retval, str + 1 + 3)
          else (UNICODE_BOGUS_CHAR_VALUE, str + 1 + 3)
  else if octet < 252 then
    if byteAt src (str + 1) &&& (128 + 64) ≠ 128 then (UNICODE_BOGUS_CHAR_VALUE, str + 1)
    else if byteAt src (str + 2) &&& (128 + 64) ≠ 128 then (UNICODE_BOGUS_CHAR_VALUE, str + 1)
    else if byteAt src (str + 3) &&& (128 + 64) ≠ 128 then (UNICODE_BOGUS_CHAR_VALUE, str + 1)
    else if byteAt src (str + 4) &&& (128 + 64) ≠ 128 then (UNICODE_BOGUS_CHAR_VALUE, str + 1)
    else (UNICODE_BOGUS_CHAR_VALUE, str + 1 + 4)
  else
    if byteAt src (str + 1) &&& (128 + 64) ≠ 128 then (UNICODE_BOGUS_CHAR_VALUE, str + 1)
    else if byteAt src (str + 2) &&& (128 + 64) ≠ 128 then (UNICODE_BOGUS_CHAR_VALUE, str + 1)
    else if byteAt src (str + 3) &&& (128 + 64) ≠ 128 then (UNICODE_BOGUS_CHAR_VALUE, str + 1)
    else if byteAt src (str + 4) &&& (128 + 64) ≠ 128 then (UNICODE_BOGUS_CHAR_VALUE, str + 1)
    else if byteAt src (str + 5) &&& (128 + 64) ≠ 128 then (UNICODE_BOGUS_CHAR_VALUE, str + 1)
    else (UNICODE_BOGUS_CHAR_VALUE, str + 1 + 6)

/-- The offsets from `str + k` on that the decoder loads while it checks `n`
continuation bytes: it stops at the first byte that is not of the form
`10xxxxxx`. -/
def continuationLoads (src : List Nat) (str : Nat) : Nat → Nat → List Nat
  | 0, _ => []
  | n + 1, k =>
    if byteAt src (str + k) &&& (128 + 64) ≠ 128 then [str + k]
    else (str + k) :: continuationLoads src str n (k + 1)

/-- The offsets of `src` that a call of `FAudio_UTF8_CodePoint` at the cursor
`str` loads a byte from: the lead byte, and then as many continuation bytes
as the lead byte announces, up to the first that is not one. -/
def FAudio_UTF8_CodePoint_loads (src : List Nat) (str : Nat) : List Nat :=
  let octet := byteAt src str
  let more : Nat :=
    if octet < 192 then 0
    else if octet < 224 then 1
    else if octet < 240 then 2
    else if octet < 248 then 3
    else if octet < 252 then 4
    else 5
  str :: continuationLoads src str more 1

/-- What `FAudio_UTF8_To_UTF16` leaves behind: the 16-bit units stored at
`dst[0]`, `dst[1]`, ... in this order (the terminator included), the final
cursor into `src`, and the cursor at each call of the decoder. -/
structure Utf16Result where
  units : List Nat
  srcEnd : Nat
  decodedAt : List Nat
deriving DecidableEq, Repr

/-- The loop `while (len >= sizeof (uint16_t))` of `FAudio_UTF8_To_UTF16`, run
for at most `fuel` iterations from the cursor `str` with `len` bytes of room:
the units stored by the loop, the final cursor and the cursors of the decoder
calls; `none` when the fuel does not suffice. -/
def utf16Loop (src : List Nat) : Nat → Nat → Nat → Option (List Nat × Nat × List Nat)
  | 0, str, len => if len ≥ 2 then none else some ([], str, [])
  | fuel + 1, str, len =>
    if len ≥ 2 then
      let decoded := FAudio_UTF8_CodePoint src str
      if decoded.1 = 0 then some ([], decoded.2, [str])
      else
        let cp := if decoded.1 = UNICODE_BOGUS_CHAR_VALUE then UNICODE_BOGUS_CHAR_CODEPOINT
          else decoded.1
        if cp > 0xFFFF then
          if len < 2 * 2 then some ([], decoded.2, [str])
          else
            let cp20 := cp - 0x10000
            let high := (0xD800 + ((cp20 >>> 10) &&& 0x3FF)) % 2 ^ 16
            let low := (0xDC00 + (cp20 &&& 0x3FF)) % 2 ^ 16
            match utf16Loop src fuel decoded.2 (len - 2 - 2) with
            | none => none
            | some (units, srcEnd, calls) => some (high :: low :: units, srcEnd, str :: calls)
        else
          match utf16Loop src fuel decoded.2 (len - 2) with
          | none => none
          | some (units, srcEnd, calls) => some (cp % 2 ^ 16 :: units, srcEnd, str :: calls)
    else some ([], str, [])

/-- `FAudio_UTF8_To_UTF16(src, dst, len)`.  The `size_t` subtraction
`len -= sizeof (uint16_t)` wraps around when `len < 2`. -/
def FAudio_UTF8_To_UTF16 (fuel : Nat) (src : List Nat) (len : Nat) : Option Utf16Result :=
  match utf16Loop src fuel 0 ((len + 2 ^ 64 - 2) % 2 ^ 64) with
  | none => none
  | some (units, srcEnd, calls) =>
    some { units := units ++ [0], srcEnd := srcEnd, decodedAt := calls }

/-- The shortest-form UTF-8 encoding of the code point `c`
(for `c <= 0x10FFFF`). -/
def utf8Encode (c : Nat) : List Nat :=
  if c < 0x80 then [c]
  else if c < 0x800 then [0xC0 + c / 64, 0x80 + c % 64]
  else if c < 0x10000 then [0xE0 + c / 4096, 0x80 + c / 64 % 64, 0x80 + c % 64]
  else [0xF0 + c / 262144, 0x80 + c / 4096 % 64, 0x80 + c / 64 % 64, 0x80 + c % 64]

/-- The UTF-8 encoding of a sequence of code points. -/
def utf8EncodeAll : List Nat → List Nat
  | [] => []
  | c :: cs => utf8Encode c ++ utf8EncodeAll cs

/-- The UTF-16 encoding of the code point `c`, in the words of the claim: one
unit for `c <= 0xFFFF`, otherwise the pair
`(0xD800 + ((c - 0x10000) >> 10), 0xDC00 + ((c - 0x10000) & 0x3FF))`. -/
def utf16Encode (c : Nat) : List Nat :=
  if c ≤ 0xFFFF then [c]
  else [0xD800 + ((c - 0x10000) >>> 10), 0xDC00 + ((c - 0x10000) &&& 0x3FF)]

/-- The UTF-16 encoding of a sequence of code points. -/
def utf16EncodeAll : List Nat → List Nat
  | [] => []
  | c :: cs => utf16Encode c ++ utf16EncodeAll cs

/-- A Unicode scalar value other than 0, 0xFFFE and 0xFFFF: in `1..0x10FFFF`
and outside the surrogate range `0xD800..0xDFFF`. -/
def ValidScalar (c : Nat) : Prop :=
  1 ≤ c ∧ c ≤ 0x10FFFF ∧ ¬ (0xD800 ≤ c ∧ c ≤ 0xDFFF) ∧ c ≠ 0xFFFE ∧ c ≠ 0xFFFF

instance (c : Nat) : Decidable (ValidScalar c) := by
  unfold ValidScalar; infer_instance

/-- The index of the first 0 byte of `src` at or after `i`, if there is one
within the list. -/
def firstNul (src : List Nat) (i : Nat) : Option Nat :=
  ((List.range (src.length - i)).map (fun k => i + k)).find? (fun j => byteAt src j == 0)

/-! ## Lemmas on the ring buffer -/

theorem memWrite_length (mem : List Nat) (off : Nat) (data : List Nat)
    (h : off + data.length ≤ mem.length) :
    (memWrite mem off data).length = mem.length := by
  simp [memWrite]; omega

theorem memWrite_getElem_opt (mem : List Nat) (off : Nat) (data : List Nat)
    (h : off + data.length ≤ mem.length) (i : Nat) :
    (memWrite mem off data)[i]? =
      if i < off then mem[i]? else if i < off + data.length then data[i - off]? else mem[i]? := by
  simp only [memWrite, List.getElem?_append, List.getElem?_take, List.getElem?_drop,
    List.length_append, List.length_take]
  have h1 : min off mem.length = off := by omega
  rw [h1]
  by_cases c1 : i < off
  · simp [c1]; omega
  · by_cases c2 : i < off + data.length
    · simp [c1, c2]
    · simp [c1, c2]
      congr 1; omega

theorem unread_getElem_opt (ring : FRingBuffer) (h : ring.WF) (i : Nat) :
    ring.unread[i]? =
      if i < ring.available then
        (if ring.pointer_pop + i < ring.max then ring.buffer[ring.pointer_pop + i]?
         else ring.buffer[ring.pointer_pop + i - ring.max]?)
      else none := by
  obtain ⟨hl, -, -, -, -⟩ := h
  simp only [FRingBuffer.unread, List.getElem?_take, List.getElem?_drop, List.getElem?_append, hl]

theorem unread_length (ring : FRingBuffer) (h : ring.WF) :
    ring.unread.length = ring.available := by
  obtain ⟨hl, -, hp, ha, -⟩ := h
  simp [FRingBuffer.unread, hl]; omega

theorem memRead_getElem_opt (mem : List Nat) (off n i : Nat) :
    (memRead mem off n)[i]? = if i < n then mem[off + i]? else none := by
  simp only [memRead, List.getElem?_take, List.getElem?_drop]

theorem memRead_length (mem : List Nat) (off n : Nat) (h : off + n ≤ mem.length) :
    (memRead mem off n).length = n := by
  simp [memRead]; omega

theorem FRingBuffer_Pop_spec (ring : FRingBuffer) (count : Nat) (h : ring.WF) :
    (FRingBuffer_Pop ring count).2.2 = min count ring.available ∧
    (FRingBuffer_Pop ring count).2.1 = ring.unread.take (min count ring.available) ∧
    (FRingBuffer_Pop ring count).1.unread = ring.unread.drop (min count ring.available) ∧
    (FRingBuffer_Pop ring count).1.WF ∧
    (FRingBuffer_Pop ring count).1.available = ring.available - min count ring.available ∧
    (FRingBuffer_Pop ring count).1.max = ring.max ∧
    (FRingBuffer_Pop ring count).1.buffer = ring.buffer ∧
    (FRingBuffer_Pop ring count).1.pointer_push = ring.pointer_push := by
  have hwf := h
  obtain ⟨hl, hpu, hpo, ha, hrel⟩ := h
  have hact : min (min count ring.available) ring.max = min count ring.available := by omega
  unfold FRingBuffer_Pop
  simp only [hact]
  by_cases hc : min (min count ring.available) (ring.max - ring.pointer_pop) ≠ min count ring.available
  · rw [if_pos hc]
    refine ⟨rfl, ?_, ?_, ?_, rfl, rfl, rfl, rfl⟩
    · apply List.ext_getElem?
      intro i
      have hlen : (memRead ring.buffer ring.pointer_pop
          (min (min count ring.available) (ring.max - ring.pointer_pop))).length
          = min (min count ring.available) (ring.max - ring.pointer_pop) :=
        memRead_length _ _ _ (by omega)
      simp only [List.getElem?_append, hlen, memRead_getElem_opt, List.getElem?_take,
        unread_getElem_opt ring hwf]
      split_ifs <;> first | rfl | (congr 1 <;> omega)
    · apply List.ext_getElem?
      intro i
      simp only [List.getElem?_drop]
      rw [unread_getElem_opt ring hwf, unread_getElem_opt _ ?_]
      · simp only
        split_ifs <;> first | rfl | (congr 1 <;> omega)
      · refine ⟨hl, hpu, ?_, ?_, ?_⟩ <;> simp only <;> omega
    · refine ⟨hl, hpu, ?_, ?_, ?_⟩ <;> simp only <;> omega
  · rw [if_neg hc]
    push_neg at hc
    refine ⟨rfl, ?_, ?_, ?_, rfl, rfl, rfl, rfl⟩
    · apply List.ext_getElem?
      intro i
      simp only [memRead_getElem_opt, List.getElem?_take, unread_getElem_opt ring hwf]
      split_ifs <;> first | rfl | (congr 1 <;> omega)
    · apply List.ext_getElem?
      intro i
      simp only [List.getElem?_drop]
      rw [unread_getElem_opt ring hwf, unread_getElem_opt _ ?_]
      · simp only
        split_ifs <;> first | rfl | (congr 1 <;> omega)
      · refine ⟨hl, hpu, ?_, ?_, ?_⟩ <;> simp only <;> omega
    · refine ⟨hl, hpu, ?_, ?_, ?_⟩ <;> simp only <;> omega

theorem FRingBuffer_Push_spec (ring : FRingBuffer) (data : List Nat) (h : ring.WF)
    (hfit : ring.available + data.length ≤ ring.max) :
    (FRingBuffer_Push ring data).WF ∧
    (FRingBuffer_Push ring data).unread = ring.unread ++ data ∧
    (FRingBuffer_Push ring data).available = ring.available + data.length ∧
    (FRingBuffer_Push ring data).max = ring.max ∧
    (FRingBuffer_Push ring data).pointer_pop = ring.pointer_pop := by
  have hwf := h
  obtain ⟨hl, hpu, hpo, ha, hrel⟩ := h
  have hrej : ¬ ring.max < data.length := by omega
  unfold FRingBuffer_Push
  simp only [if_neg hrej]
  by_cases hc : ring.pointer_push + data.length > ring.max
  · have hne : ¬ (ring.max - ring.pointer_push = data.length) := by omega
    simp only [if_pos hc, if_neg hne]
    have hlt : (List.take (ring.max - ring.pointer_push) data).length
        = ring.max - ring.pointer_push := by
      simp; omega
    have hb1 : ring.pointer_push + (List.take (ring.max - ring.pointer_push) data).length
        ≤ ring.buffer.length := by rw [hlt]; omega
    have hl1 : (memWrite ring.buffer ring.pointer_push
        (List.take (ring.max - ring.pointer_push) data)).length = ring.max := by
      rw [memWrite_length _ _ _ hb1]; exact hl
    have hlr : (memRead data (ring.max - ring.pointer_push)
        (data.length - (ring.max - ring.pointer_push))).length
        = data.length - (ring.max - ring.pointer_push) :=
      memRead_length _ _ _ (by omega)
    have hb2 : 0 + (memRead data (ring.max - ring.pointer_push)
        (data.length - (ring.max - ring.pointer_push))).length
        ≤ (memWrite ring.buffer ring.pointer_push
            (List.take (ring.max - ring.pointer_push) data)).length := by
      rw [hlr, hl1]; omega
    have hwf2 : FRingBuffer.WF
        { ring with
          available := ring.available + data.length,
          buffer := memWrite (memWrite ring.buffer ring.pointer_push
              (List.take (ring.max - ring.pointer_push) data)) 0
              (memRead data (ring.max - ring.pointer_push)
                (data.length - (ring.max - ring.pointer_push))),
          pointer_push := data.length - (ring.max - ring.pointer_push) } := by
      refine ⟨?_, ?_, ?_, ?_, ?_⟩
      · simp only
        rw [memWrite_length _ _ _ hb2]; exact hl1
      all_goals simp only <;> omega
    refine ⟨hwf2, ?_, ?_, ?_, ?_⟩
    · apply List.ext_getElem?
      intro i
      rw [unread_getElem_opt _ hwf2]
      simp only [memWrite_getElem_opt _ _ _ hb2, memWrite_getElem_opt _ _ _ hb1,
        hlr, hlt, memRead_getElem_opt, List.getElem?_take, List.getElem?_append,
        unread_length ring hwf, unread_getElem_opt ring hwf]
      split_ifs <;>
        first
          | rfl
          | (congr 1 <;> omega)
          | (exfalso; omega)
          | (symm; apply List.getElem?_eq_none; omega)
          | (apply List.getElem?_eq_none; omega)
    all_goals first | rfl | trivial
  · have he : (if ring.pointer_push + data.length > ring.max
        then ring.max - ring.pointer_push else data.length) = data.length := if_neg hc
    simp only [he, if_true, List.take_length]
    have hb1 : ring.pointer_push + data.length ≤ ring.buffer.length := by omega
    have hwf2 : FRingBuffer.WF
        { ring with
          available := ring.available + data.length,
          buffer := memWrite ring.buffer ring.pointer_push data,
          pointer_push := ring.pointer_push + data.length } := by
      refine ⟨?_, ?_, ?_, ?_, ?_⟩
      · simp only
        rw [memWrite_length _ _ _ hb1]; exact hl
      all_goals simp only <;> omega
    refine ⟨hwf2, ?_, ?_, ?_, ?_⟩
    · apply List.ext_getElem?
      intro i
      rw [unread_getElem_opt _ hwf2]
      simp only [memWrite_getElem_opt _ _ _ hb1, List.getElem?_append,
        unread_length ring hwf, unread_getElem_opt ring hwf]
      split_ifs <;>
        first
          | rfl
          | (congr 1 <;> omega)
          | (exfalso; omega)
          | (symm; apply List.getElem?_eq_none; omega)
          | (apply List.getElem?_eq_none; omega)
    all_goals first | rfl | trivial

/-! ## Lemmas on the mix callback -/

theorem tickOutput_length (engine : Nat → Nat → Nat) (U ch t : Nat) :
    (tickOutput engine U ch t).length = U * ch * 4 := by
  simp [tickOutput]

/-- The loop rule: an invariant that every iteration preserves holds when the
loop ends, and the loop does end when `updateSize >= 1` and the fuel covers
the frames still missing. -/
theorem mixLoop_rule (engine : Nat → Nat → Nat) (U ch goal : Nat) (hU : 1 ≤ U)
    (Inv : MixState → Prop)
    (hstep : ∀ s, Inv s → s.accumulatedFrames < goal → Inv (mixBody engine U ch goal s)) :
    ∀ (fuel : Nat) (s : MixState), goal - s.accumulatedFrames ≤ fuel → Inv s →
      ∃ s1, mixLoop engine U ch goal fuel s = some s1 ∧ Inv s1 ∧
        goal ≤ s1.accumulatedFrames := by
  intro fuel
  induction fuel with
  | zero =>
    intro s hf hi
    have hge : ¬ s.accumulatedFrames < goal := by omega
    exact ⟨s, by simp [mixLoop, hge], hi, by omega⟩
  | succ n ih =>
    intro s hf hi
    by_cases hlt : s.accumulatedFrames < goal
    · have hacc : (mixBody engine U ch goal s).accumulatedFrames = s.accumulatedFrames + U := by
        unfold mixBody; simp only; split_ifs <;> rfl
      obtain ⟨s1, h1, h2, h3⟩ := ih (mixBody engine U ch goal s) (by rw [hacc]; omega)
        (hstep s hi hlt)
      exact ⟨s1, by simp [mixLoop, hlt, h1], h2, h3⟩
    · exact ⟨s, by simp [mixLoop, hlt], hi, by omega⟩

/-- The loop returns nothing but what the loop rule describes: without any
assumption on `updateSize`, a result of the loop satisfies every invariant. -/
theorem mixLoop_partial (engine : Nat → Nat → Nat) (U ch goal : Nat)
    (Inv : MixState → Prop)
    (hstep : ∀ s, Inv s → s.accumulatedFrames < goal → Inv (mixBody engine U ch goal s)) :
    ∀ (fuel : Nat) (s s1 : MixState), Inv s →
      mixLoop engine U ch goal fuel s = some s1 → Inv s1 ∧ goal ≤ s1.accumulatedFrames := by
  intro fuel
  induction fuel with
  | zero =>
    intro s s1 hi h
    by_cases hlt : s.accumulatedFrames < goal
    · simp [mixLoop, hlt] at h
    · simp [mixLoop, hlt] at h; subst h; exact ⟨hi, by omega⟩
  | succ n ih =>
    intro s s1 hi h
    by_cases hlt : s.accumulatedFrames < goal
    · simp only [mixLoop, hlt, if_true] at h
      exact ih _ _ (hstep s hi hlt) h
    · simp [mixLoop, hlt] at h; subst h; exact ⟨hi, by omega⟩

theorem FRingBuffer_Pop_count (ring : FRingBuffer) (count : Nat) :
    (FRingBuffer_Pop ring count).2.2 = min (min count ring.available) ring.max := by
  unfold FRingBuffer_Pop; simp only; split_ifs <;> rfl

theorem FRingBuffer_Pop_available (ring : FRingBuffer) (count : Nat) :
    (FRingBuffer_Pop ring count).1.available =
      ring.available - min (min count ring.available) ring.max := by
  unfold FRingBuffer_Pop; simp only; split_ifs <;> rfl

theorem FRingBuffer_Pop_max (ring : FRingBuffer) (count : Nat) :
    (FRingBuffer_Pop ring count).1.max = ring.max := by
  unfold FRingBuffer_Pop; simp only; split_ifs <;> rfl

theorem mixBody_RingEmptyInv (engine : Nat → Nat → Nat) (U ch goal : Nat) (s : MixState)
    (hi : RingEmptyInv goal s) (hlt : s.accumulatedFrames < goal) :
    RingEmptyInv goal (mixBody engine U ch goal s) := by
  obtain ⟨h1, h2⟩ := hi
  have h0 := h1 hlt
  unfold mixBody
  simp only
  split_ifs with hc
  · refine ⟨fun h => ?_, ?_⟩
    · simp only at h; omega
    · intro a ha
      simp only [List.mem_append, List.mem_singleton] at ha
      rcases ha with ha | ha
      · exact h2 a ha
      · rw [ha]; exact h0
  · refine ⟨fun _ => h0, ?_⟩
    intro a ha
    simp only [List.mem_append, List.mem_singleton] at ha
    rcases ha with ha | ha
    · exact h2 a ha
    · rw [ha]; exact h0

theorem mixBody_TickCountInv (engine : Nat → Nat → Nat) (U ch goal t0 w0 : Nat) (s : MixState)
    (hi : TickCountInv t0 w0 s) :
    TickCountInv t0 w0 (mixBody engine U ch goal s) := by
  unfold TickCountInv at *
  obtain ⟨h1, h2⟩ := hi
  unfold mixBody
  simp only
  split_ifs <;> simp [h1, h2] <;> omega

/-- The first store into the output stays the first one. -/
theorem mixBody_writes_head (engine : Nat → Nat → Nat) (U ch goal : Nat) (s : MixState)
    (w : Nat × Nat) (hi : s.writes.head? = some w) :
    (mixBody engine U ch goal s).writes.head? = some w := by
  unfold mixBody
  simp only
  split_ifs <;> simp [List.head?_append, hi]

theorem Fills_snoc (ws : List (Nat × Nat)) (c n : Nat) (h : Fills ws c) :
    Fills (ws ++ [(c, n)]) (c + n) := by
  obtain ⟨h1, h2, h3⟩ := h
  refine ⟨?_, ?_, ?_⟩
  · intro w hw
    simp only [List.mem_append, List.mem_singleton] at hw
    rcases hw with hw | hw
    · have := h1 w hw; omega
    · subst hw; simp
  · intro i hi
    by_cases hic : i < c
    · obtain ⟨w, hw, hw1, hw2⟩ := h2 i hic
      exact ⟨w, by simp [hw], hw1, hw2⟩
    · exact ⟨(c, n), by simp, by simp only; omega, by simp only; omega⟩
  · simp [h3]

theorem mixBody_CoverInv (engine : Nat → Nat → Nat) (U ch goal : Nat) (s : MixState)
    (hi : CoverInv (ch * 4) goal s) (hlt : s.accumulatedFrames < goal) :
    CoverInv (ch * 4) goal (mixBody engine U ch goal s) := by
  obtain ⟨c, hf, hc⟩ := hi
  rcases hc with ⟨-, hp, hc⟩ | ⟨hge, -⟩
  swap
  · omega
  unfold mixBody
  simp only
  split_ifs with hover
  · refine ⟨c + (goal - s.accumulatedFrames) * ch * 4, ?_, Or.inr ⟨?_, ?_⟩⟩
    · simp only [hp]; exact Fills_snoc _ _ _ hf
    · simp only; omega
    · rw [hc, Nat.mul_assoc (goal - s.accumulatedFrames), ← Nat.add_mul]
      congr 1; omega
  · refine ⟨c + U * ch * 4, ?_, ?_⟩
    · simp only [hp]; exact Fills_snoc _ _ _ hf
    · have he : c + U * ch * 4 = (s.accumulatedFrames + U) * (ch * 4) := by
        rw [hc, Nat.mul_assoc U, ← Nat.add_mul]
      by_cases hl : s.accumulatedFrames + U < goal
      · exact Or.inl ⟨hl, by simp only [hp], he⟩
      · refine Or.inr ⟨by simp only; omega, ?_⟩
        rw [he]; congr 1; omega

theorem mixStart_CoverInv (audio : FAudio) (N : Nat) (s0 : MixState)
    (hdvd : audio.platform.channelCount * 4 ∣ audio.platform.ringBuffer.available)
    (hcap : audio.platform.ringBuffer.available ≤ audio.platform.ringBuffer.max)
    (h : mixStart audio N = some s0) :
    CoverInv (audio.platform.channelCount * 4) N s0 := by
  obtain ⟨act, U, ⟨ring, ch⟩, t⟩ := audio
  simp only at hdvd hcap ⊢
  unfold mixStart at h
  simp only [FRingBuffer_UnreadByteCount] at h
  split_ifs at h with ha hz
  · simp only [Option.some.injEq] at h
    subst h
    simp only [FRingBuffer_Pop_count]
    have hcnt : min (min (N * ch * 4) ring.available) ring.max
        = min (N * (ch * 4)) ring.available := by
      rw [Nat.mul_assoc N]; omega
    rw [hcnt]
    have hd : ch * 4 ∣ min (N * (ch * 4)) ring.available := by
      rcases Nat.le_total (N * (ch * 4)) ring.available with hle | hle
      · rw [Nat.min_eq_left hle]; exact Dvd.intro_left N rfl
      · rw [Nat.min_eq_right hle]; exact hdvd
    have h4 : 4 ∣ min (N * (ch * 4)) ring.available :=
      Dvd.dvd.trans (Dvd.intro_left _ rfl) hd
    have hmod : min (N * (ch * 4)) ring.available % 4 = 0 := Nat.mod_eq_zero_of_dvd h4
    have hfill : Fills [(0, min (N * (ch * 4)) ring.available)]
        (min (N * (ch * 4)) ring.available) := by
      have := Fills_snoc [] 0 (min (N * (ch * 4)) ring.available) ⟨by simp, by simp, by simp⟩
      simpa using this
    refine ⟨min (N * (ch * 4)) ring.available, hfill, ?_⟩
    by_cases hl : min (N * (ch * 4)) ring.available / (ch * 4) < N
    · refine Or.inl ⟨hl, ?_, ?_⟩
      · simp only; omega
      · exact (Nat.div_mul_cancel hd).symm
    · refine Or.inr ⟨by simpa using hl, ?_⟩
      have h1 : N * (ch * 4) ≤ min (N * (ch * 4)) ring.available :=
        (Nat.le_div_iff_mul_le (by omega)).mp (by omega)
      omega
  · simp only [Option.some.injEq] at h
    subst h
    refine ⟨0, ⟨by simp, by simp, by simp⟩, ?_⟩
    by_cases hN : 0 < N
    · exact Or.inl ⟨hN, rfl, by simp⟩
    · exact Or.inr ⟨by simp only; omega, by simp at hN; simp [hN]⟩

/-! ## The mix callback: claims C2, C4 -/

theorem MixCallback_inactive (engine : Nat → Nat → Nat) (fuel : Nat) (audio : FAudio)
    (N : Nat) (h : audio.active = 0) :
    FAudio_INTERNAL_MixCallback engine fuel audio N =
      some { ret := N,
             output := List.replicate (N * audio.platform.channelCount * 4) 0,
             audio := audio, writes := [], tickAvail := [], pushes := [] } := by
  simp [FAudio_INTERNAL_MixCallback, h]

theorem MixCallback_active (engine : Nat → Nat → Nat) (fuel : Nat) (audio : FAudio)
    (N : Nat) (h : audio.active ≠ 0) (r : MixResult)
    (hr : FAudio_INTERNAL_MixCallback engine fuel audio N = some r) :
    ∃ s0 s, mixStart audio N = some s0 ∧
      mixLoop engine audio.updateSize audio.platform.channelCount N fuel s0 = some s ∧
      r = { ret := N, output := s.out,
            audio := { audio with
              platform := { audio.platform with ringBuffer := s.ring },
              tickCount := s.tickCount },
            writes := s.writes, tickAvail := s.tickAvail, pushes := s.pushes } := by
  unfold FAudio_INTERNAL_MixCallback at hr
  rw [if_pos h] at hr
  cases h0 : mixStart audio N with
  | none => simp [h0] at hr
  | some s0 =>
    simp only [h0] at hr
    cases h1 : mixLoop engine audio.updateSize audio.platform.channelCount N fuel s0 with
    | none => simp [h1] at hr
    | some s =>
      simp only [h1, Option.some.injEq] at hr
      exact ⟨s0, s, rfl, h1, hr.symm⟩

theorem MixCallback_of_loop (engine : Nat → Nat → Nat) (fuel : Nat) (audio : FAudio)
    (N : Nat) (h : audio.active ≠ 0) (s0 s : MixState) (h0 : mixStart audio N = some s0)
    (h1 : mixLoop engine audio.updateSize audio.platform.channelCount N fuel s0 = some s) :
    FAudio_INTERNAL_MixCallback engine fuel audio N =
      some { ret := N, output := s.out,
             audio := { audio with
               platform := { audio.platform with ringBuffer := s.ring },
               tickCount := s.tickCount },
             writes := s.writes, tickAvail := s.tickAvail, pushes := s.pushes } := by
  unfold FAudio_INTERNAL_MixCallback
  rw [if_pos h]
  simp only [h0, h1]

theorem mixStart_isSome (audio : FAudio) (N : Nat)
    (h : 1 ≤ audio.platform.channelCount ∨ audio.platform.ringBuffer.available = 0) :
    ∃ s0, mixStart audio N = some s0 := by
  unfold mixStart
  simp only [FRingBuffer_UnreadByteCount]
  split_ifs with ha hz
  · exfalso; omega
  · exact ⟨_, rfl⟩
  · exact ⟨_, rfl⟩

/-- C2: while the engine is not active, the callback leaves the output buffer
all zero (`N * channelCount` floats), performs no engine tick and leaves the
ring buffer as it was (the whole engine state is unchanged); the callback of
the SDL build likewise zeroes its stream and performs no tick. -/
theorem C2_inactive_engine_outputs_silence (engine : Nat → Nat → Nat) (fuel : Nat)
    (audio : FAudio) (N : Nat) (h : audio.active = 0) :
    (∃ r, FAudio_INTERNAL_MixCallback engine fuel audio N = some r ∧
      r.output.length = N * audio.platform.channelCount * 4 ∧
      (∀ b ∈ r.output, b = 0) ∧
      r.tickAvail = [] ∧ r.audio.tickCount = audio.tickCount ∧
      r.audio.platform.ringBuffer = audio.platform.ringBuffer ∧
      r.audio = audio ∧ r.writes = [] ∧ r.pushes = []) ∧
    (∀ updateSize channelCount tickCount len,
      FAudio_INTERNAL_MixCallback_SDL engine audio.active updateSize channelCount tickCount len
        = (List.replicate len 0, tickCount)) := by
  refine ⟨⟨_, MixCallback_inactive engine fuel audio N h, ?_, ?_, rfl, rfl, rfl, rfl, rfl, rfl⟩, ?_⟩
  · simp
  · intro b hb
    exact List.eq_of_mem_replicate hb
  · intro U ch t len
    simp [FAudio_INTERNAL_MixCallback_SDL, h]

/-- C2, at a concrete call: the example stream with the engine switched off. -/
theorem C2_inactive_engine_outputs_silence_witness :
    ({ demoAudio with active := 0 } : FAudio).active = 0 ∧
    FAudio_INTERNAL_MixCallback demoEngine 0 { demoAudio with active := 0 } 2 =
      some { ret := 2, output := [0, 0, 0, 0, 0, 0, 0, 0],
             audio := { demoAudio with active := 0 },
             writes := [], tickAvail := [], pushes := [] } ∧
    FAudio_INTERNAL_MixCallback_SDL demoEngine 0 2 1 7 8 = ([0, 0, 0, 0, 0, 0, 0, 0], 7) := by
  have h := C2_inactive_engine_outputs_silence demoEngine 0 { demoAudio with active := 0 } 2 rfl
  refine ⟨rfl, by decide, ?_⟩
  exact h.2 2 1 7 8

theorem mixStart_RingEmptyInv (audio : FAudio) (N : Nat) (s0 : MixState)
    (hcap : audio.platform.ringBuffer.available ≤ audio.platform.ringBuffer.max)
    (h : mixStart audio N = some s0) :
    RingEmptyInv N s0 ∧
    TickCountInv audio.tickCount (if audio.platform.ringBuffer.available ≠ 0 then 1 else 0) s0 ∧
    (audio.platform.ringBuffer.available ≠ 0 →
      s0.writes.head? = some (0, min (N * (audio.platform.channelCount * 4))
        audio.platform.ringBuffer.available)) := by
  obtain ⟨act, U, ⟨ring, ch⟩, t⟩ := audio
  simp only at hcap ⊢
  unfold mixStart at h
  simp only [FRingBuffer_UnreadByteCount] at h
  split_ifs at h with ha hz
  · simp only [Option.some.injEq] at h
    subst h
    have hcnt : min (min (N * ch * 4) ring.available) ring.max
        = min (N * (ch * 4)) ring.available := by
      rw [Nat.mul_assoc N]; omega
    refine ⟨⟨?_, by simp⟩, by simp [TickCountInv, ha], ?_⟩
    · simp only [FRingBuffer_Pop_count, FRingBuffer_Pop_available, hcnt]
      intro hlt
      have h1 : min (N * (ch * 4)) ring.available < N * (ch * 4) := by
        have := (Nat.div_lt_iff_lt_mul (by omega : 0 < ch * 4)).mp hlt
        exact this
      omega
    · intro _
      simp only [FRingBuffer_Pop_count, hcnt, List.head?_cons]
  · simp only [Option.some.injEq] at h
    subst h
    refine ⟨⟨?_, by simp⟩, by simp [TickCountInv, ha], ?_⟩
    · intro _; simpa using ha
    · intro hne; simp at ha; exact absurd ha hne

/-- C4: in every callback entered with at most `max` unread bytes in the ring,
the first store into the output is the copy of the surplus held in the ring
(`min(N * frameSize, available)` bytes at offset 0), every engine tick and its
store come after it, and at every call of `FAudio_INTERNAL_UpdateEngine`
inside the callback `ring.available` is 0; every tick of the call is on
record here.  With `updateSize >= 1` and at least one channel the callback
does return. -/
theorem C4_no_tick_while_ring_holds_surplus (engine : Nat → Nat → Nat)
    (audio : FAudio) (N : Nat)
    (hcap : audio.platform.ringBuffer.available ≤ audio.platform.ringBuffer.max) :
    (∀ fuel r, FAudio_INTERNAL_MixCallback engine fuel audio N = some r →
      (∀ a ∈ r.tickAvail, a = 0) ∧
      r.audio.tickCount = audio.tickCount + r.tickAvail.length ∧
      (audio.active ≠ 0 → audio.platform.ringBuffer.available ≠ 0 →
        r.writes.head? = some (0, min (N * (audio.platform.channelCount * 4))
          audio.platform.ringBuffer.available) ∧
        r.writes.length = 1 + r.tickAvail.length)) ∧
    (1 ≤ audio.updateSize → 1 ≤ audio.platform.channelCount →
      ∀ fuel, N ≤ fuel → ∃ r, FAudio_INTERNAL_MixCallback engine fuel audio N = some r) := by
  refine ⟨?_, ?_⟩
  · intro fuel r hr
    by_cases h : audio.active = 0
    · rw [MixCallback_inactive engine fuel audio N h] at hr
      simp only [Option.some.injEq] at hr
      subst hr
      exact ⟨by simp, by simp, fun hne => absurd h hne⟩
    · obtain ⟨s0, s, h0, h1, hr⟩ := MixCallback_active engine fuel audio N h r hr
      obtain ⟨hi1, hi2, hi3⟩ := mixStart_RingEmptyInv audio N s0 hcap h0
      have hp := mixLoop_partial engine audio.updateSize audio.platform.channelCount N
        (fun s => RingEmptyInv N s ∧
          TickCountInv audio.tickCount
            (if audio.platform.ringBuffer.available ≠ 0 then 1 else 0) s ∧
          (audio.platform.ringBuffer.available ≠ 0 →
            s.writes.head? = some (0, min (N * (audio.platform.channelCount * 4))
              audio.platform.ringBuffer.available)))
        (fun s hi hlt => ⟨mixBody_RingEmptyInv engine _ _ _ s hi.1 hlt,
          mixBody_TickCountInv engine _ _ _ _ _ s hi.2.1,
          fun hne => mixBody_writes_head engine _ _ _ s _ (hi.2.2 hne)⟩)
        fuel s0 s ⟨hi1, hi2, hi3⟩ h1
      obtain ⟨⟨hq1, hq2, hq3⟩, -⟩ := hp
      subst hr
      refine ⟨hq1.2, hq2.1, fun _ hne => ⟨hq3 hne, ?_⟩⟩
      have := hq2.2
      rw [if_pos hne] at this
      exact this
  · intro hU hch fuel hfuel
    by_cases h : audio.active = 0
    · exact ⟨_, MixCallback_inactive engine fuel audio N h⟩
    · obtain ⟨s0, h0⟩ := mixStart_isSome audio N (Or.inl hch)
      obtain ⟨s, hs, -, -⟩ := mixLoop_rule engine audio.updateSize
        audio.platform.channelCount N hU (fun _ => True) (fun _ _ _ => trivial)
        fuel s0 (by omega) trivial
      exact ⟨_, MixCallback_of_loop engine fuel audio N h s0 s h0 hs⟩

/-! ## The content of the output: lemmas for C3 and C5 -/

theorem memWrite_at_end (mem : List Nat) (off : Nat) (data : List Nat)
    (h : off + data.length = mem.length) :
    memWrite mem off data = mem.take off ++ data := by
  unfold memWrite
  rw [h, List.drop_length, List.append_nil]

theorem memWrite_take (mem : List Nat) (off : Nat) (data : List Nat)
    (h : off + data.length ≤ mem.length) :
    (memWrite mem off data).take (off + data.length) = mem.take off ++ data := by
  unfold memWrite
  have hl : (List.take off mem ++ data).length = off + data.length := by
    simp; omega
  rw [← hl, List.take_left']
  rfl

theorem memRead_zero (mem : List Nat) (n : Nat) : memRead mem 0 n = mem.take n := by
  simp [memRead]

theorem memRead_to_end (mem : List Nat) (off n : Nat) (h : off + n = mem.length) :
    memRead mem off n = mem.drop off := by
  unfold memRead
  apply List.take_of_length_le
  simp; omega

theorem unread_of_empty (ring : FRingBuffer) (h : ring.available = 0) : ring.unread = [] := by
  simp [FRingBuffer.unread, h]

theorem mixBody_ContentInv (engine : Nat → Nat → Nat) (U ch goal M : Nat) (pre : List Nat)
    (hM : U * (ch * 4) ≤ M) (hU : 1 ≤ U) (s : MixState)
    (hi : ContentInv engine U ch goal M pre s) (hlt : s.accumulatedFrames < goal) :
    ContentInv engine U ch goal M pre (mixBody engine U ch goal s) := by
  obtain ⟨hwf, hmax, hlen, hpush, hc⟩ := hi
  rcases hc with ⟨-, hav, hp, hts⟩ | ⟨hge, -⟩
  swap
  · omega
  have htl : (tickOutput engine U ch s.tickCount).length = U * (ch * 4) := by
    rw [tickOutput_length, Nat.mul_assoc]
  unfold mixBody
  simp only [Nat.mul_assoc]
  split_ifs with hover
  · have hk1 : s.accumulatedFrames * (ch * 4) + (goal - s.accumulatedFrames) * (ch * 4)
        = goal * (ch * 4) := by
      rw [← Nat.add_mul]; congr 1; omega
    have hk2 : (goal - s.accumulatedFrames) * (ch * 4)
        + (U - (goal - s.accumulatedFrames)) * (ch * 4) = U * (ch * 4) := by
      rw [← Nat.add_mul]; congr 1; omega
    have hk3 : (U - (goal - s.accumulatedFrames)) * (ch * 4) + ch * 4 ≤ U * (ch * 4) := by
      calc (U - (goal - s.accumulatedFrames)) * (ch * 4) + ch * 4
          = (U - (goal - s.accumulatedFrames) + 1) * (ch * 4) := by ring
        _ ≤ U * (ch * 4) := Nat.mul_le_mul_right _ (by omega)
    have hpd : memRead (tickOutput engine U ch s.tickCount)
        ((goal - s.accumulatedFrames) * (ch * 4))
        ((U - (goal - s.accumulatedFrames)) * (ch * 4))
        = (tickOutput engine U ch s.tickCount).drop
            ((goal - s.accumulatedFrames) * (ch * 4)) :=
      memRead_to_end _ _ _ (by rw [htl]; exact hk2)
    have hpl : ((tickOutput engine U ch s.tickCount).drop
        ((goal - s.accumulatedFrames) * (ch * 4))).length
        = (U - (goal - s.accumulatedFrames)) * (ch * 4) := by
      rw [List.length_drop, htl]; omega
    have htk : ((tickOutput engine U ch s.tickCount).take
        ((goal - s.accumulatedFrames) * (ch * 4))).length
        = (goal - s.accumulatedFrames) * (ch * 4) := by
      rw [List.length_take, htl]; omega
    rw [hpd, memRead_zero, hp]
    have hfit : s.ring.available + ((tickOutput engine U ch s.tickCount).drop
        ((goal - s.accumulatedFrames) * (ch * 4))).length ≤ s.ring.max := by
      rw [hpl, hav, hmax]; omega
    obtain ⟨pwf, pun, pav, pmax, -⟩ := FRingBuffer_Push_spec s.ring _ hwf hfit
    have hout : memWrite s.out (s.accumulatedFrames * (ch * 4))
        ((tickOutput engine U ch s.tickCount).take ((goal - s.accumulatedFrames) * (ch * 4)))
        = s.out.take (s.accumulatedFrames * (ch * 4)) ++
          (tickOutput engine U ch s.tickCount).take
            ((goal - s.accumulatedFrames) * (ch * 4)) :=
      memWrite_at_end _ _ _ (by rw [htk, hlen]; exact hk1)
    refine ⟨pwf, by rw [pmax]; exact hmax, ?_, ?_, Or.inr ⟨?_, ?_, ?_, ?_⟩⟩
    · simp only
      rw [memWrite_length _ _ _ (by rw [htk, hlen]; omega)]; exact hlen
    · intro p hp1
      simp only [List.mem_append, List.mem_singleton] at hp1
      rcases hp1 with hp1 | hp1
      · exact hpush p hp1
      · subst hp1; exact ⟨hwf, hfit⟩
    · simp only; omega
    · simp only
      rw [pun, unread_of_empty _ hav, hout, tickStream, hts]
      simp only [List.nil_append, List.append_assoc, List.take_append_drop]
    · rw [pav, hav, hpl, Nat.zero_add]; exact Dvd.intro_left _ rfl
    · rw [pav, hav, hpl, Nat.zero_add]; exact hk3
  · have hk1 : s.accumulatedFrames * (ch * 4) + U * (ch * 4)
        = (s.accumulatedFrames + U) * (ch * 4) := by
      rw [← Nat.add_mul]
    have hk2 : (s.accumulatedFrames + U) * (ch * 4) ≤ goal * (ch * 4) :=
      Nat.mul_le_mul_right _ (by omega)
    have hb : s.outPointer + (tickOutput engine U ch s.tickCount).length ≤ s.out.length := by
      rw [htl, hlen, hp]; omega
    refine ⟨hwf, hmax, ?_, hpush, ?_⟩
    · simp only
      rw [memWrite_length _ _ _ hb]; exact hlen
    · simp only
      by_cases hl : s.accumulatedFrames + U < goal
      · refine Or.inl ⟨hl, hav, by rw [hp, hk1], ?_⟩
        rw [← hk1, ← htl, ← hp, memWrite_take _ _ _ hb, tickStream, hts, hp]
        simp only [List.append_assoc]
      · have hge : s.accumulatedFrames + U = goal := by omega
        refine Or.inr ⟨by omega, ?_, by rw [hav]; exact Nat.dvd_zero _, ?_⟩
        · have hend : s.outPointer + (tickOutput engine U ch s.tickCount).length
              = s.out.length := by
            rw [htl, hlen, hp, hk1, hge]
          rw [memWrite_at_end _ _ _ hend, unread_of_empty _ hav, tickStream, hts, hp]
          simp only [List.append_assoc, List.append_nil]
        · rw [hav, Nat.zero_add]
          exact Nat.le_mul_of_pos_left _ (by omega)

theorem mixStart_ContentInv (engine : Nat → Nat → Nat) (audio : FAudio) (N : Nat)
    (pre : List Nat) (s0 : MixState) (hU : 1 ≤ audio.updateSize)
    (hwf : audio.platform.ringBuffer.WF)
    (hdvd : audio.platform.channelCount * 4 ∣ audio.platform.ringBuffer.available)
    (hq : audio.platform.ringBuffer.available + audio.platform.channelCount * 4
      ≤ audio.updateSize * (audio.platform.channelCount * 4))
    (hpre : tickStream engine audio.updateSize audio.platform.channelCount audio.tickCount
      = pre ++ audio.platform.ringBuffer.unread)
    (h : mixStart audio N = some s0) :
    ContentInv engine audio.updateSize audio.platform.channelCount N
      audio.platform.ringBuffer.max pre s0 := by
  obtain ⟨act, U, ⟨ring, ch⟩, t⟩ := audio
  simp only at hU hwf hdvd hq hpre ⊢
  unfold mixStart at h
  simp only [FRingBuffer_UnreadByteCount] at h
  have hul := unread_length ring hwf
  split_ifs at h with ha hz
  · simp only [Option.some.injEq] at h
    subst h
    obtain ⟨pc, pd, pu, pwf, pav, pmax, -, -⟩ := FRingBuffer_Pop_spec ring (N * ch * 4) hwf
    rw [Nat.mul_assoc] at pc pd pu pav pwf pmax
    have hdl : (FRingBuffer_Pop ring (N * (ch * 4))).2.1.length
        = min (N * (ch * 4)) ring.available := by
      rw [pd, List.length_take, hul]; omega
    have hzl : (List.replicate (N * (ch * 4)) 0).length = N * (ch * 4) := by simp
    have hd : ch * 4 ∣ min (N * (ch * 4)) ring.available := by
      rcases Nat.le_total (N * (ch * 4)) ring.available with hle | hle
      · rw [Nat.min_eq_left hle]; exact Dvd.intro_left N rfl
      · rw [Nat.min_eq_right hle]; exact hdvd
    have h4 : 4 ∣ min (N * (ch * 4)) ring.available :=
      Dvd.dvd.trans (Dvd.intro_left _ rfl) hd
    have hmod : min (N * (ch * 4)) ring.available % 4 = 0 := Nat.mod_eq_zero_of_dvd h4
    simp only [Nat.mul_assoc]
    refine ⟨pwf, pmax, ?_, by simp, ?_⟩
    · simp only
      rw [memWrite_length _ _ _ (by rw [hdl, hzl]; omega)]; exact hzl
    · simp only
      by_cases hl : (FRingBuffer_Pop ring (N * (ch * 4))).2.2 / (ch * 4) < N
      · have hl2 := hl
        rw [pc] at hl2
        have h1 : min (N * (ch * 4)) ring.available < N * (ch * 4) :=
          (Nat.div_lt_iff_lt_mul (by omega : 0 < ch * 4)).mp hl2
        have hcnt : min (N * (ch * 4)) ring.available = ring.available := by omega
        have hmul : (FRingBuffer_Pop ring (N * (ch * 4))).2.2 / (ch * 4) * (ch * 4)
            = ring.available := by
          rw [pc, Nat.div_mul_cancel hd, hcnt]
        refine Or.inl ⟨hl, by rw [pav]; omega, ?_, ?_⟩
        · rw [hmul, pc]; omega
        · rw [hmul, hpre]
          congr 1
          have ht := memWrite_take (List.replicate (N * (ch * 4)) 0) 0
            (FRingBuffer_Pop ring (N * (ch * 4))).2.1 (by rw [hdl, hzl]; omega)
          rw [hdl, hcnt, Nat.zero_add] at ht
          rw [ht, pd, hcnt, ← hul]
          simp
      · have hge : N ≤ (FRingBuffer_Pop ring (N * (ch * 4))).2.2 / (ch * 4) := by omega
        have hge2 := hge
        rw [pc] at hge2
        have h1 : N * (ch * 4) ≤ min (N * (ch * 4)) ring.available :=
          (Nat.le_div_iff_mul_le (by omega)).mp hge2
        have hcnt : min (N * (ch * 4)) ring.available = N * (ch * 4) := by omega
        refine Or.inr ⟨hge, ?_, ?_, ?_⟩
        · rw [memWrite_at_end _ _ _ (by rw [hdl, hzl]; omega), hpre, pu, pd]
          simp only [List.take_zero, List.nil_append, List.append_assoc,
            List.take_append_drop]
        · rw [pav, hcnt]
          exact Nat.dvd_sub' hdvd (Dvd.intro_left N rfl)
        · rw [pav]; omega
  · simp only [Option.some.injEq] at h
    subst h
    have hav : ring.available = 0 := by simpa using ha
    simp only [Nat.mul_assoc]
    refine ⟨hwf, rfl, by simp, by simp, ?_⟩
    simp only
    by_cases hN : 0 < N
    · refine Or.inl ⟨hN, hav, by simp, ?_⟩
      rw [hpre, unread_of_empty _ hav]
      simp
    · have hN0 : N = 0 := by omega
      refine Or.inr ⟨by omega, ?_, hdvd, hq⟩
      rw [hpre, hN0]
      simp

/-- One call of the callback on a well-formed stream: it returns, the audio
produced so far is the audio delivered before, the output of this call and the
unread content of the ring, in this order; the ring stays well-formed and
holds whole frames, fewer than `updateSize`; every push had room. -/
theorem MixCallback_content (engine : Nat → Nat → Nat) (audio : FAudio) (N fuel : Nat)
    (pre : List Nat) (hact : audio.active ≠ 0) (hU : 1 ≤ audio.updateSize)
    (hwf : audio.platform.ringBuffer.WF)
    (hM : audio.updateSize * (audio.platform.channelCount * 4) ≤ audio.platform.ringBuffer.max)
    (hdvd : audio.platform.channelCount * 4 ∣ audio.platform.ringBuffer.available)
    (hq : audio.platform.ringBuffer.available + audio.platform.channelCount * 4
      ≤ audio.updateSize * (audio.platform.channelCount * 4))
    (hpre : tickStream engine audio.updateSize audio.platform.channelCount audio.tickCount
      = pre ++ audio.platform.ringBuffer.unread)
    (hfuel : N ≤ fuel) :
    ∃ r, FAudio_INTERNAL_MixCallback engine fuel audio N = some r ∧
      r.output.length = N * (audio.platform.channelCount * 4) ∧
      r.audio.active = audio.active ∧ r.audio.updateSize = audio.updateSize ∧
      r.audio.platform.channelCount = audio.platform.channelCount ∧
      r.audio.platform.ringBuffer.WF ∧
      r.audio.platform.ringBuffer.max = audio.platform.ringBuffer.max ∧
      audio.platform.channelCount * 4 ∣ r.audio.platform.ringBuffer.available ∧
      r.audio.platform.ringBuffer.available + audio.platform.channelCount * 4
        ≤ audio.updateSize * (audio.platform.channelCount * 4) ∧
      tickStream engine audio.updateSize audio.platform.channelCount r.audio.tickCount
        = pre ++ r.output ++ r.audio.platform.ringBuffer.unread ∧
      (∀ p ∈ r.pushes, p.1.WF ∧ p.1.available + p.2.length ≤ p.1.max) := by
  have hsome : 1 ≤ audio.platform.channelCount ∨ audio.platform.ringBuffer.available = 0 := by
    rcases Nat.eq_zero_or_pos audio.platform.channelCount with hz | hp
    · right
      rw [hz] at hdvd
      exact Nat.eq_zero_of_zero_dvd hdvd
    · left; exact hp
  obtain ⟨s0, h0⟩ := mixStart_isSome audio N hsome
  have hinv0 := mixStart_ContentInv engine audio N pre s0 hU hwf hdvd hq hpre h0
  obtain ⟨s, hs, hinv, hge⟩ := mixLoop_rule engine audio.updateSize
    audio.platform.channelCount N hU
    (ContentInv engine audio.updateSize audio.platform.channelCount N
      audio.platform.ringBuffer.max pre)
    (fun s hi hlt => mixBody_ContentInv engine _ _ _ _ pre hM hU s hi hlt)
    fuel s0 (by omega) hinv0
  refine ⟨_, MixCallback_of_loop engine fuel audio N hact s0 s h0 hs, ?_⟩
  obtain ⟨iwf, imax, ilen, ipush, ic⟩ := hinv
  rcases ic with ⟨hlt, -, -, -⟩ | ⟨-, its, idvd, iq⟩
  · omega
  · exact ⟨ilen, rfl, rfl, rfl, iwf, imax, idvd, iq, its, ipush⟩

theorem MixCallback_ret (engine : Nat → Nat → Nat) (fuel : Nat) (audio : FAudio)
    (N : Nat) (r : MixResult) (hr : FAudio_INTERNAL_MixCallback engine fuel audio N = some r) :
    r.ret = N := by
  by_cases h : audio.active = 0
  · rw [MixCallback_inactive engine fuel audio N h] at hr
    simp only [Option.some.injEq] at hr
    rw [← hr]
  · obtain ⟨s0, s, -, -, hr⟩ := MixCallback_active engine fuel audio N h r hr
    rw [hr]

theorem runCallbacks_spec (engine : Nat → Nat → Nat) (U ch M fuel : Nat) (hU : 1 ≤ U)
    (hM : U * (ch * 4) ≤ M) :
    ∀ (ns : List Nat) (audio : FAudio) (pre : List Nat),
      StreamInv engine U ch M pre audio → (∀ n ∈ ns, n ≤ fuel) →
      ∃ audio1 rs, runCallbacks engine fuel audio ns = some (audio1, rs) ∧
        StreamInv engine U ch M (pre ++ (rs.map (fun r => r.output)).flatten) audio1 ∧
        List.Forall₂ (CallOK U ch M) rs ns := by
  intro ns
  induction ns with
  | nil =>
    intro audio pre hi _
    exact ⟨audio, [], rfl, by simpa using hi, List.Forall₂.nil⟩
  | cons n ns ih =>
    intro audio pre hi hfuel
    obtain ⟨hact, hu, hc, hm, hwf, hdvd, hq, hpre⟩ := hi
    subst hu hc hm
    obtain ⟨r, hr, rlen, ract, ru, rc, rwf, rmax, rdvd, rq, rts, rpush⟩ :=
      MixCallback_content engine audio n fuel pre hact hU hwf hM hdvd hq hpre
        (hfuel n (by simp))
    have hi1 : StreamInv engine audio.updateSize audio.platform.channelCount
        audio.platform.ringBuffer.max (pre ++ r.output) r.audio :=
      ⟨by rw [ract]; exact hact, ru, rc, rmax, rwf, rdvd, rq, rts⟩
    obtain ⟨audio1, rs, hrs, hinv, hall⟩ := ih r.audio (pre ++ r.output) hi1
      (fun m hm => hfuel m (by simp [hm]))
    refine ⟨audio1, r :: rs, ?_, ?_, ?_⟩
    · simp only [runCallbacks, hr, hrs]
    · simpa [List.append_assoc] using hinv
    · exact List.Forall₂.cons
        ⟨MixCallback_ret engine fuel audio n r hr, rlen, rwf, rmax, rdvd, rq, rpush⟩ hall

theorem streamAfterInit_inv (engine : Nat → Nat → Nat) (act U ch : Nat) (block : List Nat)
    (hact : act ≠ 0) (hU : 1 ≤ U) (hblock : block.length = U * 4 * ch * 4) :
    StreamInv engine U ch (U * 4 * ch * 4) [] (streamAfterInit act U ch block) := by
  refine ⟨hact, rfl, rfl, rfl, ?_, ?_, ?_, ?_⟩
  · exact ⟨hblock, Nat.zero_le _, Nat.zero_le _, Nat.zero_le _, Or.inl rfl⟩
  · exact Nat.dvd_zero _
  · show 0 + ch * 4 ≤ U * (ch * 4)
    rw [Nat.zero_add]
    exact Nat.le_mul_of_pos_left _ (by omega)
  · simp [streamAfterInit, FRingBuffer_Init, tickStream, FRingBuffer.unread]

theorem outputs_length (U ch M : Nat) :
    ∀ (rs : List MixResult) (ns : List Nat), List.Forall₂ (CallOK U ch M) rs ns →
      ((rs.map (fun r => r.output)).flatten).length = ns.sum * (ch * 4) := by
  intro rs ns h
  induction h with
  | nil => simp
  | cons h1 _ ih =>
    simp only [List.map_cons, List.flatten_cons, List.length_append, List.sum_cons, ih,
      h1.2.1, Nat.add_mul]

/-- C4, at a concrete call: the example stream holding one surplus frame is
asked for three frames; the surplus frame is stored first and the tick finds
the ring empty. -/
theorem C4_no_tick_while_ring_holds_surplus_witness :
    demoAudioSurplus.platform.ringBuffer.available ≤ demoAudioSurplus.platform.ringBuffer.max ∧
    (FAudio_INTERNAL_MixCallback demoEngine 3 demoAudioSurplus 3).map
      (fun r => (r.output, r.writes, r.tickAvail)) =
      some ([15, 16, 17, 18, 1, 2, 3, 4, 5, 6, 7, 8], [(0, 4), (4, 8)], [0]) ∧
    ∃ r, FAudio_INTERNAL_MixCallback demoEngine 3 demoAudioSurplus 3 = some r ∧
      (∀ a ∈ r.tickAvail, a = 0) ∧
      r.audio.tickCount = demoAudioSurplus.tickCount + r.tickAvail.length ∧
      r.writes.head? = some (0, min (3 * (demoAudioSurplus.platform.channelCount * 4))
        demoAudioSurplus.platform.ringBuffer.available) ∧
      r.writes.length = 1 + r.tickAvail.length :=
  ⟨by decide, by decide,
   match (C4_no_tick_while_ring_holds_surplus demoEngine demoAudioSurplus 3 (by decide)).2
      (by decide) (by decide) 3 (by decide) with
   | ⟨r, hr⟩ =>
     ⟨r, hr,
      ((C4_no_tick_while_ring_holds_surplus demoEngine demoAudioSurplus 3 (by decide)).1
        3 r hr).1,
      ((C4_no_tick_while_ring_holds_surplus demoEngine demoAudioSurplus 3 (by decide)).1
        3 r hr).2.1,
      ((C4_no_tick_while_ring_holds_surplus demoEngine demoAudioSurplus 3 (by decide)).1
        3 r hr).2.2 (by decide) (by decide)⟩⟩

/-! ## Runs of callbacks: claims C3 and C5 -/

theorem quantum_le_capacity (U ch : Nat) : U * (ch * 4) ≤ U * 4 * ch * 4 := by
  have h : U * 4 * ch * 4 = 4 * (U * (ch * 4)) := by ring
  omega

theorem append_tail_eq (a b c d : List Nat) (h : a ++ b = c ++ d) (hl : d.length ≤ b.length) :
    d = b.drop (b.length - d.length) := by
  have hlen : a.length + b.length = c.length + d.length := by
    have := congrArg List.length h
    simpa using this
  have h2 : c.length = a.length + (b.length - d.length) := by omega
  calc d = (c ++ d).drop c.length := by simp
    _ = (a ++ b).drop (a.length + (b.length - d.length)) := by rw [h, h2]
    _ = b.drop (b.length - d.length) := by rw [List.drop_append]

/-- C3: for every run of callbacks with frame counts `ns` on an active engine
with `updateSize = U >= 1`, started on the empty ring of `4 * U` frames, every
call returns its frame count, the concatenation of the output buffers is the
first `sum ns` frames of the audio of the ticks performed, in tick order, and
the unread content of the ring is the rest of that audio: fewer than `U`
frames, the tail of the last tick.  Nothing is lost, duplicated or reordered. -/
theorem C3_outputs_are_the_tick_stream_in_order (engine : Nat → Nat → Nat)
    (act U ch fuel : Nat) (block : List Nat) (ns : List Nat)
    (hact : act ≠ 0) (hU : 1 ≤ U) (hblock : block.length = U * 4 * ch * 4)
    (hfuel : ∀ n ∈ ns, n ≤ fuel) :
    ∃ audio1 rs,
      runCallbacks engine fuel (streamAfterInit act U ch block) ns = some (audio1, rs) ∧
      List.Forall₂ (fun r n => r.ret = n ∧ r.output.length = n * (ch * 4)) rs ns ∧
      (rs.map (fun r => r.output)).flatten ++ audio1.platform.ringBuffer.unread =
        tickStream engine U ch audio1.tickCount ∧
      (rs.map (fun r => r.output)).flatten =
        (tickStream engine U ch audio1.tickCount).take (ns.sum * (ch * 4)) ∧
      audio1.platform.ringBuffer.unread =
        (tickStream engine U ch audio1.tickCount).drop (ns.sum * (ch * 4)) ∧
      audio1.platform.ringBuffer.unread.length + ch * 4 ≤ U * (ch * 4) ∧
      (audio1.tickCount = 0 ∨
        audio1.platform.ringBuffer.unread =
          (tickOutput engine U ch (audio1.tickCount - 1)).drop
            (U * (ch * 4) - audio1.platform.ringBuffer.unread.length)) := by
  obtain ⟨audio1, rs, hrun, hinv, hall⟩ :=
    runCallbacks_spec engine U ch (U * 4 * ch * 4) fuel hU (quantum_le_capacity U ch) ns
      (streamAfterInit act U ch block) []
      (streamAfterInit_inv engine act U ch block hact hU hblock) hfuel
  obtain ⟨-, -, -, -, hwf, -, hq, hts⟩ := hinv
  rw [List.nil_append] at hts
  have hlen := outputs_length U ch _ rs ns hall
  have hul := unread_length _ hwf
  refine ⟨audio1, rs, hrun, ?_, hts.symm, ?_, ?_, by rw [hul]; exact hq, ?_⟩
  · exact List.Forall₂.imp (fun _ _ h => ⟨h.1, h.2.1⟩) hall
  · rw [hts, ← hlen, List.take_left']
    rfl
  · rw [hts, ← hlen, List.drop_left']
    rfl
  · rcases Nat.eq_zero_or_pos audio1.tickCount with hz | hp
    · left; exact hz
    · right
      obtain ⟨t, ht⟩ : ∃ t, audio1.tickCount = t + 1 := ⟨audio1.tickCount - 1, by omega⟩
      rw [ht] at hts
      rw [ht, Nat.add_sub_cancel]
      simp only [tickStream] at hts
      have htl : (tickOutput engine U ch t).length = U * (ch * 4) := by
        rw [tickOutput_length, Nat.mul_assoc]
      have := append_tail_eq _ _ _ _ hts (by rw [htl, hul]; omega)
      rw [htl] at this
      exact this

/-- C3, at a concrete run: the example stream asked for 3, 1, 5, 0 and 2
frames. -/
theorem C3_outputs_are_the_tick_stream_in_order_witness :
    (1 ≠ 0 ∧ 1 ≤ 2 ∧ (List.replicate 32 0).length = 2 * 4 * 1 * 4 ∧
      ∀ n ∈ [3, 1, 5, 0, 2], n ≤ 5) ∧
    (runCallbacks demoEngine 5 (streamAfterInit 1 2 1 (List.replicate 32 0))
        [3, 1, 5, 0, 2]).map (fun p => (p.2.map (fun r => r.output), p.1.tickCount,
          p.1.platform.ringBuffer.unread)) =
      some ([[1, 2, 3, 4, 5, 6, 7, 8, 11, 12, 13, 14], [15, 16, 17, 18],
             [21, 22, 23, 24, 25, 26, 27, 28, 31, 32, 33, 34, 35, 36, 37, 38, 41, 42, 43, 44],
             [], [45, 46, 47, 48, 51, 52, 53, 54]], 6, [55, 56, 57, 58]) ∧
    ∃ audio1 rs,
      runCallbacks demoEngine 5 (streamAfterInit 1 2 1 (List.replicate 32 0))
        [3, 1, 5, 0, 2] = some (audio1, rs) ∧
      List.Forall₂ (fun r n => r.ret = n ∧ r.output.length = n * (1 * 4)) rs [3, 1, 5, 0, 2] ∧
      (rs.map (fun r => r.output)).flatten ++ audio1.platform.ringBuffer.unread =
        tickStream demoEngine 2 1 audio1.tickCount ∧
      (rs.map (fun r => r.output)).flatten =
        (tickStream demoEngine 2 1 audio1.tickCount).take ([3, 1, 5, 0, 2].sum * (1 * 4)) ∧
      audio1.platform.ringBuffer.unread =
        (tickStream demoEngine 2 1 audio1.tickCount).drop ([3, 1, 5, 0, 2].sum * (1 * 4)) ∧
      audio1.platform.ringBuffer.unread.length + 1 * 4 ≤ 2 * (1 * 4) ∧
      (audio1.tickCount = 0 ∨
        audio1.platform.ringBuffer.unread =
          (tickOutput demoEngine 2 1 (audio1.tickCount - 1)).drop
            (2 * (1 * 4) - audio1.platform.ringBuffer.unread.length)) :=
  ⟨⟨by decide, by decide, by decide, by decide⟩, by decide,
   C3_outputs_are_the_tick_stream_in_order demoEngine 1 2 1 5 (List.replicate 32 0)
     [3, 1, 5, 0, 2] (by decide) (by decide) (by decide) (by decide)⟩

theorem runCallbacks_inactive (engine : Nat → Nat → Nat) (fuel : Nat) (audio : FAudio)
    (h : audio.active = 0) :
    ∀ ns : List Nat, ∃ rs, runCallbacks engine fuel audio ns = some (audio, rs) ∧
      rs.length = ns.length ∧ ∀ r ∈ rs, r.audio = audio ∧ r.pushes = [] := by
  intro ns
  induction ns with
  | nil => exact ⟨[], rfl, rfl, by simp⟩
  | cons n ns ih =>
    obtain ⟨rs, hrs, hl, hall⟩ := ih
    refine ⟨{ ret := n,
              output := List.replicate (n * audio.platform.channelCount * 4) 0,
              audio := audio, writes := [], tickAvail := [], pushes := [] } :: rs, ?_, ?_, ?_⟩
    · simp only [runCallbacks, MixCallback_inactive engine fuel audio n h, hrs]
    · simp [hl]
    · intro r hr
      simp only [List.mem_cons] at hr
      rcases hr with hr | hr
      · subst hr; exact ⟨rfl, rfl⟩
      · exact hall r hr

theorem Forall₂_length_and_mem (U ch M : Nat) :
    ∀ (rs : List MixResult) (ns : List Nat), List.Forall₂ (CallOK U ch M) rs ns →
      rs.length = ns.length ∧ ∀ r ∈ rs, ∃ n, CallOK U ch M r n := by
  intro rs ns h
  induction h with
  | nil => simp
  | cons h1 _ ih =>
    refine ⟨by simp [ih.1], ?_⟩
    intro r hr
    simp only [List.mem_cons] at hr
    rcases hr with hr | hr
    · subst hr; exact ⟨_, h1⟩
    · exact ih.2 r hr

/-- C5: for every run of callbacks (any frame counts, `updateSize = U >= 1`,
at least one channel, engine active or not) started on the ring that
`FAudio_PlatformInit` creates with `U * 4 * channelCount * sizeof(float)`
bytes, every call returns, and after each call `ring.available` is a multiple
of the frame size, strictly less than one quantum (`U * channelCount * 4`
bytes) and at most `ring.max`; every `FRingBuffer_Push` of the run finds room
for its data (`available + size <= max`), so it does not take the "pushing
too much" branch and keeps the unread bytes, appending the pushed ones. -/
theorem C5_ring_holds_less_than_one_quantum (engine : Nat → Nat → Nat)
    (act U ch fuel : Nat) (block : List Nat) (ns : List Nat)
    (hU : 1 ≤ U) (hch : 1 ≤ ch) (hblock : block.length = U * 4 * ch * 4)
    (hfuel : ∀ n ∈ ns, n ≤ fuel) :
    ∃ audio1 rs,
      runCallbacks engine fuel (streamAfterInit act U ch block) ns = some (audio1, rs) ∧
      rs.length = ns.length ∧
      ∀ r ∈ rs,
        ch * 4 ∣ r.audio.platform.ringBuffer.available ∧
        r.audio.platform.ringBuffer.available < U * ch * 4 ∧
        r.audio.platform.ringBuffer.available ≤ r.audio.platform.ringBuffer.max ∧
        r.audio.platform.ringBuffer.max = U * 4 * ch * 4 ∧
        ∀ p ∈ r.pushes,
          FRingBuffer_Push_rejects p.1 p.2.length = false ∧
          p.1.available + p.2.length ≤ p.1.max ∧
          (FRingBuffer_Push p.1 p.2).unread = p.1.unread ++ p.2 ∧
          (FRingBuffer_Push p.1 p.2).available = p.1.available + p.2.length := by
  have hcap := quantum_le_capacity U ch
  have hpos : 0 < U * (ch * 4) := Nat.mul_pos (by omega) (by omega)
  by_cases hact : act = 0
  · obtain ⟨rs, hrs, hl, hall⟩ :=
      runCallbacks_inactive engine fuel (streamAfterInit act U ch block) hact ns
    refine ⟨_, rs, hrs, hl, ?_⟩
    intro r hr
    obtain ⟨ha, hp⟩ := hall r hr
    rw [ha, hp]
    refine ⟨Nat.dvd_zero _, ?_, Nat.zero_le _, rfl, by simp⟩
    show 0 < U * ch * 4
    rw [Nat.mul_assoc]; exact hpos
  · obtain ⟨audio1, rs, hrun, -, hall⟩ :=
      runCallbacks_spec engine U ch (U * 4 * ch * 4) fuel hU hcap ns
        (streamAfterInit act U ch block) []
        (streamAfterInit_inv engine act U ch block hact hU hblock) hfuel
    obtain ⟨hl, hmem⟩ := Forall₂_length_and_mem U ch _ rs ns hall
    refine ⟨audio1, rs, hrun, hl, ?_⟩
    intro r hr
    obtain ⟨n, -, -, rwf, rmax, rdvd, rq, rpush⟩ := hmem r hr
    refine ⟨rdvd, by rw [Nat.mul_assoc]; omega, rwf.2.2.2.1, rmax, ?_⟩
    intro p hp
    obtain ⟨pwf, pfit⟩ := rpush p hp
    obtain ⟨-, pun, pav, -, -⟩ := FRingBuffer_Push_spec p.1 p.2 pwf pfit
    refine ⟨?_, pfit, pun, pav⟩
    simp only [FRingBuffer_Push_rejects, decide_eq_false_iff_not]
    omega

/-- C5, at a concrete run: the example stream asked for 3, 1, 5, 0 and 2
frames; the ring holds 4, 0, 4, 4 and 4 bytes after the calls. -/
theorem C5_ring_holds_less_than_one_quantum_witness :
    (1 ≤ 2 ∧ 1 ≤ 1 ∧ (List.replicate 32 0).length = 2 * 4 * 1 * 4 ∧
      ∀ n ∈ [3, 1, 5, 0, 2], n ≤ 5) ∧
    (runCallbacks demoEngine 5 (streamAfterInit 1 2 1 (List.replicate 32 0))
        [3, 1, 5, 0, 2]).map
          (fun p => p.2.map (fun r => r.audio.platform.ringBuffer.available)) =
      some [4, 0, 4, 4, 4] ∧
    ∃ audio1 rs,
      runCallbacks demoEngine 5 (streamAfterInit 1 2 1 (List.replicate 32 0))
        [3, 1, 5, 0, 2] = some (audio1, rs) ∧
      rs.length = [3, 1, 5, 0, 2].length ∧
      ∀ r ∈ rs,
        1 * 4 ∣ r.audio.platform.ringBuffer.available ∧
        r.audio.platform.ringBuffer.available < 2 * 1 * 4 ∧
        r.audio.platform.ringBuffer.available ≤ r.audio.platform.ringBuffer.max ∧
        r.audio.platform.ringBuffer.max = 2 * 4 * 1 * 4 ∧
        ∀ p ∈ r.pushes,
          FRingBuffer_Push_rejects p.1 p.2.length = false ∧
          p.1.available + p.2.length ≤ p.1.max ∧
          (FRingBuffer_Push p.1 p.2).unread = p.1.unread ++ p.2 ∧
          (FRingBuffer_Push p.1 p.2).available = p.1.available + p.2.length :=
  ⟨⟨by decide, by decide, by decide, by decide⟩, by decide,
   C5_ring_holds_less_than_one_quantum demoEngine 1 2 1 5 (List.replicate 32 0)
     [3, 1, 5, 0, 2] (by decide) (by decide) (by decide) (by decide)⟩

/-! ## The ring buffer is a FIFO byte queue: claim C10 -/

theorem runRing_spec : ∀ (ops : List RingOp) (ring : FRingBuffer), ring.WF →
    RoomForPushes ring ops →
    (runRing ring ops).1.WF ∧ (runRing ring ops).1.max = ring.max ∧
    (runRing ring ops).1.unread = (runQueue ring.unread ops).1 ∧
    (runRing ring ops).2 = (runQueue ring.unread ops).2 := by
  intro ops
  induction ops with
  | nil => intro ring hwf _; exact ⟨hwf, rfl, rfl, rfl⟩
  | cons op ops ih =>
    intro ring hwf hroom
    cases op with
    | push data =>
      obtain ⟨hfit, hrest⟩ := hroom
      obtain ⟨pwf, pun, -, pmax, -⟩ := FRingBuffer_Push_spec ring data hwf hfit
      obtain ⟨h1, h2, h3, h4⟩ := ih (FRingBuffer_Push ring data) pwf hrest
      simp only [runRing, runQueue]
      rw [← pun]
      exact ⟨h1, by rw [h2, pmax], h3, h4⟩
    | pop count =>
      obtain ⟨pc, pd, pu, pwf, -, pmax, -, -⟩ := FRingBuffer_Pop_spec ring count hwf
      obtain ⟨h1, h2, h3, h4⟩ := ih (FRingBuffer_Pop ring count).1 pwf hroom
      have hul := unread_length ring hwf
      simp only [runRing, runQueue]
      rw [hul, ← pu]
      refine ⟨h1, by rw [h2, pmax], h3, ?_⟩
      rw [h4, pd, pc]

theorem FRingBuffer_Pop_loads_in_bounds (ring : FRingBuffer) (count : Nat) (h : ring.WF) :
    ∀ l ∈ FRingBuffer_Pop_loads ring count, l.1 + l.2 ≤ ring.max := by
  obtain ⟨-, -, hpo, ha, -⟩ := h
  intro l hl
  unfold FRingBuffer_Pop_loads at hl
  simp only at hl
  split_ifs at hl with hc
  · simp only [List.mem_cons, List.mem_singleton, List.mem_nil_iff, or_false] at hl
    rcases hl with hl | hl <;> subst hl <;> simp only <;> omega
  · simp only [List.mem_singleton] at hl
    subst hl; simp only; omega

theorem FRingBuffer_Push_stores_in_bounds (ring : FRingBuffer) (size : Nat) (h : ring.WF) :
    ∀ l ∈ FRingBuffer_Push_stores ring size, l.1 + l.2 ≤ ring.max := by
  obtain ⟨-, hpu, -, -, -⟩ := h
  intro l hl
  unfold FRingBuffer_Push_stores at hl
  simp only at hl
  split_ifs at hl with h1 h2 h3 h4 <;>
    simp only [List.mem_cons, List.mem_singleton, List.mem_nil_iff, or_false] at hl
  all_goals
    first
      | (subst hl; simp only; omega)
      | (rcases hl with hl | hl <;> subst hl <;> simp only <;> omega)
      | (exfalso; omega)

theorem FRingBuffer_Pop_empty (ring : FRingBuffer) (count : Nat) (h : ring.available = 0) :
    FRingBuffer_Pop ring count = (ring, [], 0) := by
  obtain ⟨buffer, pu, po, mx, av⟩ := ring
  simp only at h
  subst h
  simp [FRingBuffer_Pop, memRead]

theorem FRingBuffer_Init_WF (block : List Nat) (size : Nat) (h : block.length = size) :
    (FRingBuffer_Init (some block) size).1 = 1 ∧ (FRingBuffer_Init (some block) size).2.WF ∧
    (FRingBuffer_Init (some block) size).2.max = size ∧
    (FRingBuffer_Init (some block) size).2.unread = [] :=
  ⟨rfl, ⟨h, Nat.zero_le _, Nat.zero_le _, Nat.zero_le _, Or.inl rfl⟩, rfl,
    by simp [FRingBuffer_Init, FRingBuffer.unread]⟩

/-- C10: the ring is a FIFO byte queue.  Take the ring made by a successful
`FRingBuffer_Init(size)` and any sequence of pushes and pops in which every
push satisfies `available + |data| <= max`.  The pops of the sequence return
what the pops of a FIFO queue return, and in the ring `r` reached: the unread
content is the content of that queue, both cursors are `<= max = size`; every
further `FRingBuffer_Pop(count)` returns the oldest `min(count, available)`
unread bytes in push order, sets `*count` to that number, reduces `available`
by it, leaves the younger bytes unread and only loads bytes at indices below
`max`; a pop on the empty ring returns no byte and changes nothing; every
further push with room raises `available` by `|data|`, appends the data to the
unread content and only stores at indices below `max`. -/
theorem C10_ring_buffer_is_fifo_queue (block : List Nat) (size : Nat) (ops : List RingOp)
    (hblock : block.length = size)
    (hroom : RoomForPushes (FRingBuffer_Init (some block) size).2 ops) :
    (runRing (FRingBuffer_Init (some block) size).2 ops).2 = (runQueue [] ops).2 ∧
    (runRing (FRingBuffer_Init (some block) size).2 ops).1.unread = (runQueue [] ops).1 ∧
    (runRing (FRingBuffer_Init (some block) size).2 ops).1.max = size ∧
    (runRing (FRingBuffer_Init (some block) size).2 ops).1.pointer_push ≤ size ∧
    (runRing (FRingBuffer_Init (some block) size).2 ops).1.pointer_pop ≤ size ∧
    (runRing (FRingBuffer_Init (some block) size).2 ops).1.unread.length =
      (runRing (FRingBuffer_Init (some block) size).2 ops).1.available ∧
    (∀ count,
      (FRingBuffer_Pop (runRing (FRingBuffer_Init (some block) size).2 ops).1 count).2.2 =
        min count (runRing (FRingBuffer_Init (some block) size).2 ops).1.available ∧
      (FRingBuffer_Pop (runRing (FRingBuffer_Init (some block) size).2 ops).1 count).2.1 =
        (runRing (FRingBuffer_Init (some block) size).2 ops).1.unread.take
          (min count (runRing (FRingBuffer_Init (some block) size).2 ops).1.available) ∧
      (FRingBuffer_Pop (runRing (FRingBuffer_Init (some block) size).2 ops).1 count).1.unread =
        (runRing (FRingBuffer_Init (some block) size).2 ops).1.unread.drop
          (min count (runRing (FRingBuffer_Init (some block) size).2 ops).1.available) ∧
      (FRingBuffer_Pop (runRing (FRingBuffer_Init (some block) size).2 ops).1 count).1.available =
        (runRing (FRingBuffer_Init (some block) size).2 ops).1.available -
          min count (runRing (FRingBuffer_Init (some block) size).2 ops).1.available ∧
      (∀ l ∈ FRingBuffer_Pop_loads (runRing (FRingBuffer_Init (some block) size).2 ops).1 count,
        l.1 + l.2 ≤ size)) ∧
    ((runRing (FRingBuffer_Init (some block) size).2 ops).1.available = 0 → ∀ count,
      FRingBuffer_Pop (runRing (FRingBuffer_Init (some block) size).2 ops).1 count =
        ((runRing (FRingBuffer_Init (some block) size).2 ops).1, [], 0)) ∧
    (∀ data,
      (runRing (FRingBuffer_Init (some block) size).2 ops).1.available + data.length ≤ size →
      (FRingBuffer_Push (runRing (FRingBuffer_Init (some block) size).2 ops).1 data).available =
        (runRing (FRingBuffer_Init (some block) size).2 ops).1.available + data.length ∧
      (FRingBuffer_Push (runRing (FRingBuffer_Init (some block) size).2 ops).1 data).unread =
        (runRing (FRingBuffer_Init (some block) size).2 ops).1.unread ++ data ∧
      (∀ l ∈ FRingBuffer_Push_stores (runRing (FRingBuffer_Init (some block) size).2 ops).1
          data.length, l.1 + l.2 ≤ size)) := by
  obtain ⟨-, iwf, imax, iun⟩ := FRingBuffer_Init_WF block size hblock
  obtain ⟨rwf, rmax, run, rres⟩ := runRing_spec ops _ iwf hroom
  rw [iun] at run rres
  rw [imax] at rmax
  generalize (runRing (FRingBuffer_Init (some block) size).2 ops).1 = r at *
  refine ⟨rres, run, rmax, by rw [← rmax]; exact rwf.2.1, by rw [← rmax]; exact rwf.2.2.1,
    unread_length r rwf, ?_, ?_, ?_⟩
  · intro count
    obtain ⟨pc, pd, pu, -, pav, -, -, -⟩ := FRingBuffer_Pop_spec r count rwf
    refine ⟨pc, pd, pu, pav, ?_⟩
    rw [← rmax]
    exact FRingBuffer_Pop_loads_in_bounds r count rwf
  · intro h count
    exact FRingBuffer_Pop_empty r count h
  · intro data hfit
    rw [← rmax] at hfit
    obtain ⟨-, pun, pav, -, -⟩ := FRingBuffer_Push_spec r data rwf hfit
    refine ⟨pav, pun, ?_⟩
    rw [← rmax]
    exact FRingBuffer_Push_stores_in_bounds r data.length rwf

/-- C10, at a concrete sequence on a ring of 8 bytes: the second push wraps
around the end of the block, and so does the pop that follows it. -/
theorem C10_ring_buffer_is_fifo_queue_witness :
    ((List.replicate 8 0).length = 8 ∧
      RoomForPushes (FRingBuffer_Init (some (List.replicate 8 0)) 8).2
        [RingOp.push [1, 2, 3, 4, 5], RingOp.pop 3, RingOp.push [6, 7, 8, 9, 10],
         RingOp.pop 6, RingOp.pop 4]) ∧
    runRing (FRingBuffer_Init (some (List.replicate 8 0)) 8).2
        [RingOp.push [1, 2, 3, 4, 5], RingOp.pop 3, RingOp.push [6, 7, 8, 9, 10],
         RingOp.pop 6, RingOp.pop 4] =
      ({ buffer := [9, 10, 3, 4, 5, 6, 7, 8], pointer_push := 2, pointer_pop := 2,
         max := 8, available := 0 },
       [([1, 2, 3], 3), ([4, 5, 6, 7, 8, 9], 6), ([10], 1)]) ∧
    (runRing (FRingBuffer_Init (some (List.replicate 8 0)) 8).2
        [RingOp.push [1, 2, 3, 4, 5], RingOp.pop 3, RingOp.push [6, 7, 8, 9, 10],
         RingOp.pop 6, RingOp.pop 4]).2 =
      (runQueue [] [RingOp.push [1, 2, 3, 4, 5], RingOp.pop 3, RingOp.push [6, 7, 8, 9, 10],
         RingOp.pop 6, RingOp.pop 4]).2 :=
  ⟨⟨by decide, by decide⟩, by decide,
   (C10_ring_buffer_is_fifo_queue (List.replicate 8 0) 8
     [RingOp.push [1, 2, 3, 4, 5], RingOp.pop 3, RingOp.push [6, 7, 8, 9, 10],
      RingOp.pop 6, RingOp.pop 4] (by decide) (by decide)).1⟩

/-! ## `FACT_clamp`: claim C7 -/

/-- C7: for `lo <= hi`, `FACT_clamp(val, lo, hi)` is the clamp of `val` to
`[lo, hi]`: `val` when `lo <= val <= hi`, `lo` when `val < lo`, `hi` when
`val > hi`; it equals `max lo (min val hi)`, lies in `[lo, hi]`, and clamping
twice is clamping once. -/
theorem C7_FACT_clamp_is_clamp {α : Type} [LinearOrder α] (val lo hi : α) (h : lo ≤ hi) :
    FACT_clamp val lo hi = clampSpec val lo hi ∧
    FACT_clamp val lo hi = max lo (min val hi) ∧
    (lo ≤ val → val ≤ hi → FACT_clamp val lo hi = val) ∧
    (val < lo → FACT_clamp val lo hi = lo) ∧
    (hi < val → FACT_clamp val lo hi = hi) ∧
    lo ≤ FACT_clamp val lo hi ∧ FACT_clamp val lo hi ≤ hi ∧
    FACT_clamp (FACT_clamp val lo hi) lo hi = FACT_clamp val lo hi := by
  unfold FACT_clamp clampSpec
  by_cases h1 : val > hi
  · have h2 : ¬ val < lo := not_lt.mpr (le_trans h (le_of_lt h1))
    have h3 : ¬ hi < lo := not_lt.mpr h
    simp only [h1, h2, h3, if_true, if_false, gt_iff_lt, lt_irrefl]
    refine ⟨trivial, ?_, fun _ hle => absurd h1 (not_lt.mpr hle), fun hlt => by first | exact absurd hlt h2 | exact False.elim hlt,
      fun _ => trivial, h, le_refl _, trivial⟩
    rw [min_eq_right (le_of_lt h1), max_eq_right h]
  · have h1a : ¬ hi < val := h1
    have h1b : val ≤ hi := not_lt.mp h1
    by_cases h2 : val < lo
    · have h3 : ¬ lo > hi := not_lt.mpr h
      simp only [h1, h1a, h2, h3, if_true, if_false, lt_irrefl]
      refine ⟨trivial, ?_, fun hle _ => absurd h2 (not_lt.mpr hle), fun _ => trivial,
        fun hlt => by first | exact absurd hlt h1a | exact False.elim hlt, le_refl _, h, trivial⟩
      rw [min_eq_left h1b, max_eq_left (le_of_lt h2)]
    · have h2b : lo ≤ val := not_lt.mp h2
      simp only [h1, h1a, h2, if_false]
      refine ⟨trivial, ?_, fun _ _ => trivial, fun hlt => by first | exact absurd hlt h2 | exact False.elim hlt,
        fun hlt => by first | exact absurd hlt h1a | exact False.elim hlt, h2b, h1b, trivial⟩
      rw [min_eq_left h1b, max_eq_right h2b]

/-- C7, at concrete integers: clamping 7, -3 and 4 to `[0, 5]`. -/
theorem C7_FACT_clamp_is_clamp_witness :
    (0 : Int) ≤ 5 ∧
    FACT_clamp (7 : Int) 0 5 = 5 ∧ FACT_clamp (-3 : Int) 0 5 = 0 ∧ FACT_clamp (4 : Int) 0 5 = 4 ∧
    FACT_clamp (7 : Int) 0 5 = clampSpec 7 0 5 ∧
    FACT_clamp (FACT_clamp (7 : Int) 0 5) 0 5 = FACT_clamp (7 : Int) 0 5 :=
  ⟨by decide, by decide, by decide, by decide,
   (C7_FACT_clamp_is_clamp (7 : Int) 0 5 (by decide)).1,
   (C7_FACT_clamp_is_clamp (7 : Int) 0 5 (by decide)).2.2.2.2.2.2.2⟩

/-! ## The `read_` functions: claim C8 -/

theorem memRead_succ (mem : List Nat) (p k : Nat) (h : p < mem.length) :
    memRead mem p (k + 1) = mem.getD p 0 :: memRead mem (p + 1) k := by
  unfold memRead
  rw [List.drop_eq_getElem_cons h, List.take_succ_cons, List.getD_eq_getElem _ _ h]

theorem memRead_nil (mem : List Nat) (p : Nat) : memRead mem p 0 = [] := by
  simp [memRead]

/-- C8: on a little-endian machine and with at least `k` bytes left in the
buffer, `read_u8`, `read_u16`, `read_u32`, `read_u64` and `read_s16`
(`k = 1, 2, 4, 8, 2`) return the integer whose bytes, least significant first,
are the next `k` bytes (`read_s16` as a two's complement value, which lies in
`[-32768, 32767]` for bytes below 256) and advance the cursor by exactly `k`;
`read_f32` hands back the next four bytes and advances the cursor by 4.  The
buffer itself is left as it is, so the next read starts at the byte after the
field just read: fields are adjacent. -/
theorem C8_read_functions_little_endian (s : Reader) :
    (s.ptr + 1 ≤ s.mem.length →
      read_u8 ByteOrder.littleEndian s = (s.byte s.ptr, { mem := s.mem, ptr := s.ptr + 1 })) ∧
    (s.ptr + 2 ≤ s.mem.length →
      read_u16 ByteOrder.littleEndian s =
        (s.byte s.ptr + 2 ^ 8 * s.byte (s.ptr + 1), { mem := s.mem, ptr := s.ptr + 2 })) ∧
    (s.ptr + 4 ≤ s.mem.length →
      read_u32 ByteOrder.littleEndian s =
        (s.byte s.ptr + 2 ^ 8 * s.byte (s.ptr + 1) + 2 ^ 16 * s.byte (s.ptr + 2)
          + 2 ^ 24 * s.byte (s.ptr + 3), { mem := s.mem, ptr := s.ptr + 4 })) ∧
    (s.ptr + 8 ≤ s.mem.length →
      read_u64 ByteOrder.littleEndian s =
        (s.byte s.ptr + 2 ^ 8 * s.byte (s.ptr + 1) + 2 ^ 16 * s.byte (s.ptr + 2)
          + 2 ^ 24 * s.byte (s.ptr + 3) + 2 ^ 32 * s.byte (s.ptr + 4)
          + 2 ^ 40 * s.byte (s.ptr + 5) + 2 ^ 48 * s.byte (s.ptr + 6)
          + 2 ^ 56 * s.byte (s.ptr + 7), { mem := s.mem, ptr := s.ptr + 8 })) ∧
    (s.ptr + 2 ≤ s.mem.length →
      read_s16 ByteOrder.littleEndian s =
        (toSigned 16 (s.byte s.ptr + 2 ^ 8 * s.byte (s.ptr + 1)),
         { mem := s.mem, ptr := s.ptr + 2 }) ∧
      (s.byte s.ptr < 256 → s.byte (s.ptr + 1) < 256 →
        -32768 ≤ (read_s16 ByteOrder.littleEndian s).1 ∧
        (read_s16 ByteOrder.littleEndian s).1 ≤ 32767 ∧
        (read_s16 ByteOrder.littleEndian s).1 % 65536 =
          ((read_u16 ByteOrder.littleEndian s).1 : Int))) ∧
    (s.ptr + 4 ≤ s.mem.length →
      read_f32 s =
        ([s.byte s.ptr, s.byte (s.ptr + 1), s.byte (s.ptr + 2), s.byte (s.ptr + 3)],
         { mem := s.mem, ptr := s.ptr + 4 })) ∧
    (∀ host, (read_u16 host (read_u8 host s).2).1 = loadUnsigned host s.mem (s.ptr + 1) 2 ∧
      (read_u32 host (read_u16 host (read_u8 host s).2).2).1
        = loadUnsigned host s.mem (s.ptr + 1 + 2) 4 ∧
      (read_u64 host (read_u32 host (read_u16 host (read_u8 host s).2).2).2).2
        = { mem := s.mem, ptr := s.ptr + 1 + 2 + 4 + 8 }) := by
  obtain ⟨mem, p⟩ := s
  simp only [Reader.byte]
  refine ⟨?_, ?_, ?_, ?_, ?_, ?_, ?_⟩
  · intro h
    simp [read_u8, loadUnsigned, memRead_succ mem p 0 (by omega), memRead_nil,
      fromLittleEndian]
  · intro h
    simp only [read_u16, loadUnsigned, memRead_succ mem p 1 (by omega),
      memRead_succ mem (p + 1) 0 (by omega), memRead_nil, fromLittleEndian]
    simp
  · intro h
    simp only [read_u32, loadUnsigned, memRead_succ mem p 3 (by omega),
      memRead_succ mem (p + 1) 2 (by omega), memRead_succ mem (p + 1 + 1) 1 (by omega),
      memRead_succ mem (p + 1 + 1 + 1) 0 (by omega), memRead_nil, fromLittleEndian]
    simp only [Prod.mk.injEq, and_true]
    ring_nf
  · intro h
    simp only [read_u64, loadUnsigned, memRead_succ mem p 7 (by omega),
      memRead_succ mem (p + 1) 6 (by omega), memRead_succ mem (p + 1 + 1) 5 (by omega),
      memRead_succ mem (p + 1 + 1 + 1) 4 (by omega),
      memRead_succ mem (p + 1 + 1 + 1 + 1) 3 (by omega),
      memRead_succ mem (p + 1 + 1 + 1 + 1 + 1) 2 (by omega),
      memRead_succ mem (p + 1 + 1 + 1 + 1 + 1 + 1) 1 (by omega),
      memRead_succ mem (p + 1 + 1 + 1 + 1 + 1 + 1 + 1) 0 (by omega),
      memRead_nil, fromLittleEndian]
    simp only [Prod.mk.injEq, and_true]
    ring_nf
  · intro h
    have hv : loadUnsigned ByteOrder.littleEndian mem p 2
        = mem.getD p 0 + 2 ^ 8 * mem.getD (p + 1) 0 := by
      simp only [loadUnsigned, memRead_succ mem p 1 (by omega),
        memRead_succ mem (p + 1) 0 (by omega), memRead_nil, fromLittleEndian]
      simp
    simp only [read_s16, read_u16, hv]
    refine ⟨trivial, ?_⟩
    intro h0 h1
    unfold toSigned
    split_ifs with hc
    · simp only [Nat.reduceSub, Nat.reducePow] at hc ⊢
      omega
    · simp only [Nat.reduceSub, Nat.reducePow] at hc ⊢
      omega
  · intro h
    simp only [read_f32, memRead_succ mem p 3 (by omega),
      memRead_succ mem (p + 1) 2 (by omega), memRead_succ mem (p + 1 + 1) 1 (by omega),
      memRead_succ mem (p + 1 + 1 + 1) 0 (by omega), memRead_nil]
  · intro host
    exact ⟨rfl, rfl, rfl⟩

/-- C8, at a concrete buffer: the fields `u8 = 0x2A`, `u16 = 0x1234`,
`s16 = -2`, `u32 = 0x01020304` read one after the other. -/
theorem C8_read_functions_little_endian_witness :
    (0 + 1 ≤ [0x2A, 0x34, 0x12, 0xFE, 0xFF, 4, 3, 2, 1].length ∧
     1 + 2 ≤ [0x2A, 0x34, 0x12, 0xFE, 0xFF, 4, 3, 2, 1].length) ∧
    read_u8 ByteOrder.littleEndian { mem := [0x2A, 0x34, 0x12, 0xFE, 0xFF, 4, 3, 2, 1], ptr := 0 }
      = (0x2A, { mem := [0x2A, 0x34, 0x12, 0xFE, 0xFF, 4, 3, 2, 1], ptr := 1 }) ∧
    read_u16 ByteOrder.littleEndian { mem := [0x2A, 0x34, 0x12, 0xFE, 0xFF, 4, 3, 2, 1], ptr := 1 }
      = (0x1234, { mem := [0x2A, 0x34, 0x12, 0xFE, 0xFF, 4, 3, 2, 1], ptr := 3 }) ∧
    read_s16 ByteOrder.littleEndian { mem := [0x2A, 0x34, 0x12, 0xFE, 0xFF, 4, 3, 2, 1], ptr := 3 }
      = (-2, { mem := [0x2A, 0x34, 0x12, 0xFE, 0xFF, 4, 3, 2, 1], ptr := 5 }) ∧
    read_u32 ByteOrder.littleEndian { mem := [0x2A, 0x34, 0x12, 0xFE, 0xFF, 4, 3, 2, 1], ptr := 5 }
      = (0x01020304, { mem := [0x2A, 0x34, 0x12, 0xFE, 0xFF, 4, 3, 2, 1], ptr := 9 }) :=
  ⟨⟨by decide, by decide⟩,
   (C8_read_functions_little_endian
     { mem := [0x2A, 0x34, 0x12, 0xFE, 0xFF, 4, 3, 2, 1], ptr := 0 }).1 (by decide),
   (C8_read_functions_little_endian
     { mem := [0x2A, 0x34, 0x12, 0xFE, 0xFF, 4, 3, 2, 1], ptr := 1 }).2.1 (by decide),
   by decide, by decide⟩

/-! ## Device enumeration: claim C9 -/

/-- C9: with `FAUDIO_E_INVALID_CALL` different from 0,
`FAudio_PlatformGetDeviceDetails` returns `FAUDIO_E_INVALID_CALL` if and only
if `index >= FAudio_PlatformGetDeviceCount()` and returns 0 otherwise, in the
SDL build and (for a device list of fewer than `2^32` entries) in the cubeb
build.  In the SDL build the count is 0 when SDL reports no device and `n + 1`
when it reports `n > 0` devices; a valid index 0 is the "Default Device" with
role `FAudioGlobalDefaultDevice`, and every valid index `>= 1` has role
`FAudioNotDefaultDevice`. -/
theorem C9_device_details_result_codes (invalidCall : Nat) (index : Nat)
    (hE : invalidCall ≠ 0) :
    (∀ n : Int,
      ((FAudio_PlatformGetDeviceDetails_SDL invalidCall n index).1 = invalidCall ↔
        index ≥ FAudio_PlatformGetDeviceCount_SDL n) ∧
      (index < FAudio_PlatformGetDeviceCount_SDL n →
        (FAudio_PlatformGetDeviceDetails_SDL invalidCall n index).1 = 0) ∧
      (n = 0 → FAudio_PlatformGetDeviceCount_SDL n = 0) ∧
      (0 < n → n < 2 ^ 31 → (FAudio_PlatformGetDeviceCount_SDL n : Int) = n + 1) ∧
      (index < FAudio_PlatformGetDeviceCount_SDL n → index = 0 →
        (FAudio_PlatformGetDeviceDetails_SDL invalidCall n index).2 =
          { Role := some FAudioDeviceRole.FAudioGlobalDefaultDevice,
            DisplayName := some DeviceName.defaultDevice }) ∧
      (index < FAudio_PlatformGetDeviceCount_SDL n → 1 ≤ index →
        (FAudio_PlatformGetDeviceDetails_SDL invalidCall n index).2.Role =
          some FAudioDeviceRole.FAudioNotDefaultDevice)) ∧
    (∀ (count : Nat) (deviceIsNull : Bool), count < 2 ^ 32 →
      ((FAudio_PlatformGetDeviceDetails_cubeb invalidCall count deviceIsNull index).1
          = invalidCall ↔ index ≥ FAudio_PlatformGetDeviceCount_cubeb count) ∧
      (index < FAudio_PlatformGetDeviceCount_cubeb count →
        (FAudio_PlatformGetDeviceDetails_cubeb invalidCall count deviceIsNull index).1 = 0)) := by
  refine ⟨?_, ?_⟩
  · intro n
    refine ⟨?_, ?_, ?_, ?_, ?_, ?_⟩
    · unfold FAudio_PlatformGetDeviceDetails_SDL
      simp only
      split_ifs with h1 h2
      · exact ⟨fun _ => h1, fun _ => rfl⟩
      · exact ⟨fun h => absurd h.symm hE, fun h => absurd h h1⟩
      · exact ⟨fun h => absurd h.symm hE, fun h => absurd h h1⟩
    · intro h
      unfold FAudio_PlatformGetDeviceDetails_SDL
      simp only
      split_ifs with h1 h2
      · omega
      · rfl
      · rfl
    · intro h
      subst h
      decide
    · intro h0 h1
      unfold FAudio_PlatformGetDeviceCount_SDL
      have hm : n % 2 ^ 32 = n := Int.emod_eq_of_lt (by omega) (by omega)
      simp only [hm]
      have ht : (n.toNat : Int) = n := Int.toNat_of_nonneg (by omega)
      have hne : n.toNat ≠ 0 := by omega
      rw [if_neg hne]
      have hlt : n.toNat + 1 < 2 ^ 32 := by omega
      rw [Nat.mod_eq_of_lt hlt]
      push_cast
      omega
    · intro h h0
      unfold FAudio_PlatformGetDeviceDetails_SDL
      simp only
      rw [if_neg (by omega), if_pos h0]
    · intro h h1
      unfold FAudio_PlatformGetDeviceDetails_SDL
      simp only
      rw [if_neg (by omega), if_neg (by omega)]
  · intro count deviceIsNull hc
    have hm : FAudio_PlatformGetDeviceCount_cubeb count = count := Nat.mod_eq_of_lt hc
    rw [hm]
    unfold FAudio_PlatformGetDeviceDetails_cubeb
    by_cases h1 : index ≥ count
    · rw [if_pos h1]
      exact ⟨⟨fun _ => h1, fun _ => rfl⟩, fun h => by omega⟩
    · rw [if_neg h1]
      exact ⟨⟨fun h => absurd h.symm hE, fun h => absurd h h1⟩, fun _ => rfl⟩

/-- C9, at concrete calls: SDL reports 2 devices, so there are 3; index 0 is
the default device, index 2 is the last device and index 3 is rejected with
`FAUDIO_E_INVALID_CALL = 0x88960001`. -/
theorem C9_device_details_result_codes_witness :
    (0x88960001 ≠ 0) ∧
    FAudio_PlatformGetDeviceCount_SDL 2 = 3 ∧
    FAudio_PlatformGetDeviceDetails_SDL 0x88960001 2 0 =
      (0, { Role := some FAudioDeviceRole.FAudioGlobalDefaultDevice,
            DisplayName := some DeviceName.defaultDevice }) ∧
    FAudio_PlatformGetDeviceDetails_SDL 0x88960001 2 2 =
      (0, { Role := some FAudioDeviceRole.FAudioNotDefaultDevice,
            DisplayName := some (DeviceName.backendDevice 1) }) ∧
    ((FAudio_PlatformGetDeviceDetails_SDL 0x88960001 2 3).1 = 0x88960001 ↔
      3 ≥ FAudio_PlatformGetDeviceCount_SDL 2) :=
  ⟨by decide, by decide, by decide, by decide,
   ((C9_device_details_result_codes 0x88960001 3 (by decide)).1 2).1⟩

/-! ## The quantum: claim C6 -/

theorem roundHalfEven_of_near (x : ℚ) (n : ℤ) (h : |x - n| < 1 / 2) : roundHalfEven x = n := by
  rw [abs_lt] at h
  obtain ⟨h1, h2⟩ := h
  unfold roundHalfEven
  rcases le_or_lt (n : ℚ) x with hle | hlt
  · have hf : ⌊x⌋ = n := Int.floor_eq_iff.mpr ⟨hle, by linarith⟩
    rw [hf, if_pos (by linarith)]
  · have hf : ⌊x⌋ = n - 1 := Int.floor_eq_iff.mpr ⟨by push_cast; linarith, by push_cast; linarith⟩
    rw [hf]
    have h3 : ¬ (x - ((n - 1 : ℤ) : ℚ) < 1 / 2) := by push_cast; linarith
    have h4 : (1 : ℚ) / 2 < x - ((n - 1 : ℤ) : ℚ) := by push_cast; linarith
    rw [if_neg h3, if_pos h4]
    ring

theorem roundHalfEven_abs_sub_le (x : ℚ) : |(roundHalfEven x : ℚ) - x| ≤ 1 / 2 := by
  have h1 := Int.floor_le x
  have h2 := Int.lt_floor_add_one x
  unfold roundHalfEven
  rw [abs_le]
  split_ifs with c1 c2 c3
  · constructor <;> linarith
  · push_cast; constructor <;> linarith
  · constructor <;> linarith
  · push_cast; constructor <;> linarith

theorem log_two_eq (x : ℚ) (e : ℤ) (hx : 0 < x) (h1 : (2 : ℚ) ^ e ≤ x) (h2 : x < (2 : ℚ) ^ (e + 1)) :
    Int.log 2 |x| = e := by
  rw [abs_of_pos hx]
  have ha : e ≤ Int.log 2 x := (Int.zpow_le_iff_le_log (by norm_num) hx).mp (by exact_mod_cast h1)
  have hb : Int.log 2 x < e + 1 := (Int.lt_zpow_iff_log_lt (by norm_num) hx).mp (by exact_mod_cast h2)
  omega

theorem roundDouble_of_bounds (x : ℚ) (e n : ℤ) (hx : 0 < x) (h1 : (2 : ℚ) ^ e ≤ x)
    (h2 : x < (2 : ℚ) ^ (e + 1)) (he : -1022 ≤ e) (hn : |x / 2 ^ (e - 52) - n| < 1 / 2) :
    roundDouble x = n * 2 ^ (e - 52) := by
  have hu : doubleUlp x = 2 ^ (e - 52) := by
    unfold doubleUlp
    rw [log_two_eq x e hx h1 h2, max_eq_left he]
  unfold roundDouble
  rw [if_neg (ne_of_gt hx), hu, roundHalfEven_of_near _ n hn]

theorem doubleDiv_64_3 : doubleDiv 64 3 = 6004799503160661 / 2 ^ 48 := by
  unfold doubleDiv
  rw [roundDouble_of_bounds (64 / 3) 4 6004799503160661 (by norm_num) (by norm_num) (by norm_num)
    (by norm_num) (by norm_num [abs_lt])]
  norm_num

theorem doubleDiv_1000 : doubleDiv 1000 (doubleDiv 64 3) = 375 / 8 := by
  rw [doubleDiv_64_3]
  unfold doubleDiv
  rw [roundDouble_of_bounds _ 5 6597069766656000 (by norm_num) (by norm_num) (by norm_num)
    (by norm_num) (by norm_num [abs_lt])]
  norm_num


theorem roundHalfEven_intCast (n : ℤ) : roundHalfEven (n : ℚ) = n :=
  roundHalfEven_of_near _ n (by simp)

theorem roundDouble_zero : roundDouble 0 = 0 := by
  simp [roundDouble]

theorem roundDouble_floor (x : ℚ) (k j : ℕ) (hk : k < 2 ^ 27) (hj : j < 375)
    (hx : x = k + (j : ℚ) / 375) (hpos : (2 : ℚ) ^ (-6 : ℤ) ≤ x) :
    ⌊roundDouble x⌋ = (k : ℤ) := by
  have hx0 : 0 < x := lt_of_lt_of_le (by norm_num) hpos
  have hjq : (j : ℚ) ≤ 374 := by
    have : j ≤ 374 := by omega
    exact_mod_cast this
  have hj0 : (0 : ℚ) ≤ j := by exact_mod_cast Nat.zero_le j
  have hkq : (k : ℚ) + 1 ≤ 2 ^ 27 := by
    have : k + 1 ≤ 2 ^ 27 := by omega
    exact_mod_cast this
  have hxlt : x < (2 : ℚ) ^ (27 : ℤ) := by
    rw [hx]
    have : (j : ℚ) / 375 < 1 := by rw [div_lt_one (by norm_num)]; linarith
    have h27 : (2 : ℚ) ^ (27 : ℤ) = 2 ^ 27 := by norm_num
    rw [h27]; linarith
  have he1 : (-6 : ℤ) ≤ Int.log 2 |x| := by
    rw [abs_of_pos hx0]
    exact (Int.zpow_le_iff_le_log (by norm_num) hx0).mp (by exact_mod_cast hpos)
  have he2 : Int.log 2 |x| < 27 := by
    rw [abs_of_pos hx0]
    exact (Int.lt_zpow_iff_log_lt (by norm_num) hx0).mp (by exact_mod_cast hxlt)
  obtain ⟨d, hd⟩ : ∃ d : ℕ, (d : ℤ) = 52 - Int.log 2 |x| := ⟨(52 - Int.log 2 |x|).toNat, by omega⟩
  have hd26 : 26 ≤ d := by omega
  have hu : doubleUlp x = ((2 : ℚ) ^ d)⁻¹ := by
    unfold doubleUlp
    rw [max_eq_left (by omega)]
    have : Int.log 2 |x| - 52 = -(d : ℤ) := by omega
    rw [this, zpow_neg, zpow_natCast]
  have hpd : (0 : ℚ) < 2 ^ d := by positivity
  have hule : ((2 : ℚ) ^ d)⁻¹ ≤ (2 ^ 26)⁻¹ := by
    exact inv_anti₀ (by positivity) (pow_le_pow_right₀ (by norm_num) hd26)
  unfold roundDouble
  rw [if_neg (ne_of_gt hx0), hu, div_inv_eq_mul]
  rw [Int.floor_eq_iff]
  rcases Nat.eq_zero_or_pos j with hz | hp
  · subst hz
    have hxk : x = k := by rw [hx]; simp
    have hint : x * 2 ^ d = ((k * 2 ^ d : ℕ) : ℤ) := by rw [hxk]; push_cast; ring
    rw [hint, roundHalfEven_intCast]
    have hval : (((k * 2 ^ d : ℕ) : ℤ) : ℚ) * (2 ^ d)⁻¹ = k := by
      push_cast
      rw [mul_assoc, mul_inv_cancel₀ (ne_of_gt hpd), mul_one]
    rw [hval]
    constructor
    · exact le_refl _
    · push_cast; linarith
  · have hj1 : (1 : ℚ) ≤ j := by exact_mod_cast hp
    have hr := roundHalfEven_abs_sub_le (x * 2 ^ d)
    rw [abs_le] at hr
    obtain ⟨hr1, hr2⟩ := hr
    have hxd : x * 2 ^ d * (2 ^ d)⁻¹ = x := by
      rw [mul_assoc, mul_inv_cancel₀ (ne_of_gt hpd), mul_one]
    have hui : (0 : ℚ) < (2 ^ d)⁻¹ := by positivity
    have hlo : x - (1 / 2) * (2 ^ d)⁻¹ ≤ (roundHalfEven (x * 2 ^ d) : ℚ) * (2 ^ d)⁻¹ := by
      have := mul_le_mul_of_nonneg_right (by linarith : x * 2 ^ d - 1 / 2 ≤
        (roundHalfEven (x * 2 ^ d) : ℚ)) (le_of_lt hui)
      rw [sub_mul, hxd] at this
      exact this
    have hhi : (roundHalfEven (x * 2 ^ d) : ℚ) * (2 ^ d)⁻¹ ≤ x + (1 / 2) * (2 ^ d)⁻¹ := by
      have := mul_le_mul_of_nonneg_right (by linarith : (roundHalfEven (x * 2 ^ d) : ℚ) ≤
        x * 2 ^ d + 1 / 2) (le_of_lt hui)
      rw [add_mul, hxd] at this
      exact this
    have h26 : ((2 : ℚ) ^ 26)⁻¹ < 1 / 375 := by norm_num
    have hxl : (k : ℚ) + 1 / 375 ≤ x := by
      rw [hx]
      have : (1 : ℚ) / 375 ≤ (j : ℚ) / 375 := by
        apply div_le_div_of_nonneg_right hj1 (by norm_num)
      linarith
    have hxu : x ≤ (k : ℚ) + 374 / 375 := by
      rw [hx]
      have : (j : ℚ) / 375 ≤ 374 / 375 := by
        apply div_le_div_of_nonneg_right hjq (by norm_num)
      linarith
    push_cast
    constructor <;> linarith

theorem quantum1024_exact (r : ℕ) (hr : r < 2 ^ 32) :
    truncToInt (doubleDiv r (doubleDiv 1000 (doubleDiv 64 3))) = ((r * 64 / 3000 : ℕ) : ℤ) := by
  rw [doubleDiv_1000]
  unfold doubleDiv
  rcases Nat.eq_zero_or_pos r with hz | hp
  · subst hz
    simp [roundDouble_zero, truncToInt]
  · have hk : r * 64 / 3000 = 8 * r / 375 := by omega
    rw [hk]
    have hdm := Nat.div_add_mod (8 * r) 375
    have hx : (r : ℚ) / (375 / 8) = ((8 * r / 375 : ℕ) : ℚ) + ((8 * r % 375 : ℕ) : ℚ) / 375 := by
      have h1 : ((8 * r : ℕ) : ℚ) = 375 * ((8 * r / 375 : ℕ) : ℚ) + ((8 * r % 375 : ℕ) : ℚ) := by
        exact_mod_cast hdm.symm
      push_cast at h1
      field_simp
      linarith
    have hpos : (2 : ℚ) ^ (-6 : ℤ) ≤ (r : ℚ) / (375 / 8) := by
      have h1 : (1 : ℚ) ≤ r := by exact_mod_cast hp
      rw [le_div_iff₀ (by norm_num)]
      norm_num
      linarith
    have hfl := roundDouble_floor ((r : ℚ) / (375 / 8)) (8 * r / 375) (8 * r % 375)
      (by omega) (Nat.mod_lt _ (by norm_num)) hx hpos
    have hnn : (0 : ℚ) ≤ roundDouble ((r : ℚ) / (375 / 8)) := by
      have : (0 : ℤ) ≤ ⌊roundDouble ((r : ℚ) / (375 / 8))⌋ := by rw [hfl]; exact Int.natCast_nonneg _
      exact Int.floor_nonneg.mp this
    unfold truncToInt
    rw [if_pos hnn, hfl]

theorem toNat_emod_natCast (k bits : ℕ) : (((k : ℤ) % 2 ^ bits).toNat) = k % 2 ^ bits := by
  have h : ((k : ℤ) % 2 ^ bits) = ((k % 2 ^ bits : ℕ) : ℤ) := by push_cast; rfl
  rw [h, Int.toNat_natCast]

theorem updateSize_value (q : Bool) (r : ℕ) (hr : r < 2 ^ 32) :
    FAudio_PlatformInit_updateSize q r = if q then r * 64 / 3000 else r / 100 := by
  unfold FAudio_PlatformInit_updateSize
  cases q with
  | false => simp
  | true =>
    simp only [if_true]
    rw [quantum1024_exact r hr]
    have h := toNat_emod_natCast (r * 64 / 3000) 32
    rw [h]
    exact Nat.mod_eq_of_lt (by omega)

theorem want_samples_value (bits : ℕ) (q : Bool) (r : ℕ) (hr : r < 2 ^ 31) :
    FAudio_PlatformInit_want_samples bits q r =
      (if q then r * 64 / 3000 else r / 100) % 2 ^ bits := by
  unfold FAudio_PlatformInit_want_samples
  simp only [if_pos hr]
  cases q with
  | false =>
    simp only [Bool.false_eq_true, if_false]
    have ht : Int.tdiv (r : ℤ) 100 = ((r / 100 : ℕ) : ℤ) := (Int.ofNat_tdiv r 100).symm
    rw [ht]
    exact toNat_emod_natCast (r / 100) bits
  | true =>
    simp only [if_true]
    have h := quantum1024_exact r (by omega)
    simp only [Int.cast_natCast]
    rw [h]
    exact toNat_emod_natCast (r * 64 / 3000) bits

/-- C6, the claim as it is worded fails in the SDL build: the request for the
sample rate 6553600 Hz is `6553600 / 100 = 65536` frames, and `want.samples`,
a 16-bit field, holds 0. -/
theorem C6_quantum_counterexample :
    FAudio_PlatformInit_want_samples 16 false 6553600 = 0 ∧
    ¬ (FAudio_PlatformInit_want_samples 16 false 6553600 = 6553600 / 100) := by
  have h := want_samples_value 16 false 6553600 (by norm_num)
  simp only [Bool.false_eq_true, if_false] at h
  rw [h]
  constructor <;> norm_num

/-- C6, amended: for every sample rate `r` of the `uint32_t` range the cubeb
build sets `updateSize` to `floor(r / 100)` without `FAUDIO_1024_QUANTUM` and
to `floor(r * 64 / 3000)` with it, which is the floor of `r` times the
`64/3` ms frame over 1000 in exact arithmetic; for `r < 2^31` the SDL build
requests in `want.samples` the same number reduced modulo `2^bits`, `bits`
being the width of that field, hence the number itself when it is below
`2^bits`; at 48000 Hz the values are 480 and 1024. -/
theorem C6_quantum_is_floor_of_rate (r : ℕ) (hr : r < 2 ^ 32) :
    FAudio_PlatformInit_updateSize false r = r / 100 ∧
    FAudio_PlatformInit_updateSize true r = r * 64 / 3000 ∧
    ((r * 64 / 3000 : ℕ) : ℤ) = ⌊(r : ℚ) * (64 / 3) / 1000⌋ ∧
    (∀ bits, r < 2 ^ 31 →
      FAudio_PlatformInit_want_samples bits false r = (r / 100) % 2 ^ bits ∧
      FAudio_PlatformInit_want_samples bits true r = (r * 64 / 3000) % 2 ^ bits ∧
      (r / 100 < 2 ^ bits → FAudio_PlatformInit_want_samples bits false r = r / 100) ∧
      (r * 64 / 3000 < 2 ^ bits →
        FAudio_PlatformInit_want_samples bits true r = r * 64 / 3000)) ∧
    FAudio_PlatformInit_updateSize false 48000 = 480 ∧
    FAudio_PlatformInit_updateSize true 48000 = 1024 ∧
    FAudio_PlatformInit_want_samples 16 false 48000 = 480 ∧
    FAudio_PlatformInit_want_samples 16 true 48000 = 1024 := by
  refine ⟨?_, ?_, ?_, ?_, ?_, ?_, ?_, ?_⟩
  · rw [updateSize_value false r hr]; simp
  · rw [updateSize_value true r hr]; simp
  · have h : (r : ℚ) * (64 / 3) / 1000 = ((r * 64 : ℕ) : ℤ) / ((3000 : ℕ) : ℚ) := by
      push_cast; ring
    rw [h, Rat.floor_intCast_div_natCast]
    norm_cast
  · intro bits hb
    have h1 := want_samples_value bits false r hb
    have h2 := want_samples_value bits true r hb
    simp only [Bool.false_eq_true, if_false] at h1
    simp only [if_true] at h2
    refine ⟨h1, h2, fun hlt => ?_, fun hlt => ?_⟩
    · rw [h1, Nat.mod_eq_of_lt hlt]
    · rw [h2, Nat.mod_eq_of_lt hlt]
  · rw [updateSize_value false 48000 (by norm_num)]; norm_num
  · rw [updateSize_value true 48000 (by norm_num)]; norm_num
  · rw [want_samples_value 16 false 48000 (by norm_num)]; norm_num
  · rw [want_samples_value 16 true 48000 (by norm_num)]; norm_num

/-- C6, at the sample rate 44100 Hz: 441 frames, or 940 frames with
`FAUDIO_1024_QUANTUM` (`44100 * 64 / 3000 = 940.8`). -/
theorem C6_quantum_is_floor_of_rate_witness :
    44100 < 2 ^ 32 ∧
    FAudio_PlatformInit_updateSize false 44100 = 441 ∧
    FAudio_PlatformInit_updateSize true 44100 = 940 ∧
    FAudio_PlatformInit_want_samples 16 true 44100 = 940 := by
  have h := C6_quantum_is_floor_of_rate 44100 (by norm_num)
  refine ⟨by norm_num, ?_, ?_, ?_⟩
  · rw [h.1]
  · rw [h.2.1]
  · rw [(h.2.2.2.1 16 (by norm_num)).2.1]; norm_num

/-! ## UTF-8 decoding: the branches of `FAudio_UTF8_CodePoint` -/

theorem CodePoint_nul (src : List Nat) (str : Nat) (h : byteAt src str = 0) :
    FAudio_UTF8_CodePoint src str = (0, str) := by
  unfold FAudio_UTF8_CodePoint
  simp only [h, if_true]

theorem CodePoint_ascii (src : List Nat) (str : Nat) (h0 : byteAt src str ≠ 0)
    (h : byteAt src str < 128) :
    FAudio_UTF8_CodePoint src str = (byteAt src str, str + 1) := by
  unfold FAudio_UTF8_CodePoint
  simp only [if_neg h0, if_pos h]

theorem CodePoint_stray (src : List Nat) (str : Nat) (h1 : 128 ≤ byteAt src str)
    (h2 : byteAt src str < 192) :
    FAudio_UTF8_CodePoint src str = (UNICODE_BOGUS_CHAR_VALUE, str + 1) := by
  unfold FAudio_UTF8_CodePoint
  simp only
  rw [if_neg (by omega), if_neg (by omega), if_pos ⟨by omega, h2⟩]

theorem CodePoint_two (src : List Nat) (str : Nat) (h1 : 192 ≤ byteAt src str)
    (h2 : byteAt src str < 224) :
    FAudio_UTF8_CodePoint src str =
      if byteAt src (str + 1) &&& (128 + 64) ≠ 128 then (UNICODE_BOGUS_CHAR_VALUE, str + 1)
      else if (byteAt src str - (128 + 64)) <<< 6 ||| (byteAt src (str + 1) - 128) ≥ 0x80 ∧
          (byteAt src str - (128 + 64)) <<< 6 ||| (byteAt src (str + 1) - 128) ≤ 0x7FF then
        ((byteAt src str - (128 + 64)) <<< 6 ||| (byteAt src (str + 1) - 128), str + 1 + 1)
      else (UNICODE_BOGUS_CHAR_VALUE, str + 1 + 1) := by
  unfold FAudio_UTF8_CodePoint
  simp only
  rw [if_neg (by omega), if_neg (by omega), if_neg (by omega), if_pos h2]

theorem CodePoint_three (src : List Nat) (str : Nat) (h1 : 224 ≤ byteAt src str)
    (h2 : byteAt src str < 240) :
    FAudio_UTF8_CodePoint src str =
      if byteAt src (str + 1) &&& (128 + 64) ≠ 128 then (UNICODE_BOGUS_CHAR_VALUE, str + 1)
      else if byteAt src (str + 2) &&& (128 + 64) ≠ 128 then (UNICODE_BOGUS_CHAR_VALUE, str + 1)
      else if
          (byteAt src str - (128 + 64 + 32)) <<< 12 ||| (byteAt src (str + 1) - 128) <<< 6 |||
            (byteAt src (str + 2) - 128) = 0xD800 ∨
          (byteAt src str - (128 + 64 + 32)) <<< 12 ||| (byteAt src (str + 1) - 128) <<< 6 |||
            (byteAt src (str + 2) - 128) = 0xDB7F ∨
          (byteAt src str - (128 + 64 + 32)) <<< 12 ||| (byteAt src (str + 1) - 128) <<< 6 |||
            (byteAt src (str + 2) - 128) = 0xDB80 ∨
          (byteAt src str - (128 + 64 + 32)) <<< 12 ||| (byteAt src (str + 1) - 128) <<< 6 |||
            (byteAt src (str + 2) - 128) = 0xDBFF ∨
          (byteAt src str - (128 + 64 + 32)) <<< 12 ||| (byteAt src (str + 1) - 128) <<< 6 |||
            (byteAt src (str + 2) - 128) = 0xDC00 ∨
          (byteAt src str - (128 + 64 + 32)) <<< 12 ||| (byteAt src (str + 1) - 128) <<< 6 |||
            (byteAt src (str + 2) - 128) = 0xDF80 ∨
          (byteAt src str - (128 + 64 + 32)) <<< 12 ||| (byteAt src (str + 1) - 128) <<< 6 |||
            (byteAt src (str + 2) - 128) = 0xDFFF then
        (UNICODE_BOGUS_CHAR_VALUE, str + 1 + 2)
      else if
          (byteAt src str - (128 + 64 + 32)) <<< 12 ||| (byteAt src (str + 1) - 128) <<< 6 |||
            (byteAt src (str + 2) - 128) ≥ 0x800 ∧
          (byteAt src str - (128 + 64 + 32)) <<< 12 ||| (byteAt src (str + 1) - 128) <<< 6 |||
            (byteAt src (str + 2) - 128) ≤ 0xFFFD then
        ((byteAt src str - (128 + 64 + 32)) <<< 12 ||| (byteAt src (str + 1) - 128) <<< 6 |||
            (byteAt src (str + 2) - 128), str + 1 + 2)
      else (UNICODE_BOGUS_CHAR_VALUE, str + 1 + 2) := by
  unfold FAudio_UTF8_CodePoint
  simp only
  rw [if_neg (by omega), if_neg (by omega), if_neg (by omega), if_neg (by omega), if_pos h2]

theorem CodePoint_four (src : List Nat) (str : Nat) (h1 : 240 ≤ byteAt src str)
    (h2 : byteAt src str < 248) :
    FAudio_UTF8_CodePoint src str =
      if byteAt src (str + 1) &&& (128 + 64) ≠ 128 then (UNICODE_BOGUS_CHAR_VALUE, str + 1)
      else if byteAt src (str + 2) &&& (128 + 64) ≠ 128 then (UNICODE_BOGUS_CHAR_VALUE, str + 1)
      else if byteAt src (str + 3) &&& (128 + 64) ≠ 128 then (UNICODE_BOGUS_CHAR_VALUE, str + 1)
      else if
          (byteAt src str - (128 + 64 + 32 + 16)) <<< 18 |||
            (byteAt src (str + 1) - 128) <<< 12 ||| (byteAt src (str + 2) - 128) <<< 6 |||
            (byteAt src (str + 3) - 128) ≥ 0x10000 ∧
          (byteAt src str - (128 + 64 + 32 + 16)) <<< 18 |||
            (byteAt src (str + 1) - 128) <<< 12 ||| (byteAt src (str + 2) - 128) <<< 6 |||
            (byteAt src (str + 3) - 128) ≤ 0x10FFFF then
        ((byteAt src str - (128 + 64 + 32 + 16)) <<< 18 |||
            (byteAt src (str + 1) - 128) <<< 12 ||| (byteAt src (str + 2) - 128) <<< 6 |||
            (byteAt src (str + 3) - 128), str + 1 + 3)
      else (UNICODE_BOGUS_CHAR_VALUE, str + 1 + 3) := by
  unfold FAudio_UTF8_CodePoint
  simp only
  rw [if_neg (by omega), if_neg (by omega), if_neg (by omega), if_neg (by omega),
    if_neg (by omega), if_pos h2]

theorem CodePoint_five (src : List Nat) (str : Nat) (h1 : 248 ≤ byteAt src str)
    (h2 : byteAt src str < 252) :
    FAudio_UTF8_CodePoint src str =
      if byteAt src (str + 1) &&& (128 + 64) ≠ 128 then (UNICODE_BOGUS_CHAR_VALUE, str + 1)
      else if byteAt src (str + 2) &&& (128 + 64) ≠ 128 then (UNICODE_BOGUS_CHAR_VALUE, str + 1)
      else if byteAt src (str + 3) &&& (128 + 64) ≠ 128 then (UNICODE_BOGUS_CHAR_VALUE, str + 1)
      else if byteAt src (str + 4) &&& (128 + 64) ≠ 128 then (UNICODE_BOGUS_CHAR_VALUE, str + 1)
      else (UNICODE_BOGUS_CHAR_VALUE, str + 1 + 4) := by
  unfold FAudio_UTF8_CodePoint
  simp only
  rw [if_neg (by omega), if_neg (by omega), if_neg (by omega), if_neg (by omega),
    if_neg (by omega), if_neg (by omega), if_pos h2]

theorem CodePoint_six (src : List Nat) (str : Nat) (h1 : 252 ≤ byteAt src str) :
    FAudio_UTF8_CodePoint src str =
      if byteAt src (str + 1) &&& (128 + 64) ≠ 128 then (UNICODE_BOGUS_CHAR_VALUE, str + 1)
      else if byteAt src (str + 2) &&& (128 + 64) ≠ 128 then (UNICODE_BOGUS_CHAR_VALUE, str + 1)
      else if byteAt src (str + 3) &&& (128 + 64) ≠ 128 then (UNICODE_BOGUS_CHAR_VALUE, str + 1)
      else if byteAt src (str + 4) &&& (128 + 64) ≠ 128 then (UNICODE_BOGUS_CHAR_VALUE, str + 1)
      else if byteAt src (str + 5) &&& (128 + 64) ≠ 128 then (UNICODE_BOGUS_CHAR_VALUE, str + 1)
      else (UNICODE_BOGUS_CHAR_VALUE, str + 1 + 6) := by
  unfold FAudio_UTF8_CodePoint
  simp only
  rw [if_neg (by omega), if_neg (by omega), if_neg (by omega), if_neg (by omega),
    if_neg (by omega), if_neg (by omega), if_neg (by omega)]

/-! ## Decoding an encoded code point: claim C12 -/

theorem byteAt_mid (pre l post : List Nat) (k : Nat) (h : k < l.length) :
    byteAt (pre ++ l ++ post) (pre.length + k) = l.getD k 0 := by
  unfold byteAt
  rw [List.append_assoc, List.getD_append_right _ _ _ _ (by omega)]
  simp only [Nat.add_sub_cancel_left]
  rw [List.getD_append _ _ _ _ h]

theorem or_eq_add (x b k : Nat) (hx : 2 ^ k ∣ x) (hb : b < 2 ^ k) : x ||| b = x + b := by
  obtain ⟨a, rfl⟩ := hx
  exact (Nat.mul_add_lt_is_or hb a).symm

theorem or_shift2 (a b : Nat) (hb : b < 64) : a <<< 6 ||| b = a * 64 + b := by
  rw [Nat.shiftLeft_eq]
  exact or_eq_add (a * 2 ^ 6) b 6 (Dvd.intro_left a rfl) (by omega)

theorem or_shift3 (a b c : Nat) (hb : b < 64) (hc : c < 64) :
    a <<< 12 ||| b <<< 6 ||| c = a * 4096 + b * 64 + c := by
  rw [Nat.shiftLeft_eq, Nat.shiftLeft_eq]
  have e1 : a * 2 ^ 12 ||| b * 2 ^ 6 = a * 2 ^ 12 + b * 2 ^ 6 :=
    or_eq_add (a * 2 ^ 12) (b * 2 ^ 6) 12 (Dvd.intro_left a rfl) (by omega)
  rw [e1]
  have e2 : (a * 2 ^ 12 + b * 2 ^ 6) ||| c = a * 2 ^ 12 + b * 2 ^ 6 + c :=
    or_eq_add _ c 6 (by omega) (by omega)
  rw [e2]
  omega

theorem or_shift4 (a b c d : Nat) (hb : b < 64) (hc : c < 64) (hd : d < 64) :
    a <<< 18 ||| b <<< 12 ||| c <<< 6 ||| d = a * 262144 + b * 4096 + c * 64 + d := by
  rw [Nat.shiftLeft_eq, Nat.shiftLeft_eq, Nat.shiftLeft_eq]
  have e1 : a * 2 ^ 18 ||| b * 2 ^ 12 = a * 2 ^ 18 + b * 2 ^ 12 :=
    or_eq_add (a * 2 ^ 18) (b * 2 ^ 12) 18 (Dvd.intro_left a rfl) (by omega)
  rw [e1]
  have e2 : (a * 2 ^ 18 + b * 2 ^ 12) ||| c * 2 ^ 6 = a * 2 ^ 18 + b * 2 ^ 12 + c * 2 ^ 6 :=
    or_eq_add _ (c * 2 ^ 6) 12 (by omega) (by omega)
  rw [e2]
  have e3 : (a * 2 ^ 18 + b * 2 ^ 12 + c * 2 ^ 6) ||| d
      = a * 2 ^ 18 + b * 2 ^ 12 + c * 2 ^ 6 + d :=
    or_eq_add _ d 6 (by omega) (by omega)
  rw [e3]
  omega

theorem continuation_and (x : Nat) (h : x < 64) : (0x80 + x) &&& (128 + 64) = 128 := by
  revert x
  decide

theorem utf8Encode_length (c : Nat) :
    (utf8Encode c).length =
      if c < 0x80 then 1 else if c < 0x800 then 2 else if c < 0x10000 then 3 else 4 := by
  unfold utf8Encode
  split_ifs <;> rfl

theorem decode_utf8Encode (c : Nat) (hc : ValidScalar c) (pre post : List Nat) :
    FAudio_UTF8_CodePoint (pre ++ utf8Encode c ++ post) pre.length
      = (c, pre.length + (utf8Encode c).length) := by
  obtain ⟨h1, hmax, hsur, hfe, hff⟩ := hc
  by_cases c1 : c < 0x80
  · have he : utf8Encode c = [c] := by simp only [utf8Encode, if_pos c1]
    rw [he]
    have b0 := byteAt_mid pre [c] post 0 (by simp)
    simp only [List.getD_cons_zero, Nat.add_zero] at b0
    rw [CodePoint_ascii _ _ (by rw [b0]; omega) (by rw [b0]; exact c1), b0]
    rfl
  by_cases c2 : c < 0x800
  · have he : utf8Encode c = [0xC0 + c / 64, 0x80 + c % 64] := by
      simp only [utf8Encode, if_neg c1, if_pos c2]
    rw [he]
    have b0 := byteAt_mid pre [0xC0 + c / 64, 0x80 + c % 64] post 0 (by simp)
    have b1 := byteAt_mid pre [0xC0 + c / 64, 0x80 + c % 64] post 1 (by simp)
    simp only [List.getD_cons_zero, List.getD_cons_succ, Nat.add_zero] at b0 b1
    rw [CodePoint_two _ _ (by rw [b0]; omega) (by rw [b0]; omega), b0, b1]
    have hret : (0xC0 + c / 64 - (128 + 64)) <<< 6 ||| (0x80 + c % 64 - 128) = c := by
      rw [or_shift2 _ _ (by omega)]
      omega
    rw [hret, if_neg (by rw [continuation_and _ (by omega)]; simp), if_pos ⟨by omega, by omega⟩]
    rfl
  by_cases c3 : c < 0x10000
  · have he : utf8Encode c = [0xE0 + c / 4096, 0x80 + c / 64 % 64, 0x80 + c % 64] := by
      simp only [utf8Encode, if_neg c1, if_neg c2, if_pos c3]
    rw [he]
    have b0 := byteAt_mid pre [0xE0 + c / 4096, 0x80 + c / 64 % 64, 0x80 + c % 64] post 0
      (by simp)
    have b1 := byteAt_mid pre [0xE0 + c / 4096, 0x80 + c / 64 % 64, 0x80 + c % 64] post 1
      (by simp)
    have b2 := byteAt_mid pre [0xE0 + c / 4096, 0x80 + c / 64 % 64, 0x80 + c % 64] post 2
      (by simp)
    simp only [List.getD_cons_zero, List.getD_cons_succ, Nat.add_zero] at b0 b1 b2
    rw [CodePoint_three _ _ (by rw [b0]; omega) (by rw [b0]; omega), b0, b1, b2]
    have hret : (0xE0 + c / 4096 - (128 + 64 + 32)) <<< 12 |||
        (0x80 + c / 64 % 64 - 128) <<< 6 ||| (0x80 + c % 64 - 128) = c := by
      rw [or_shift3 _ _ _ (by omega) (by omega)]
      omega
    rw [hret, if_neg (by rw [continuation_and _ (by omega)]; simp),
      if_neg (by rw [continuation_and _ (by omega)]; simp), if_neg (by omega),
      if_pos ⟨by omega, by omega⟩]
    rfl
  · have he : utf8Encode c =
        [0xF0 + c / 262144, 0x80 + c / 4096 % 64, 0x80 + c / 64 % 64, 0x80 + c % 64] := by
      simp only [utf8Encode, if_neg c1, if_neg c2, if_neg c3]
    rw [he]
    have b0 := byteAt_mid pre
      [0xF0 + c / 262144, 0x80 + c / 4096 % 64, 0x80 + c / 64 % 64, 0x80 + c % 64] post 0
      (by simp)
    have b1 := byteAt_mid pre
      [0xF0 + c / 262144, 0x80 + c / 4096 % 64, 0x80 + c / 64 % 64, 0x80 + c % 64] post 1
      (by simp)
    have b2 := byteAt_mid pre
      [0xF0 + c / 262144, 0x80 + c / 4096 % 64, 0x80 + c / 64 % 64, 0x80 + c % 64] post 2
      (by simp)
    have b3 := byteAt_mid pre
      [0xF0 + c / 262144, 0x80 + c / 4096 % 64, 0x80 + c / 64 % 64, 0x80 + c % 64] post 3
      (by simp)
    simp only [List.getD_cons_zero, List.getD_cons_succ, Nat.add_zero] at b0 b1 b2 b3
    rw [CodePoint_four _ _ (by rw [b0]; omega) (by rw [b0]; omega), b0, b1, b2, b3]
    have hret : (0xF0 + c / 262144 - (128 + 64 + 32 + 16)) <<< 18 |||
        (0x80 + c / 4096 % 64 - 128) <<< 12 ||| (0x80 + c / 64 % 64 - 128) <<< 6 |||
        (0x80 + c % 64 - 128) = c := by
      rw [or_shift4 _ _ _ _ (by omega) (by omega) (by omega)]
      omega
    rw [hret, if_neg (by rw [continuation_and _ (by omega)]; simp),
      if_neg (by rw [continuation_and _ (by omega)]; simp),
      if_neg (by rw [continuation_and _ (by omega)]; simp),
      if_pos ⟨by omega, by omega⟩]
    rfl

theorem utf8Encode_bytes (c : Nat) (h1 : 1 ≤ c) (hmax : c ≤ 0x10FFFF) :
    ∀ b ∈ utf8Encode c, 1 ≤ b ∧ b < 256 := by
  intro b hb
  unfold utf8Encode at hb
  split_ifs at hb <;>
    simp only [List.mem_cons, List.mem_singleton, List.mem_nil_iff, or_false] at hb
  · omega
  · rcases hb with hb | hb <;> omega
  · rcases hb with hb | hb | hb <;> omega
  · rcases hb with hb | hb | hb | hb <;> omega

/-- C12: `FAudio_UTF8_CodePoint` inverts UTF-8 encoding.  For every code point
`c` in `1..0x10FFFF` outside `0xD800..0xDFFF` and other than `0xFFFE` and
`0xFFFF`, the decoder applied at the start of the shortest-form UTF-8 encoding
of `c` (wherever it lies in the string) returns `c` and advances the cursor by
the length of the encoding, which is 1, 2, 3 or 4 bytes, all of them non-zero
bytes; at a 0 byte the decoder returns 0 and does not advance. -/
theorem C12_decoder_inverts_utf8_encoding (c : Nat) (hc : ValidScalar c)
    (pre post : List Nat) :
    FAudio_UTF8_CodePoint (pre ++ utf8Encode c ++ post) pre.length
      = (c, pre.length + (utf8Encode c).length) ∧
    (utf8Encode c).length =
      (if c < 0x80 then 1 else if c < 0x800 then 2 else if c < 0x10000 then 3 else 4) ∧
    1 ≤ (utf8Encode c).length ∧ (utf8Encode c).length ≤ 4 ∧
    (∀ b ∈ utf8Encode c, 1 ≤ b ∧ b < 256) ∧
    (∀ src i, byteAt src i = 0 → FAudio_UTF8_CodePoint src i = (0, i)) := by
  refine ⟨decode_utf8Encode c hc pre post, utf8Encode_length c, ?_, ?_,
    utf8Encode_bytes c hc.1 hc.2.1, fun src i h => CodePoint_nul src i h⟩
  · rw [utf8Encode_length]; split_ifs <;> omega
  · rw [utf8Encode_length]; split_ifs <;> omega

/-- C12, at concrete code points: the euro sign `0x20AC` after an `A`, and
the emoji `0x1F600`. -/
theorem C12_decoder_inverts_utf8_encoding_witness :
    ValidScalar 0x20AC ∧
    utf8Encode 0x20AC = [0xE2, 0x82, 0xAC] ∧
    FAudio_UTF8_CodePoint [0x41, 0xE2, 0x82, 0xAC, 0] 1 = (0x20AC, 4) ∧
    FAudio_UTF8_CodePoint [0xF0, 0x9F, 0x98, 0x80, 0] 0 = (0x1F600, 4) ∧
    FAudio_UTF8_CodePoint [0x41, 0xE2, 0x82, 0xAC, 0] 4 = (0, 4) :=
  ⟨by decide, by decide,
   (C12_decoder_inverts_utf8_encoding 0x20AC (by decide) [0x41] [0]).1,
   (C12_decoder_inverts_utf8_encoding 0x1F600 (by decide) [] [0]).1,
   (C12_decoder_inverts_utf8_encoding 0x20AC (by decide) [] []).2.2.2.2.2
     [0x41, 0xE2, 0x82, 0xAC, 0] 4 (by decide)⟩

/-! ## Converting an encoded string: claim C11 -/

theorem high_unit (c : Nat) (h1 : 0xFFFF < c) (h2 : c ≤ 0x10FFFF) :
    (0xD800 + ((c - 0x10000) >>> 10 &&& 0x3FF)) % 2 ^ 16 = 0xD800 + (c - 0x10000) >>> 10 := by
  have h : (c - 0x10000) >>> 10 &&& 0x3FF = (c - 0x10000) >>> 10 := by
    have := Nat.and_pow_two_sub_one_eq_mod ((c - 0x10000) >>> 10) 10
    simp only [Nat.reducePow, Nat.reduceSub] at this
    rw [this, Nat.shiftRight_eq_div_pow]
    omega
  rw [h, Nat.shiftRight_eq_div_pow]
  omega

theorem low_unit (x : Nat) :
    (0xDC00 + (x &&& 0x3FF)) % 2 ^ 16 = 0xDC00 + (x &&& 0x3FF) := by
  have h : x &&& 0x3FF ≤ 0x3FF := Nat.and_le_right
  omega

theorem utf16Encode_length_pos (c : Nat) : 1 ≤ (utf16Encode c).length := by
  unfold utf16Encode; split_ifs <;> simp

theorem utf16Loop_encoded : ∀ (cs : List Nat) (pre post : List Nat) (len fuel : Nat),
    (∀ c ∈ cs, ValidScalar c) → 2 * (utf16EncodeAll cs).length ≤ len → len / 2 ≤ fuel →
    ∃ calls, utf16Loop (pre ++ utf8EncodeAll cs ++ 0 :: post) fuel pre.length len
      = some (utf16EncodeAll cs, pre.length + (utf8EncodeAll cs).length, calls) := by
  intro cs
  induction cs with
  | nil =>
    intro pre post len fuel _ _ hfuel
    have hb : byteAt (pre ++ utf8EncodeAll [] ++ 0 :: post) pre.length = 0 := by
      have := byteAt_mid pre [0] post 0 (by simp)
      simpa [utf8EncodeAll] using this
    cases fuel with
    | zero =>
      have hl : ¬ len ≥ 2 := by omega
      exact ⟨[], by simp [utf16Loop, hl, utf16EncodeAll, utf8EncodeAll]⟩
    | succ f =>
      by_cases hl : len ≥ 2
      · refine ⟨[pre.length], ?_⟩
        simp only [utf16Loop, if_pos hl, CodePoint_nul _ _ hb, if_true]
        simp [utf16EncodeAll, utf8EncodeAll]
      · exact ⟨[], by simp [utf16Loop, hl, utf16EncodeAll, utf8EncodeAll]⟩
  | cons c cs ih =>
    intro pre post len fuel hcs hlen hfuel
    have hc : ValidScalar c := hcs c (by simp)
    have hcs1 : ∀ d ∈ cs, ValidScalar d := fun d hd => hcs d (by simp [hd])
    have hpos := utf16Encode_length_pos c
    simp only [utf16EncodeAll, List.length_append] at hlen
    have hl : len ≥ 2 := by omega
    obtain ⟨f, rfl⟩ : ∃ f, fuel = f + 1 := ⟨fuel - 1, by omega⟩
    have hsrc : pre ++ utf8EncodeAll (c :: cs) ++ 0 :: post
        = pre ++ utf8Encode c ++ (utf8EncodeAll cs ++ 0 :: post) := by
      simp [utf8EncodeAll, List.append_assoc]
    have hsrc2 : pre ++ utf8EncodeAll (c :: cs) ++ 0 :: post
        = (pre ++ utf8Encode c) ++ utf8EncodeAll cs ++ 0 :: post := by
      simp [utf8EncodeAll, List.append_assoc]
    have hdec : FAudio_UTF8_CodePoint (pre ++ utf8EncodeAll (c :: cs) ++ 0 :: post) pre.length
        = (c, pre.length + (utf8Encode c).length) := by
      rw [hsrc]; exact decode_utf8Encode c hc pre _
    obtain ⟨h1, hmax, -, -, -⟩ := hc
    have hne0 : ¬ c = 0 := by omega
    have hnb : ¬ c = UNICODE_BOGUS_CHAR_VALUE := by
      unfold UNICODE_BOGUS_CHAR_VALUE; omega
    have hcur : pre.length + (utf8Encode c).length = (pre ++ utf8Encode c).length := by simp
    have hend : pre.length + (utf8EncodeAll (c :: cs)).length
        = (pre ++ utf8Encode c).length + (utf8EncodeAll cs).length := by
      simp [utf8EncodeAll]; omega
    by_cases hbig : c > 0xFFFF
    · have hu : utf16Encode c
          = [0xD800 + ((c - 0x10000) >>> 10), 0xDC00 + ((c - 0x10000) &&& 0x3FF)] := by
        unfold utf16Encode; rw [if_neg (by omega)]
      rw [hu] at hlen
      simp only [List.length_cons, List.length_nil] at hlen
      obtain ⟨calls, hrec⟩ := ih (pre ++ utf8Encode c) post (len - 2 - 2) f hcs1
        (by omega) (by omega)
      refine ⟨pre.length :: calls, ?_⟩
      simp only [utf16Loop, if_pos hl, hdec, if_neg hne0, if_neg hnb, if_pos hbig]
      rw [if_neg (by omega), hcur, ← hsrc2] at *
      rw [hsrc2, hrec]
      simp only [high_unit c hbig hmax, low_unit, utf16EncodeAll, hu, hend]
      rfl
    · have hu : utf16Encode c = [c] := by
        unfold utf16Encode; rw [if_pos (by omega)]
      rw [hu] at hlen
      simp only [List.length_cons, List.length_nil] at hlen
      obtain ⟨calls, hrec⟩ := ih (pre ++ utf8Encode c) post (len - 2) f hcs1
        (by omega) (by omega)
      refine ⟨pre.length :: calls, ?_⟩
      simp only [utf16Loop, if_pos hl, hdec, if_neg hne0, if_neg hnb, if_neg hbig]
      rw [hcur, hsrc2, hrec]
      have hm : c % 2 ^ 16 = c := Nat.mod_eq_of_lt (by omega)
      simp only [hm, utf16EncodeAll, hu, hend]
      rfl

theorem len_minus_terminator (len : Nat) (h2 : 2 ≤ len) (h64 : len < 2 ^ 64) :
    (len + 2 ^ 64 - 2) % 2 ^ 64 = len - 2 := by
  omega

/-- C11: for every sequence `cs` of code points in `1..0x10FFFF` outside
`0xD800..0xDFFF` and other than `0xFFFE`, `0xFFFF`, whose UTF-16 encoding has
`m` units with `2 * (m + 1) <= len`, `FAudio_UTF8_To_UTF16` applied to the
NUL-terminated UTF-8 encoding of `cs` returns and stores exactly the `m` units
of the UTF-16 encoding of `cs` followed by a 0 unit, leaving the cursor on the
terminator.  A code point `<= 0xFFFF` is one unit; a code point `c > 0xFFFF`
is the pair `hi = 0xD800 + ((c - 0x10000) >> 10)`,
`lo = 0xDC00 + ((c - 0x10000) & 0x3FF)`, a high and a low surrogate, and
`c = 0x10000 + ((hi - 0xD800) << 10) + (lo - 0xDC00)`. -/
theorem C11_encoded_string_converts_to_utf16 (cs post : List Nat) (len fuel : Nat)
    (hcs : ∀ c ∈ cs, ValidScalar c)
    (hlen : 2 * ((utf16EncodeAll cs).length + 1) ≤ len) (h64 : len < 2 ^ 64)
    (hfuel : len / 2 ≤ fuel) :
    (∃ r, FAudio_UTF8_To_UTF16 fuel (utf8EncodeAll cs ++ 0 :: post) len = some r ∧
      r.units = utf16EncodeAll cs ++ [0] ∧ r.srcEnd = (utf8EncodeAll cs).length) ∧
    (∀ c, c ≤ 0xFFFF → utf16Encode c = [c]) ∧
    (∀ c, 0xFFFF < c → c ≤ 0x10FFFF →
      utf16Encode c = [0xD800 + ((c - 0x10000) >>> 10), 0xDC00 + ((c - 0x10000) &&& 0x3FF)] ∧
      0xD800 ≤ 0xD800 + ((c - 0x10000) >>> 10) ∧ 0xD800 + ((c - 0x10000) >>> 10) ≤ 0xDBFF ∧
      0xDC00 ≤ 0xDC00 + ((c - 0x10000) &&& 0x3FF) ∧
      0xDC00 + ((c - 0x10000) &&& 0x3FF) ≤ 0xDFFF ∧
      c = 0x10000 + ((0xD800 + ((c - 0x10000) >>> 10) - 0xD800) <<< 10)
        + (0xDC00 + ((c - 0x10000) &&& 0x3FF) - 0xDC00)) := by
  refine ⟨?_, ?_, ?_⟩
  · obtain ⟨calls, hloop⟩ := utf16Loop_encoded cs [] post (len - 2) fuel hcs (by omega)
      (by omega)
    simp only [List.nil_append, List.length_nil, Nat.zero_add] at hloop
    refine ⟨{ units := utf16EncodeAll cs ++ [0], srcEnd := (utf8EncodeAll cs).length,
              decodedAt := calls }, ?_, rfl, rfl⟩
    unfold FAudio_UTF8_To_UTF16
    rw [len_minus_terminator len (by omega) h64, hloop]
  · intro c hc
    unfold utf16Encode; rw [if_pos hc]
  · intro c h1 h2
    have hand : (c - 0x10000) &&& 0x3FF = (c - 0x10000) % 1024 := by
      have := Nat.and_pow_two_sub_one_eq_mod (c - 0x10000) 10
      simpa using this
    refine ⟨by unfold utf16Encode; rw [if_neg (by omega)], by omega, ?_, by omega, ?_, ?_⟩
    · rw [Nat.shiftRight_eq_div_pow]; omega
    · rw [hand]; omega
    · rw [hand, Nat.shiftRight_eq_div_pow, Nat.shiftLeft_eq]
      omega

/-- C11, at a concrete string: `A`, `é`, the euro sign and an emoji, with room
for exactly the five units and the terminator. -/
theorem C11_encoded_string_converts_to_utf16_witness :
    ((∀ c ∈ [0x41, 0xE9, 0x20AC, 0x1F600], ValidScalar c) ∧
      2 * ((utf16EncodeAll [0x41, 0xE9, 0x20AC, 0x1F600]).length + 1) ≤ 12 ∧
      12 < 2 ^ 64 ∧ 12 / 2 ≤ 6) ∧
    utf8EncodeAll [0x41, 0xE9, 0x20AC, 0x1F600] ++ 0 :: []
      = [0x41, 0xC3, 0xA9, 0xE2, 0x82, 0xAC, 0xF0, 0x9F, 0x98, 0x80, 0] ∧
    (FAudio_UTF8_To_UTF16 6 [0x41, 0xC3, 0xA9, 0xE2, 0x82, 0xAC, 0xF0, 0x9F, 0x98, 0x80, 0]
        12).map (fun r => (r.units, r.srcEnd))
      = some ([0x41, 0xE9, 0x20AC, 0xD83D, 0xDE00, 0], 10) ∧
    ∃ r, FAudio_UTF8_To_UTF16 6 (utf8EncodeAll [0x41, 0xE9, 0x20AC, 0x1F600] ++ 0 :: []) 12
        = some r ∧
      r.units = utf16EncodeAll [0x41, 0xE9, 0x20AC, 0x1F600] ++ [0] ∧
      r.srcEnd = (utf8EncodeAll [0x41, 0xE9, 0x20AC, 0x1F600]).length :=
  ⟨⟨by decide, by decide, by decide, by decide⟩, by decide, by decide,
   (C11_encoded_string_converts_to_utf16 [0x41, 0xE9, 0x20AC, 0x1F600] [] 12 6
     (by decide) (by decide) (by decide) (by decide)).1⟩

/-! ## Room for the terminator: claim C13 -/

theorem utf16Loop_bound (src : List Nat) : ∀ (fuel str len : Nat), len / 2 ≤ fuel →
    ∃ res, utf16Loop src fuel str len = some res ∧ 2 * res.1.length ≤ len ∧
      ∀ u ∈ res.1, u < 2 ^ 16 := by
  intro fuel
  induction fuel with
  | zero =>
    intro str len h
    have hl : ¬ len ≥ 2 := by omega
    exact ⟨([], str, []), by simp [utf16Loop, hl], by simp, by simp⟩
  | succ f ih =>
    intro str len h
    by_cases hl : len ≥ 2
    · simp only [utf16Loop, if_pos hl]
      by_cases h0 : (FAudio_UTF8_CodePoint src str).1 = 0
      · rw [if_pos h0]
        exact ⟨_, rfl, by simp, by simp⟩
      · rw [if_neg h0]
        by_cases hbig : (if (FAudio_UTF8_CodePoint src str).1 = UNICODE_BOGUS_CHAR_VALUE
            then UNICODE_BOGUS_CHAR_CODEPOINT else (FAudio_UTF8_CodePoint src str).1) > 0xFFFF
        · rw [if_pos hbig]
          by_cases h4 : len < 2 * 2
          · rw [if_pos h4]
            exact ⟨_, rfl, by simp, by simp⟩
          · rw [if_neg h4]
            obtain ⟨res, hres, hb, hu⟩ := ih (FAudio_UTF8_CodePoint src str).2 (len - 2 - 2)
              (by omega)
            obtain ⟨units, srcEnd, calls⟩ := res
            rw [hres]
            refine ⟨_, rfl, ?_, ?_⟩
            · simp only [List.length_cons] at hb ⊢; omega
            · intro u hmem
              simp only [List.mem_cons] at hmem
              rcases hmem with hmem | hmem | hmem
              · rw [hmem]; exact Nat.mod_lt _ (by norm_num)
              · rw [hmem]; exact Nat.mod_lt _ (by norm_num)
              · exact hu u hmem
        · rw [if_neg hbig]
          obtain ⟨res, hres, hb, hu⟩ := ih (FAudio_UTF8_CodePoint src str).2 (len - 2)
            (by omega)
          obtain ⟨units, srcEnd, calls⟩ := res
          rw [hres]
          refine ⟨_, rfl, ?_, ?_⟩
          · simp only [List.length_cons] at hb ⊢; omega
          · intro u hmem
            simp only [List.mem_cons] at hmem
            rcases hmem with hmem | hmem
            · rw [hmem]; exact Nat.mod_lt _ (by norm_num)
            · exact hu u hmem
    · exact ⟨([], str, []), by simp [utf16Loop, hl], by simp, by simp⟩

/-- C13: `FAudio_UTF8_To_UTF16` saves room for the terminator.  For every
source string and every destination size `len >= 2` (a `size_t`), the call
returns, the units it stores at `dst[0]`, `dst[1]`, ... number at most
`floor(len / 2)`, so none is stored at an index `>= floor(len / 2)`, the last
one stored is 0, and each fits 16 bits. -/
theorem C13_terminator_always_fits (src : List Nat) (len fuel : Nat)
    (h2 : 2 ≤ len) (h64 : len < 2 ^ 64) (hfuel : len / 2 ≤ fuel) :
    ∃ r, FAudio_UTF8_To_UTF16 fuel src len = some r ∧
      1 ≤ r.units.length ∧ r.units.length ≤ len / 2 ∧
      r.units.getLast? = some 0 ∧ (∀ u ∈ r.units, u < 2 ^ 16) := by
  obtain ⟨res, hres, hb, hu⟩ := utf16Loop_bound src fuel 0 (len - 2) (by omega)
  obtain ⟨units, srcEnd, calls⟩ := res
  refine ⟨{ units := units ++ [0], srcEnd := srcEnd, decodedAt := calls }, ?_, ?_, ?_, ?_, ?_⟩
  · unfold FAudio_UTF8_To_UTF16
    rw [len_minus_terminator len h2 h64, hres]
  · simp
  · simp only [List.length_append, List.length_cons, List.length_nil] at hb ⊢
    omega
  · simp
  · intro u hmem
    simp only [List.mem_append, List.mem_singleton] at hmem
    rcases hmem with hmem | hmem
    · exact hu u hmem
    · rw [hmem]; norm_num

/-- C13, at concrete calls: a string of five characters and room for three
units, for two units (the pair of the emoji does not fit) and for one. -/
theorem C13_terminator_always_fits_witness :
    (2 ≤ 7 ∧ 7 < 2 ^ 64 ∧ 7 / 2 ≤ 3) ∧
    (FAudio_UTF8_To_UTF16 3 [0x41, 0x42, 0x43, 0x44, 0x45, 0] 7).map (fun r => r.units)
      = some [0x41, 0x42, 0] ∧
    (FAudio_UTF8_To_UTF16 3 [0x41, 0xF0, 0x9F, 0x98, 0x80, 0] 6).map (fun r => r.units)
      = some [0x41, 0] ∧
    (FAudio_UTF8_To_UTF16 3 [0x41, 0x42, 0] 2).map (fun r => r.units) = some [0] ∧
    ∃ r, FAudio_UTF8_To_UTF16 3 [0x41, 0x42, 0x43, 0x44, 0x45, 0] 7 = some r ∧
      1 ≤ r.units.length ∧ r.units.length ≤ 7 / 2 ∧
      r.units.getLast? = some 0 ∧ (∀ u ∈ r.units, u < 2 ^ 16) :=
  ⟨⟨by decide, by decide, by decide⟩, by decide, by decide, by decide,
   C13_terminator_always_fits [0x41, 0x42, 0x43, 0x44, 0x45, 0] 7 3
     (by decide) (by decide) (by decide)⟩

/-! ## Five- and six-octet sequences: claim C14 -/

/-- A lead byte in `0xF8..0xFB` followed by four continuation bytes: the
decoder returns the bogus value and advances by 5. -/
theorem CodePoint_five_octets (src : List Nat) (str : Nat)
    (h1 : 0xF8 ≤ byteAt src str) (h2 : byteAt src str ≤ 0xFB)
    (c1 : byteAt src (str + 1) &&& (128 + 64) = 128)
    (c2 : byteAt src (str + 2) &&& (128 + 64) = 128)
    (c3 : byteAt src (str + 3) &&& (128 + 64) = 128)
    (c4 : byteAt src (str + 4) &&& (128 + 64) = 128) :
    FAudio_UTF8_CodePoint src str = (UNICODE_BOGUS_CHAR_VALUE, str + 5) := by
  rw [CodePoint_five src str (by omega) (by omega)]
  simp [c1, c2, c3, c4]

/-- A lead byte `>= 0xFC` followed by five continuation bytes: the decoder
returns the bogus value and advances by 7, one byte more than the sequence
has. -/
theorem CodePoint_six_octets (src : List Nat) (str : Nat)
    (h1 : 0xFC ≤ byteAt src str)
    (c1 : byteAt src (str + 1) &&& (128 + 64) = 128)
    (c2 : byteAt src (str + 2) &&& (128 + 64) = 128)
    (c3 : byteAt src (str + 3) &&& (128 + 64) = 128)
    (c4 : byteAt src (str + 4) &&& (128 + 64) = 128)
    (c5 : byteAt src (str + 5) &&& (128 + 64) = 128) :
    FAudio_UTF8_CodePoint src str = (UNICODE_BOGUS_CHAR_VALUE, str + 7) := by
  rw [CodePoint_six src str (by omega)]
  simp [c1, c2, c3, c4, c5]

/-- C14, the code at the failing input: the five-octet sequence
`F8 80 80 80 80` is skipped whole (the cursor moves from 0 to 5, onto the
`A`), but after the six-octet sequence `FC 80 80 80 80 80` the cursor is at 7
and not at 6: the `A` that follows the sequence is skipped as well. -/
theorem C14_six_octets_advance_seven :
    FAudio_UTF8_CodePoint [0xF8, 0x80, 0x80, 0x80, 0x80, 0x41, 0] 0
      = (UNICODE_BOGUS_CHAR_VALUE, 5) ∧
    FAudio_UTF8_CodePoint [0xFC, 0x80, 0x80, 0x80, 0x80, 0x80, 0x41, 0] 0
      = (UNICODE_BOGUS_CHAR_VALUE, 7) ∧
    (FAudio_UTF8_CodePoint [0xFC, 0x80, 0x80, 0x80, 0x80, 0x80, 0x41, 0] 0).2 ≠ 0 + 6 ∧
    (FAudio_UTF8_To_UTF16 8 [0xFC, 0x80, 0x80, 0x80, 0x80, 0x80, 0x41, 0] 16).map
      (fun r => r.units) = some [UNICODE_BOGUS_CHAR_CODEPOINT, 0] := by
  refine ⟨?_, ?_, ?_, ?_⟩
  · exact CodePoint_five_octets _ 0 (by decide) (by decide) (by decide) (by decide)
      (by decide) (by decide)
  · exact CodePoint_six_octets _ 0 (by decide) (by decide) (by decide) (by decide)
      (by decide) (by decide)
  · decide
  · decide

/-! ## The cursor and the terminator: claim C15 -/

theorem continuation_ne_zero (b : Nat) (h : ¬ b &&& (128 + 64) ≠ 128) : b ≠ 0 := by
  intro hb
  subst hb
  simp at h

theorem before_nul (src : List Nat) (n k : Nat) (hn : byteAt src n = 0) (hk : k ≤ n)
    (hb : byteAt src k ≠ 0) : k < n := by
  rcases Nat.lt_or_ge k n with h | h
  · exact h
  · have : k = n := by omega
    subst this
    exact absurd hn hb

/-- What does hold of the cursor: started at or before the first 0 byte (at
index `n`), the decoder never moves the cursor back, moves it forward unless
it is on the 0 byte, and leaves it at or before `n` whenever the lead byte is
below `0xFC`; with a lead byte `>= 0xFC` it may leave it at `n + 1`. -/
theorem CodePoint_cursor_bounds (src : List Nat) (i n : Nat) (hi : i ≤ n)
    (hn : byteAt src n = 0) :
    i ≤ (FAudio_UTF8_CodePoint src i).2 ∧
    (byteAt src i ≠ 0 → i < (FAudio_UTF8_CodePoint src i).2) ∧
    (byteAt src i < 0xFC → (FAudio_UTF8_CodePoint src i).2 ≤ n) ∧
    (FAudio_UTF8_CodePoint src i).2 ≤ n + 1 := by
  have step : ∀ k, k ≤ n → ¬ byteAt src k &&& (128 + 64) ≠ 128 → k < n :=
    fun k hk hc => before_nul src n k hn hk (continuation_ne_zero _ hc)
  by_cases b0 : byteAt src i = 0
  · rw [CodePoint_nul src i b0]
    exact ⟨le_refl _, fun h => absurd b0 h, fun _ => hi, by omega⟩
  have hin : i < n := before_nul src n i hn hi b0
  by_cases b1 : byteAt src i < 128
  · rw [CodePoint_ascii src i b0 b1]
    exact ⟨by simp, fun _ => by simp, fun _ => hin, by simp only; omega⟩
  by_cases b2 : byteAt src i < 192
  · rw [CodePoint_stray src i (by omega) b2]
    exact ⟨by simp, fun _ => by simp, fun _ => hin, by simp only; omega⟩
  by_cases b3 : byteAt src i < 224
  · rw [CodePoint_two src i (by omega) b3]
    split_ifs with a1 a2
    · exact ⟨by simp, fun _ => by simp, fun _ => hin, by simp only; omega⟩
    · have s1 := step (i + 1) (by omega) a1
      exact ⟨by simp only; omega, fun _ => by simp only; omega, fun _ => by simp only; omega,
        by simp only; omega⟩
    · have s1 := step (i + 1) (by omega) a1
      exact ⟨by simp only; omega, fun _ => by simp only; omega, fun _ => by simp only; omega,
        by simp only; omega⟩
  by_cases b4 : byteAt src i < 240
  · rw [CodePoint_three src i (by omega) b4]
    split_ifs with a1 a2 a3 a4
    · exact ⟨by simp, fun _ => by simp, fun _ => hin, by simp only; omega⟩
    · exact ⟨by simp, fun _ => by simp, fun _ => hin, by simp only; omega⟩
    all_goals
      have s1 := step (i + 1) (by omega) a1
      have s2 := step (i + 2) (by omega) a2
      exact ⟨by simp only; omega, fun _ => by simp only; omega, fun _ => by simp only; omega,
        by simp only; omega⟩
  by_cases b5 : byteAt src i < 248
  · rw [CodePoint_four src i (by omega) b5]
    split_ifs with a1 a2 a3 a4
    · exact ⟨by simp, fun _ => by simp, fun _ => hin, by simp only; omega⟩
    · exact ⟨by simp, fun _ => by simp, fun _ => hin, by simp only; omega⟩
    · exact ⟨by simp, fun _ => by simp, fun _ => hin, by simp only; omega⟩
    all_goals
      have s1 := step (i + 1) (by omega) a1
      have s2 := step (i + 2) (by omega) a2
      have s3 := step (i + 3) (by omega) a3
      exact ⟨by simp only; omega, fun _ => by simp only; omega, fun _ => by simp only; omega,
        by simp only; omega⟩
  by_cases b6 : byteAt src i < 252
  · rw [CodePoint_five src i (by omega) b6]
    split_ifs with a1 a2 a3 a4
    · exact ⟨by simp, fun _ => by simp, fun _ => hin, by simp only; omega⟩
    · exact ⟨by simp, fun _ => by simp, fun _ => hin, by simp only; omega⟩
    · exact ⟨by simp, fun _ => by simp, fun _ => hin, by simp only; omega⟩
    · exact ⟨by simp, fun _ => by simp, fun _ => hin, by simp only; omega⟩
    · have s1 := step (i + 1) (by omega) a1
      have s2 := step (i + 2) (by omega) a2
      have s3 := step (i + 3) (by omega) a3
      have s4 := step (i + 4) (by omega) a4
      exact ⟨by simp only; omega, fun _ => by simp only; omega, fun _ => by simp only; omega,
        by simp only; omega⟩
  · rw [CodePoint_six src i (by omega)]
    split_ifs with a1 a2 a3 a4 a5
    · exact ⟨by simp, fun _ => by simp, fun h => by omega, by simp only; omega⟩
    · exact ⟨by simp, fun _ => by simp, fun h => by omega, by simp only; omega⟩
    · exact ⟨by simp, fun _ => by simp, fun h => by omega, by simp only; omega⟩
    · exact ⟨by simp, fun _ => by simp, fun h => by omega, by simp only; omega⟩
    · exact ⟨by simp, fun _ => by simp, fun h => by omega, by simp only; omega⟩
    · have s1 := step (i + 1) (by omega) a1
      have s2 := step (i + 2) (by omega) a2
      have s3 := step (i + 3) (by omega) a3
      have s4 := step (i + 4) (by omega) a4
      have s5 := step (i + 5) (by omega) a5
      exact ⟨by simp only; omega, fun _ => by simp only; omega, fun h => by omega,
        by simp only; omega⟩

theorem continuationLoads_bounds (src : List Nat) (i n : Nat) (hn : byteAt src n = 0) :
    ∀ (m k : Nat), i + k ≤ n → ∀ p ∈ continuationLoads src i m k, i ≤ p ∧ p ≤ n := by
  intro m
  induction m with
  | zero => intro k _ p hp; simp [continuationLoads] at hp
  | succ m ih =>
    intro k hk p hp
    unfold continuationLoads at hp
    split_ifs at hp with hc
    · simp only [List.mem_singleton] at hp
      omega
    · simp only [List.mem_cons] at hp
      rcases hp with hp | hp
      · omega
      · have hlt := before_nul src n (i + k) hn hk (continuation_ne_zero _ hc)
        exact ih (k + 1) (by omega) p hp

/-- The decoder itself, started at or before the first 0 byte, loads no byte
beyond it. -/
theorem CodePoint_loads_bounds (src : List Nat) (i n : Nat) (hi : i ≤ n)
    (hn : byteAt src n = 0) :
    ∀ p ∈ FAudio_UTF8_CodePoint_loads src i, i ≤ p ∧ p ≤ n := by
  intro p hp
  unfold FAudio_UTF8_CodePoint_loads at hp
  simp only [List.mem_cons] at hp
  rcases hp with hp | hp
  · omega
  · by_cases b : byteAt src i < 192
    · rw [if_pos b] at hp
      simp [continuationLoads] at hp
    · have hin : i < n := before_nul src n i hn hi (by omega)
      exact continuationLoads_bounds src i n hn _ 1 (by omega) p hp

/-- What does hold of the conversion: on a string without a byte `>= 0xFC`,
every call of the decoder is made at or before the first 0 byte, and the
cursor ends at or before it. -/
theorem utf16Loop_calls_bounded (src : List Nat) (n : Nat) (hn : byteAt src n = 0)
    (hno : ∀ k, byteAt src k < 0xFC) :
    ∀ (fuel str len : Nat) (res : List Nat × Nat × List Nat), str ≤ n →
      utf16Loop src fuel str len = some res → res.2.1 ≤ n ∧ ∀ p ∈ res.2.2, p ≤ n := by
  intro fuel
  induction fuel with
  | zero =>
    intro str len res hs h
    simp only [utf16Loop] at h
    split_ifs at h
    simp only [Option.some.injEq] at h
    subst h
    exact ⟨hs, by simp⟩
  | succ f ih =>
    intro str len res hs h
    have hcur := (CodePoint_cursor_bounds src str n hs hn).2.2.1 (hno str)
    simp only [utf16Loop] at h
    generalize (if (FAudio_UTF8_CodePoint src str).1 = UNICODE_BOGUS_CHAR_VALUE
      then UNICODE_BOGUS_CHAR_CODEPOINT else (FAudio_UTF8_CodePoint src str).1) = cp at h
    by_cases hl : len ≥ 2
    · rw [if_pos hl] at h
      by_cases h0 : (FAudio_UTF8_CodePoint src str).1 = 0
      · rw [if_pos h0] at h
        simp only [Option.some.injEq] at h
        subst h
        exact ⟨hcur, by simpa using hs⟩
      · rw [if_neg h0] at h
        by_cases hbig : cp > 0xFFFF
        · rw [if_pos hbig] at h
          by_cases h4 : len < 2 * 2
          · rw [if_pos h4] at h
            simp only [Option.some.injEq] at h
            subst h
            exact ⟨hcur, by simpa using hs⟩
          · rw [if_neg h4] at h
            cases hrec : utf16Loop src f (FAudio_UTF8_CodePoint src str).2 (len - 2 - 2) with
            | none => rw [hrec] at h; simp at h
            | some r =>
              obtain ⟨units, srcEnd, calls⟩ := r
              rw [hrec] at h
              simp only [Option.some.injEq] at h
              subst h
              obtain ⟨e1, e2⟩ := ih _ _ _ hcur hrec
              refine ⟨e1, ?_⟩
              intro p hp
              simp only [List.mem_cons] at hp
              rcases hp with hp | hp
              · omega
              · exact e2 p hp
        · rw [if_neg hbig] at h
          cases hrec : utf16Loop src f (FAudio_UTF8_CodePoint src str).2 (len - 2) with
          | none => rw [hrec] at h; simp at h
          | some r =>
            obtain ⟨units, srcEnd, calls⟩ := r
            rw [hrec] at h
            simp only [Option.some.injEq] at h
            subst h
            obtain ⟨e1, e2⟩ := ih _ _ _ hcur hrec
            refine ⟨e1, ?_⟩
            intro p hp
            simp only [List.mem_cons] at hp
            rcases hp with hp | hp
            · omega
            · exact e2 p hp
    · rw [if_neg hl] at h
      simp only [Option.some.injEq] at h
      subst h
      exact ⟨hs, by simp⟩

/-- C15, the code at the failing input: in the string `FC 80 80 80 80 80`,
whose terminator is at index 6 (followed in memory by `A B` and a 0), the
decoder called at 0 loads only the bytes 0 to 5 but leaves the cursor at 7,
beyond the terminator; `FAudio_UTF8_To_UTF16` then calls the decoder at 7, 8
and 9 and converts the bytes that follow the terminator. -/
theorem C15_cursor_passes_the_terminator :
    firstNul [0xFC, 0x80, 0x80, 0x80, 0x80, 0x80, 0, 0x41, 0x42, 0] 0 = some 6 ∧
    FAudio_UTF8_CodePoint [0xFC, 0x80, 0x80, 0x80, 0x80, 0x80, 0, 0x41, 0x42, 0] 0
      = (UNICODE_BOGUS_CHAR_VALUE, 7) ∧
    ¬ ((FAudio_UTF8_CodePoint [0xFC, 0x80, 0x80, 0x80, 0x80, 0x80, 0, 0x41, 0x42, 0] 0).2
        ≤ 6) ∧
    FAudio_UTF8_CodePoint_loads [0xFC, 0x80, 0x80, 0x80, 0x80, 0x80, 0, 0x41, 0x42, 0] 0
      = [0, 1, 2, 3, 4, 5] ∧
    FAudio_UTF8_To_UTF16 5 [0xFC, 0x80, 0x80, 0x80, 0x80, 0x80, 0, 0x41, 0x42, 0] 10
      = some { units := [UNICODE_BOGUS_CHAR_CODEPOINT, 0x41, 0x42, 0], srcEnd := 9,
               decodedAt := [0, 7, 8, 9] } := by
  refine ⟨by decide, by decide, by decide, by decide, by decide⟩

/-! ## The frames of one call: claim C1 -/

theorem tickSegment_length (engine : Nat → Nat → Nat) (U ch t k : Nat) :
    (tickSegment engine U ch t k).length = k * (U * (ch * 4)) := by
  induction k with
  | zero => simp [tickSegment]
  | succ k ih =>
    rw [tickSegment, List.length_append, ih, tickOutput_length, Nat.succ_mul, Nat.mul_assoc]

/-- With `updateSize = 0` an iteration of the loop adds no frame: the loop
never ends once it is entered. -/
theorem mixLoop_updateSize_zero (engine : Nat → Nat → Nat) (ch goal : Nat) :
    ∀ (fuel : Nat) (s : MixState), s.accumulatedFrames < goal →
      mixLoop engine 0 ch goal fuel s = none := by
  intro fuel
  induction fuel with
  | zero => intro s h; simp [mixLoop, h]
  | succ n ih =>
    intro s h
    simp only [mixLoop, h, if_true]
    apply ih
    unfold mixBody
    simp only
    split_ifs <;> simpa using h

/-- An active engine with `updateSize = 0` and an empty ring: a call for at
least one frame does not return, whatever the fuel. -/
theorem MixCallback_never_returns (engine : Nat → Nat → Nat) (audio : FAudio) (N : Nat)
    (hact : audio.active ≠ 0) (hU : audio.updateSize = 0)
    (hav : audio.platform.ringBuffer.available = 0) (hN : 1 ≤ N) (fuel : Nat) :
    FAudio_INTERNAL_MixCallback engine fuel audio N = none := by
  obtain ⟨act, U, ⟨ring, ch⟩, t⟩ := audio
  simp only at hact hU hav
  subst hU
  unfold FAudio_INTERNAL_MixCallback
  rw [if_pos hact]
  unfold mixStart
  simp only [FRingBuffer_UnreadByteCount, hav, ne_eq, not_true_eq_false, if_false]
  rw [mixLoop_updateSize_zero engine ch N fuel _ (by simp only; omega)]

theorem mixBody_OutInv (engine : Nat → Nat → Nat) (U ch goal M t0 : Nat) (base : List Nat)
    (s : MixState) (hi : OutInv engine U ch goal M t0 base s)
    (hlt : s.accumulatedFrames < goal) :
    OutInv engine U ch goal M t0 base (mixBody engine U ch goal s) := by
  obtain ⟨hlen, k, htc, hc⟩ := hi
  rcases hc with ⟨-, hp, hwf, hmax, hav, hts, hbl⟩ | ⟨hge, -⟩
  swap
  · omega
  have htl : (tickOutput engine U ch s.tickCount).length = U * (ch * 4) := by
    rw [tickOutput_length, Nat.mul_assoc]
  have hseg : tickSegment engine U ch t0 (k + 1)
      = tickSegment engine U ch t0 k ++ tickOutput engine U ch s.tickCount := by
    rw [tickSegment, htc]
  have hmin : 1 ≤ ch → (k + 1 = 0 ∨ ∃ j, k + 1 = j + 1 ∧
      (base ++ tickSegment engine U ch t0 j).length < goal * (ch * 4)) := by
    intro hch
    refine Or.inr ⟨k, rfl, ?_⟩
    rw [hbl]
    exact Nat.mul_lt_mul_of_pos_right hlt (by omega)
  unfold mixBody
  simp only [Nat.mul_assoc]
  split_ifs with hover
  · have hk1 : s.accumulatedFrames * (ch * 4) + (goal - s.accumulatedFrames) * (ch * 4)
        = goal * (ch * 4) := by
      rw [← Nat.add_mul]; congr 1; omega
    have hk2 : (goal - s.accumulatedFrames) * (ch * 4)
        + (U - (goal - s.accumulatedFrames)) * (ch * 4) = U * (ch * 4) := by
      rw [← Nat.add_mul]; congr 1; omega
    have hpd : memRead (tickOutput engine U ch s.tickCount)
        ((goal - s.accumulatedFrames) * (ch * 4))
        ((U - (goal - s.accumulatedFrames)) * (ch * 4))
        = (tickOutput engine U ch s.tickCount).drop
            ((goal - s.accumulatedFrames) * (ch * 4)) :=
      memRead_to_end _ _ _ (by rw [htl]; exact hk2)
    have hpl : ((tickOutput engine U ch s.tickCount).drop
        ((goal - s.accumulatedFrames) * (ch * 4))).length
        = (U - (goal - s.accumulatedFrames)) * (ch * 4) := by
      rw [List.length_drop, htl]; omega
    have htk : ((tickOutput engine U ch s.tickCount).take
        ((goal - s.accumulatedFrames) * (ch * 4))).length
        = (goal - s.accumulatedFrames) * (ch * 4) := by
      rw [List.length_take, htl]; omega
    rw [hpd, memRead_zero, hp]
    have hout : memWrite s.out (s.accumulatedFrames * (ch * 4))
        ((tickOutput engine U ch s.tickCount).take ((goal - s.accumulatedFrames) * (ch * 4)))
        = s.out.take (s.accumulatedFrames * (ch * 4)) ++
          (tickOutput engine U ch s.tickCount).take
            ((goal - s.accumulatedFrames) * (ch * 4)) :=
      memWrite_at_end _ _ _ (by rw [htk, hlen]; exact hk1)
    refine ⟨?_, k + 1, by simp only; omega, Or.inr ⟨by simp only; omega, ?_, hmin, ?_⟩⟩
    · simp only
      rw [memWrite_length _ _ _ (by rw [htk, hlen]; omega)]; exact hlen
    · simp only
      rw [hout, hseg, ← List.append_assoc, hts, ← hk1, ← hbl, List.take_append]
    · intro hM
      have hfit : s.ring.available + ((tickOutput engine U ch s.tickCount).drop
          ((goal - s.accumulatedFrames) * (ch * 4))).length ≤ s.ring.max := by
        rw [hpl, hav, hmax]; omega
      obtain ⟨pwf, pun, -, -, -⟩ := FRingBuffer_Push_spec s.ring _ hwf hfit
      refine ⟨pwf, ?_⟩
      simp only
      rw [pun, unread_of_empty _ hav, hout, hseg, hts]
      simp only [List.nil_append, List.append_assoc, List.take_append_drop]
  · have hk1 : s.accumulatedFrames * (ch * 4) + U * (ch * 4)
        = (s.accumulatedFrames + U) * (ch * 4) := by
      rw [← Nat.add_mul]
    have hk2 : (s.accumulatedFrames + U) * (ch * 4) ≤ goal * (ch * 4) :=
      Nat.mul_le_mul_right _ (by omega)
    have hb : s.outPointer + (tickOutput engine U ch s.tickCount).length ≤ s.out.length := by
      rw [htl, hlen, hp]; omega
    have hbl1 : (base ++ tickSegment engine U ch t0 (k + 1)).length
        = (s.accumulatedFrames + U) * (ch * 4) := by
      rw [hseg, ← List.append_assoc, List.length_append, hbl, htl, hk1]
    refine ⟨?_, k + 1, by simp only; omega, ?_⟩
    · simp only
      rw [memWrite_length _ _ _ hb]; exact hlen
    · simp only
      by_cases hl : s.accumulatedFrames + U < goal
      · refine Or.inl ⟨hl, by rw [hp, hk1], hwf, hmax, hav, ?_, hbl1⟩
        rw [← hk1, ← htl, ← hp, memWrite_take _ _ _ hb, hseg, ← List.append_assoc, ← hts, hp]
      · have hge : s.accumulatedFrames + U = goal := by omega
        have hend : s.outPointer + (tickOutput engine U ch s.tickCount).length
            = s.out.length := by
          rw [htl, hlen, hp, hk1, hge]
        have hout : memWrite s.out s.outPointer (tickOutput engine U ch s.tickCount)
            = base ++ tickSegment engine U ch t0 (k + 1) := by
          rw [memWrite_at_end _ _ _ hend, hseg, ← List.append_assoc, ← hts, hp]
        refine Or.inr ⟨by omega, ?_, hmin, ?_⟩
        · rw [hout]
          symm
          apply List.take_of_length_le
          rw [hbl1, hge]
        · intro _
          refine ⟨hwf, ?_⟩
          rw [hout, unread_of_empty _ hav, List.append_nil]

theorem mixStart_OutInv (engine : Nat → Nat → Nat) (audio : FAudio) (N : Nat)
    (s0 : MixState) (hwf : audio.platform.ringBuffer.WF)
    (hdvd : audio.platform.channelCount * 4 ∣ audio.platform.ringBuffer.available)
    (h : mixStart audio N = some s0) :
    OutInv engine audio.updateSize audio.platform.channelCount N
      audio.platform.ringBuffer.max audio.tickCount audio.platform.ringBuffer.unread s0 := by
  obtain ⟨act, U, ⟨ring, ch⟩, t⟩ := audio
  simp only at hwf hdvd ⊢
  unfold mixStart at h
  simp only [FRingBuffer_UnreadByteCount] at h
  have hul := unread_length ring hwf
  split_ifs at h with ha hz
  · simp only [Option.some.injEq] at h
    subst h
    obtain ⟨pc, pd, pu, pwf, pav, pmax, -, -⟩ := FRingBuffer_Pop_spec ring (N * ch * 4) hwf
    rw [Nat.mul_assoc] at pc pd pu pav pwf pmax
    have hdl : (FRingBuffer_Pop ring (N * (ch * 4))).2.1.length
        = min (N * (ch * 4)) ring.available := by
      rw [pd, List.length_take, hul]; omega
    have hzl : (List.replicate (N * (ch * 4)) 0).length = N * (ch * 4) := by simp
    have hd : ch * 4 ∣ min (N * (ch * 4)) ring.available := by
      rcases Nat.le_total (N * (ch * 4)) ring.available with hle | hle
      · rw [Nat.min_eq_left hle]; exact Dvd.intro_left N rfl
      · rw [Nat.min_eq_right hle]; exact hdvd
    have h4 : 4 ∣ min (N * (ch * 4)) ring.available :=
      Dvd.dvd.trans (Dvd.intro_left _ rfl) hd
    have hmod : min (N * (ch * 4)) ring.available % 4 = 0 := Nat.mod_eq_zero_of_dvd h4
    simp only [Nat.mul_assoc]
    refine ⟨?_, 0, rfl, ?_⟩
    · simp only
      rw [memWrite_length _ _ _ (by rw [hdl, hzl]; omega)]; exact hzl
    · simp only [tickSegment, List.append_nil]
      by_cases hl : (FRingBuffer_Pop ring (N * (ch * 4))).2.2 / (ch * 4) < N
      · have hl2 := hl
        rw [pc] at hl2
        have h1 : min (N * (ch * 4)) ring.available < N * (ch * 4) :=
          (Nat.div_lt_iff_lt_mul (by omega : 0 < ch * 4)).mp hl2
        have hcnt : min (N * (ch * 4)) ring.available = ring.available := by omega
        have hmul : (FRingBuffer_Pop ring (N * (ch * 4))).2.2 / (ch * 4) * (ch * 4)
            = ring.available := by
          rw [pc, Nat.div_mul_cancel hd, hcnt]
        refine Or.inl ⟨hl, ?_, pwf, pmax, by rw [pav]; omega, ?_, by rw [hmul, hul]⟩
        · rw [hmul, pc]; omega
        · rw [hmul]
          have ht := memWrite_take (List.replicate (N * (ch * 4)) 0) 0
            (FRingBuffer_Pop ring (N * (ch * 4))).2.1 (by rw [hdl, hzl]; omega)
          rw [hdl, hcnt, Nat.zero_add] at ht
          rw [ht, pd, hcnt, ← hul]
          simp
      · have hge : N ≤ (FRingBuffer_Pop ring (N * (ch * 4))).2.2 / (ch * 4) := by omega
        have hge2 := hge
        rw [pc] at hge2
        have h1 : N * (ch * 4) ≤ min (N * (ch * 4)) ring.available :=
          (Nat.le_div_iff_mul_le (by omega)).mp hge2
        have hcnt : min (N * (ch * 4)) ring.available = N * (ch * 4) := by omega
        have hout : memWrite (List.replicate (N * (ch * 4)) 0) 0
            (FRingBuffer_Pop ring (N * (ch * 4))).2.1 = ring.unread.take (N * (ch * 4)) := by
          rw [memWrite_at_end _ _ _ (by rw [hdl, hzl]; omega), pd, hcnt]
          simp
        refine Or.inr ⟨hge, hout, fun _ => Or.inl (by first | rfl | trivial), fun _ => ⟨pwf, ?_⟩⟩
        rw [hout, pu, hcnt, List.take_append_drop]
  · simp only [Option.some.injEq] at h
    subst h
    have hav : ring.available = 0 := by simpa using ha
    have hun : ring.unread = [] := unread_of_empty _ hav
    simp only [Nat.mul_assoc]
    refine ⟨by simp, 0, rfl, ?_⟩
    simp only [tickSegment, List.append_nil, hun]
    by_cases hN : 0 < N
    · exact Or.inl ⟨hN, by simp, hwf, by first | rfl | trivial, hav, by simp, by simp⟩
    · have hN0 : N = 0 := by omega
      refine Or.inr ⟨by omega, by simp [hN0], fun _ => Or.inl (by first | rfl | trivial), fun _ => ⟨hwf, ?_⟩⟩
      simp [hN0, hun]

/-- C1 (amended): the cubeb mix callback called with `nframes = N` returns,
and returns `N`, when the engine is inactive and when it is active with
`updateSize >= 1` and at least one channel (or an empty ring); a call that
returns at all returns `N`; with an active engine, `updateSize = 0`, an empty
ring and `N >= 1` the call never returns.  When the engine is active with
`updateSize = U >= 1` and the well-formed ring holds a whole number of frames,
exactly `N` frames are placed in the output buffer: the stores after the zero
fill cover every byte of the frames `0 .. N-1`, none reaches a frame `>= N`
and together they have `N` frames; the output consists of the first `N`
frames of the unread content of the ring followed by the audio of the `k`
ticks the call performs, in order; with at least one channel no tick is made
that is not needed; and when the ring has room for one quantum, the rest of
that audio is the unread content of the ring afterwards. -/
theorem C1_callback_delivers_exactly_N_frames (engine : Nat → Nat → Nat)
    (audio : FAudio) (N : Nat) :
    (audio.active = 0 → ∀ fuel, ∃ r,
      FAudio_INTERNAL_MixCallback engine fuel audio N = some r ∧ r.ret = N) ∧
    (audio.active ≠ 0 → 1 ≤ audio.updateSize →
      1 ≤ audio.platform.channelCount ∨ audio.platform.ringBuffer.available = 0 →
      ∀ fuel, N ≤ fuel → ∃ r,
        FAudio_INTERNAL_MixCallback engine fuel audio N = some r ∧ r.ret = N) ∧
    (∀ fuel r, FAudio_INTERNAL_MixCallback engine fuel audio N = some r → r.ret = N) ∧
    (audio.active ≠ 0 → audio.updateSize = 0 →
      audio.platform.ringBuffer.available = 0 → 1 ≤ N →
      ∀ fuel, FAudio_INTERNAL_MixCallback engine fuel audio N = none) ∧
    (audio.active ≠ 0 → 1 ≤ audio.updateSize →
      audio.platform.channelCount * 4 ∣ audio.platform.ringBuffer.available →
      audio.platform.ringBuffer.WF →
      ∀ fuel, N ≤ fuel → ∃ r k,
        FAudio_INTERNAL_MixCallback engine fuel audio N = some r ∧ r.ret = N ∧
        (∀ w ∈ r.writes, w.1 + w.2 ≤ N * (audio.platform.channelCount * 4)) ∧
        (∀ i, i < N * (audio.platform.channelCount * 4) →
          ∃ w ∈ r.writes, w.1 ≤ i ∧ i < w.1 + w.2) ∧
        (r.writes.map Prod.snd).sum = N * (audio.platform.channelCount * 4) ∧
        r.output.length = N * (audio.platform.channelCount * 4) ∧
        r.audio.tickCount = audio.tickCount + k ∧
        r.output = (audio.platform.ringBuffer.unread ++
          tickSegment engine audio.updateSize audio.platform.channelCount audio.tickCount k).take
            (N * (audio.platform.channelCount * 4)) ∧
        (1 ≤ audio.platform.channelCount → k = 0 ∨ ∃ j, k = j + 1 ∧
          audio.platform.ringBuffer.available +
            j * (audio.updateSize * (audio.platform.channelCount * 4))
            < N * (audio.platform.channelCount * 4)) ∧
        (audio.updateSize * (audio.platform.channelCount * 4) ≤ audio.platform.ringBuffer.max →
          r.audio.platform.ringBuffer.WF ∧
          audio.platform.ringBuffer.unread ++
            tickSegment engine audio.updateSize audio.platform.channelCount audio.tickCount k
            = r.output ++ r.audio.platform.ringBuffer.unread)) := by
  refine ⟨?_, ?_, ?_, ?_, ?_⟩
  · intro h fuel
    exact ⟨_, MixCallback_inactive engine fuel audio N h, rfl⟩
  · intro hact hU hsome fuel hfuel
    obtain ⟨s0, h0⟩ := mixStart_isSome audio N hsome
    obtain ⟨s, hs, -, -⟩ := mixLoop_rule engine audio.updateSize
      audio.platform.channelCount N hU (fun _ => True) (fun _ _ _ => trivial)
      fuel s0 (by omega) trivial
    exact ⟨_, MixCallback_of_loop engine fuel audio N hact s0 s h0 hs, rfl⟩
  · intro fuel r hr
    by_cases h : audio.active = 0
    · rw [MixCallback_inactive engine fuel audio N h] at hr
      simp only [Option.some.injEq] at hr
      rw [← hr]
    · obtain ⟨s0, s, -, -, hr⟩ := MixCallback_active engine fuel audio N h r hr
      rw [hr]
  · intro hact hU hav hN fuel
    exact MixCallback_never_returns engine audio N hact hU hav hN fuel
  · intro hact hU hdvd hwf fuel hfuel
    have hsome : 1 ≤ audio.platform.channelCount ∨ audio.platform.ringBuffer.available = 0 := by
      rcases Nat.eq_zero_or_pos audio.platform.channelCount with hz | hp
      · right
        rw [hz] at hdvd
        exact Nat.eq_zero_of_zero_dvd hdvd
      · left; exact hp
    have hul := unread_length _ hwf
    have hcap : audio.platform.ringBuffer.available ≤ audio.platform.ringBuffer.max := by
      obtain ⟨-, -, -, ha, -⟩ := hwf
      exact ha
    obtain ⟨s0, h0⟩ := mixStart_isSome audio N hsome
    have hinv0 : CoverInv (audio.platform.channelCount * 4) N s0 ∧
        OutInv engine audio.updateSize audio.platform.channelCount N
          audio.platform.ringBuffer.max audio.tickCount audio.platform.ringBuffer.unread s0 :=
      ⟨mixStart_CoverInv audio N s0 hdvd hcap h0, mixStart_OutInv engine audio N s0 hwf hdvd h0⟩
    obtain ⟨s, hs, ⟨hcov, hout⟩, hge⟩ := mixLoop_rule engine audio.updateSize
      audio.platform.channelCount N hU
      (fun s => CoverInv (audio.platform.channelCount * 4) N s ∧
        OutInv engine audio.updateSize audio.platform.channelCount N
          audio.platform.ringBuffer.max audio.tickCount audio.platform.ringBuffer.unread s)
      (fun s hi hlt => ⟨mixBody_CoverInv engine _ _ _ s hi.1 hlt,
        mixBody_OutInv engine _ _ _ _ _ _ s hi.2 hlt⟩) fuel s0 (by omega) hinv0
    obtain ⟨c, hf, hc⟩ := hcov
    have hceq : c = N * (audio.platform.channelCount * 4) := by
      rcases hc with ⟨hlt, -, -⟩ | ⟨-, hc⟩
      · omega
      · exact hc
    rw [hceq] at hf
    obtain ⟨hlen, k, htc, hd⟩ := hout
    rcases hd with ⟨hlt, -⟩ | ⟨-, hcontent, hmin, hring⟩
    · omega
    refine ⟨_, k, MixCallback_of_loop engine fuel audio N hact s0 s h0 hs, rfl,
      hf.1, hf.2.1, hf.2.2, hlen, htc, hcontent, ?_, hring⟩
    intro hch
    rcases hmin hch with hk | ⟨j, hk, hj⟩
    · exact Or.inl hk
    · refine Or.inr ⟨j, hk, ?_⟩
      rw [List.length_append, hul, tickSegment_length] at hj
      exact hj

/-- C1, at a concrete call: four frames from the example stream whose ring
holds one surplus frame.  The output is that frame, the two frames of tick 0
and the first frame of tick 1; two ticks are made and the second frame of
tick 1 is in the ring afterwards. -/
theorem C1_callback_delivers_exactly_N_frames_witness :
    demoAudioSurplus.active ≠ 0 ∧ 1 ≤ demoAudioSurplus.updateSize ∧
    demoAudioSurplus.platform.channelCount * 4 ∣ demoAudioSurplus.platform.ringBuffer.available ∧
    demoAudioSurplus.platform.ringBuffer.WF ∧
    (∃ r k, FAudio_INTERNAL_MixCallback demoEngine 4 demoAudioSurplus 4 = some r ∧ r.ret = 4 ∧
      (∀ w ∈ r.writes, w.1 + w.2 ≤ 4 * (demoAudioSurplus.platform.channelCount * 4)) ∧
      (∀ i, i < 4 * (demoAudioSurplus.platform.channelCount * 4) →
        ∃ w ∈ r.writes, w.1 ≤ i ∧ i < w.1 + w.2) ∧
      (r.writes.map Prod.snd).sum = 4 * (demoAudioSurplus.platform.channelCount * 4) ∧
      r.output.length = 4 * (demoAudioSurplus.platform.channelCount * 4) ∧
      r.audio.tickCount = demoAudioSurplus.tickCount + k ∧
      r.output = (demoAudioSurplus.platform.ringBuffer.unread ++
        tickSegment demoEngine demoAudioSurplus.updateSize
          demoAudioSurplus.platform.channelCount demoAudioSurplus.tickCount k).take
          (4 * (demoAudioSurplus.platform.channelCount * 4)) ∧
      (1 ≤ demoAudioSurplus.platform.channelCount → k = 0 ∨ ∃ j, k = j + 1 ∧
        demoAudioSurplus.platform.ringBuffer.available +
          j * (demoAudioSurplus.updateSize * (demoAudioSurplus.platform.channelCount * 4))
          < 4 * (demoAudioSurplus.platform.channelCount * 4)) ∧
      (demoAudioSurplus.updateSize * (demoAudioSurplus.platform.channelCount * 4)
          ≤ demoAudioSurplus.platform.ringBuffer.max →
        r.audio.platform.ringBuffer.WF ∧
        demoAudioSurplus.platform.ringBuffer.unread ++
          tickSegment demoEngine demoAudioSurplus.updateSize
            demoAudioSurplus.platform.channelCount demoAudioSurplus.tickCount k
          = r.output ++ r.audio.platform.ringBuffer.unread)) ∧
    Option.map (fun r => (r.output, r.audio.tickCount, r.audio.platform.ringBuffer.unread))
      (FAudio_INTERNAL_MixCallback demoEngine 4 demoAudioSurplus 4)
      = some ([15, 16, 17, 18, 1, 2, 3, 4, 5, 6, 7, 8, 11, 12, 13, 14], 2, [15, 16, 17, 18]) :=
  ⟨by decide, by decide, by decide, by decide,
   (C1_callback_delivers_exactly_N_frames demoEngine demoAudioSurplus 4).2.2.2.2
     (by decide) (by decide) (by decide) (by decide) 4 (by decide),
   by decide⟩

/-- C1 as stated fails: the example stream with `updateSize = 0` has an active
engine and an empty ring, and a call for one frame returns for no amount of
fuel (the loop adds 0 frames per iteration), so it has no return value. -/
theorem C1_callback_never_returns_counterexample :
    demoAudioNoQuantum.active ≠ 0 ∧ demoAudioNoQuantum.updateSize = 0 ∧
    ¬ (∃ fuel r, FAudio_INTERNAL_MixCallback demoEngine fuel demoAudioNoQuantum 1 = some r) :=
  ⟨by decide, by decide, fun ⟨fuel, r, h⟩ => by
    rw [MixCallback_never_returns demoEngine demoAudioNoQuantum 1 (by decide) (by decide)
      (by decide) (by decide) fuel] at h
    exact Option.noConfusion h⟩

end FAudioPlatform
